import Mathlib

/-!
# Linear-algebra core of `opengl-robot` (`linalg.h`, `matrix.cpp`, `vector.cpp`)

A shallow embedding of the `Matrix` and `Vector` classes and of the LU /
determinant / inverse routines built on `Matrix`.

Modelling conventions

* `double` is modelled by `ℚ` (exact arithmetic); `DBL_EPSILON` is `2⁻⁵²`.  The
  vector operators exist a second time in `double` arithmetic (`addDouble`,
  `subDouble`, `scaleDouble`, `divDouble`, `eqDouble`), where the result of each
  `+`, `-`, `*`, `/` is rounded to the nearest `double` (`roundDouble`).
* `unsigned int` is modelled by `Nat`; the only place where the source relies
  on wrap-around (the back-substitution loop of `Matrix::LU`) is modelled with
  explicit arithmetic modulo `2³²`.
* A `Matrix` object is its two extents and its storage, the storage being a
  total function from row and column index to the stored value.  The source
  never reads outside `[0,m) × [0,n)` in the routines embedded here.
* In-place loops are folds of single-cell updates over the loop index, in the
  order of the source.
* `throw LinAlgException(msg)` is `Except.error ⟨msg⟩`.  The methods that work
  in place throw before their first write, so an exception means the receiver
  is as it was (`Matrix.after`).
* `sqrt` of `<cmath>` is a parameter of the flat-array constructor and of `load`.
* State that outlives a call (`static int detFactor`, the caller's `b` of
  `Matrix::LU`) is passed in and returned explicitly, also when the call throws.
* For the effect of `LU`, `det` and `inverse` on the caller's objects the
  methods exist a second time over a heap of matrices (`Heap.LU`, `Heap.det`,
  `Heap.inverse`): the receiver and the reference `b` are addresses, reads of
  `m` and `n` and the copy `temp=*this` read the heap, and a write through `b`
  writes the heap.
-/

/-- Square matrices over `ℚ` in the sense of Mathlib (the mathematical reference). -/
abbrev SquareMat (k : ℕ) : Type := Matrix (Fin k) (Fin k) ℚ

/-- Leibniz determinant of a square matrix over `ℚ` (the mathematical reference). -/
abbrev leibnizDet {k : ℕ} (A : SquareMat k) : ℚ := Matrix.det A

deriving instance DecidableEq for Except

namespace LinAlg

/-! ## Scalars, exceptions, loops -/

/-- The constant `DBL_EPSILON` of `<cfloat>`: `2⁻⁵²`. -/
def DBL_EPSILON : ℚ := 1 / 4503599627370496

/-- The function `fabs` of `<cmath>`. -/
def fabs (x : ℚ) : ℚ := if x < 0 then -x else x

/-- Class `LinAlgException`: a carrier of the message passed to its constructor. -/
structure LinAlgException where
  /-- The Actual Error Message -/
  message : String
  deriving DecidableEq

/-- Accessor `LinAlgException::what()`. -/
def LinAlgException.what (e : LinAlgException) : String := e.message

/-- The loop `for (unsigned int i = start; i < start + count; i++) s = body i s`. -/
def forLoop {σ : Type} (body : Nat → σ → σ) : Nat → Nat → σ → σ
  | 0, _, s => s
  | count + 1, i, s => forLoop body count (i + 1) (body i s)

/-- A `for` loop whose body may throw: the first exception ends the loop. -/
def forLoopE {ε σ : Type} (body : Nat → σ → Except ε σ) : Nat → Nat → σ → Except ε σ
  | 0, _, s => Except.ok s
  | count + 1, i, s =>
    match body i s with
    | Except.ok s1 => forLoopE body count (i + 1) s1
    | Except.error e => Except.error e

/-- A `for` loop whose body may `break`: the body returns the new state and
whether it left the loop through `break`. -/
def forLoopBreak {σ : Type} (body : Nat → σ → σ × Bool) : Nat → Nat → σ → σ
  | 0, _, s => s
  | count + 1, i, s =>
    if (body i s).2 then (body i s).1 else forLoopBreak body count (i + 1) (body i s).1

/-- Decrement `i--` on an `unsigned int` (32 bits). -/
def wrapDec (i : Nat) : Nat := (i + 4294967295) % 4294967296

/-- The loop `for (unsigned int i = start; i >= 0 && i < m; i--) s = body i s`,
run for at most `fuel` iterations.  Started at `m - 1` it leaves through its
own test within `m` iterations (`forLoopDown_adequate`). -/
def forLoopDown {σ : Type} (m : Nat) (body : Nat → σ → σ) : Nat → Nat → σ → σ
  | 0, _, s => s
  | fuel + 1, i, s =>
    if 0 ≤ i ∧ i < m then forLoopDown m body fuel (wrapDec i) (body i s) else s

/-! ## `class Matrix` -/

/-- Class `Matrix`: `m` rows, `n` columns and the storage `matrix[i][j]`. -/
structure Matrix where
  /-- Number Of Rows -/
  m : Nat
  /-- Number Of Columns -/
  n : Nat
  /-- Array containing the actual matrix data. -/
  matrix : Nat → Nat → ℚ

namespace Matrix

/-- Constructor `Matrix::Matrix()`: the empty `0 × 0` matrix (`matrix = 0`). -/
def empty : Matrix := ⟨0, 0, fun _ _ => 0⟩

/-- Constructor `Matrix::Matrix(unsigned int a, unsigned int b)`: the zero-filled `a × b` matrix. -/
def zeros (a b : Nat) : Matrix := ⟨a, b, fun _ _ => 0⟩

/-- Constructor `Matrix::Matrix(double **values, unsigned int a, unsigned int b)`:
`matrix[i][j] = values[i][j]` for `i < a`, `j < b`. -/
def ofArray (values : List (List ℚ)) (a b : Nat) : Matrix :=
  ⟨a, b, fun i j => if i < a ∧ j < b then (values.getD i []).getD j 0 else 0⟩

/-- Accessor `Matrix::at(a, b)`. -/
def «at» (M : Matrix) (a b : Nat) : ℚ := M.matrix a b

/-- Mutator `Matrix::set(unsigned int a, unsigned int b, double v)`: `matrix[a][b] = v`. -/
def set (M : Matrix) (a b : Nat) (v : ℚ) : Matrix :=
  { M with matrix := fun i j => if i = a ∧ j = b then v else M.matrix i j }

/-- The leading `k × k` block of the storage as a mathematical matrix. -/
def toSquare (M : Matrix) (k : Nat) : SquareMat k := fun i j => M.matrix i j

/-- The entries of the matrix, row by row (what `operator<<` prints). -/
def rows (M : Matrix) : List (List ℚ) :=
  (List.range M.m).map fun i => (List.range M.n).map fun j => M.matrix i j

/-- Matrix multiplication `Matrix::operator*(Matrix &other)`. -/
def mul (self other : Matrix) : Except LinAlgException Matrix :=
  if self.n ≠ other.m then
    Except.error ⟨"Incompatible Dimensions"⟩
  else
    let answer := zeros self.m other.n
    Except.ok
      (forLoop (fun i answer =>
        forLoop (fun j answer =>
          forLoop (fun k answer =>
            answer.set i j (answer.matrix i j + self.matrix i k * other.matrix k j))
            self.n 0 answer)
          answer.n 0 answer)
        answer.m 0 answer)

/-- Method `Matrix::identity()`: on failure the receiver is untouched. -/
def identity (M : Matrix) : Except LinAlgException Matrix :=
  if M.n ≠ M.m then
    Except.error ⟨"Not a square matrix"⟩
  else
    Except.ok
      (forLoop (fun i M =>
        forLoop (fun j M => if i ≠ j then M.set i j 0 else M.set i j 1) M.n 0 M)
        M.m 0 M)

/-- Method `Matrix::swapRow(unsigned int a, unsigned int b)`. -/
def swapRow (M : Matrix) (a b : Nat) : Except LinAlgException Matrix :=
  if a ≥ M.m ∨ b ≥ M.m then
    Except.error ⟨"Row out of bounds"⟩
  else
    Except.ok
      (forLoop (fun i M =>
        let temp := M.matrix a i
        (M.set a i (M.matrix b i)).set b i temp)
        M.n 0 M)

/-- Method `Matrix::pivot(unsigned int a, unsigned int b, bool rowReduce)`. -/
def pivot (M : Matrix) (a b : Nat) (rowReduce : Bool) : Except LinAlgException Matrix :=
  if a ≥ M.m ∨ b ≥ M.n then
    Except.error ⟨"Dimensions out of bounds"⟩
  else
    let pivotElement := M.matrix a b
    if fabs pivotElement < DBL_EPSILON then
      Except.error ⟨"Divide by zero"⟩
    else
      let M1 := forLoop (fun i M => M.set a i (M.matrix a i / pivotElement)) M.n 0 M
      Except.ok
        (forLoop (fun i M =>
          if rowReduce && (i != a) && decide (fabs (M.matrix i b) > DBL_EPSILON) then
            let factor := M.matrix i b
            forLoop (fun j M => M.set i j (M.matrix i j - factor * M.matrix a j)) M.n 0 M
          else M)
          M1.m 0 M1)

/-- The row search of `Matrix::LU` and `Matrix::inverse`:
`largestValue = 0; for (j = 0; j < n; j++)
  if (fabs(temp[j][i]) > fabs(temp[largestValue][i]) && j != i) largestValue = j;`. -/
def largestValue (temp : Matrix) (n i : Nat) : Nat :=
  forLoop (fun j largestValue =>
    if decide (fabs (temp.matrix j i) > fabs (temp.matrix largestValue i)) && (j != i) then j
    else largestValue)
    n 0 0

/-- The inner loop of the singularity scan over row `i`:
`for (j = 0; j < n; j++) { if (fabs(temp[i][j]) > DBL_EPSILON) break;
else if (j == (n-1)) singular = true; }`. -/
def scanRow (temp : Matrix) (n i : Nat) (singular : Bool) : Bool :=
  forLoopBreak (fun j singular =>
    if fabs (temp.matrix i j) > DBL_EPSILON then (singular, true)
    else if j = n - 1 then (true, false)
    else (singular, false))
    n 0 singular

/-- Row `i` of `temp` is what the scan takes for a row of zeros: over its `n`
columns, `n ≥ 1`, no entry exceeds epsilon in magnitude. -/
def rowNegligible (temp : Matrix) (n i : Nat) : Prop :=
  0 < n ∧ ∀ j, j < n → ¬ fabs (temp.matrix i j) > DBL_EPSILON

/-- The matrix `T` is `n × n` and holds the identity. -/
def isIdentity (n : Nat) (T : Matrix) : Prop :=
  T.m = n ∧ T.n = n ∧ ∀ i j, i < n → j < n → T.matrix i j = if i = j then 1 else 0

/-- The singularity scan of `Matrix::det` and `Matrix::LU`:
`for (i = 0; i < m; i++) { <scan row i>; if (singular) break; }`. -/
def scanSingular (temp : Matrix) (m n : Nat) : Bool :=
  forLoopBreak (fun i singular =>
    let singular := scanRow temp n i singular
    (singular, singular))
    m 0 false

end Matrix

/-- Struct `LUDecomposition` of `linalg.h`. -/
structure LUDecomposition where
  /-- Main Matrix -/
  A : Matrix
  /-- Lower Triangular Matrix -/
  L : Matrix
  /-- Upper Triangular Matrix -/
  U : Matrix
  /-- Answer Matrix -/
  b : Matrix
  /-- This is true when the solver attempted to solve the system. -/
  solved : Bool
  /-- This is true when the solver found a real non trivial solution. -/
  «exists» : Bool

/-- What a call of `Matrix::LU` leaves behind: the returned record or the
exception thrown, the caller's `b` (absent when `LU()` is called without
argument) and the file-level `static int detFactor`. -/
structure LUOutcome where
  /-- The returned record, or the exception. -/
  result : Except LinAlgException LUDecomposition
  /-- The caller's `b` after the call. -/
  b : Option Matrix
  /-- The variable `detFactor` after the call. -/
  detFactor : Int

/-- The variables the elimination loop of `Matrix::LU` works on: the locals
`temp`, `L`, `U`, the caller's `b` and `detFactor`. -/
structure LUState where
  /-- The working copy of the receiver. -/
  temp : Matrix
  /-- The local `L`. -/
  L : Matrix
  /-- The local `U`. -/
  U : Matrix
  /-- The caller's `b`. -/
  b : Option Matrix
  /-- The variable `detFactor`. -/
  detFactor : Int

/-- The variables the elimination loop of `Matrix::inverse` works on. -/
structure InvState where
  /-- The working copy of the receiver. -/
  temp : Matrix
  /-- The accumulator `*inv`. -/
  inv : Matrix

namespace Matrix

/-- The row exchange at step `i` of `Matrix::LU` (source lines 604-616).  An
exception leaves the caller's `b` and `detFactor` as they are at the throw.
The test `if (solve)` is the test whether `b` was passed. -/
def LUswap (n i : Nat) (s : LUState) : Except (LinAlgException × Option Matrix × Int) LUState :=
  if fabs (s.temp.matrix i i) < DBL_EPSILON then
    let largestValue := largestValue s.temp n i
    let detFactor := s.detFactor * -1
    match s.temp.swapRow i largestValue with
    | Except.error e => Except.error (e, s.b, detFactor)
    | Except.ok temp =>
      match s.b with
      | some b =>
        match b.swapRow i largestValue with
        | Except.error e => Except.error (e, s.b, detFactor)
        | Except.ok b1 => Except.ok { s with temp := temp, b := some b1, detFactor := detFactor }
      | none => Except.ok { s with temp := temp, detFactor := detFactor }
  else
    Except.ok s

/-- One iteration of the elimination loop of `Matrix::LU` (source lines 600-624). -/
def LUstep (m n i : Nat) (s : LUState) : Except (LinAlgException × Option Matrix × Int) LUState :=
  match LUswap n i s with
  | Except.error e => Except.error e
  | Except.ok s =>
    let L := s.L.set i i (s.temp.matrix i i)
    let L := forLoop (fun j L => L.set j i (s.temp.matrix j i)) (n - (i + 1)) (i + 1) L
    match s.temp.pivot i i true with
    | Except.error e => Except.error (e, s.b, s.detFactor)
    | Except.ok temp =>
      let U := forLoop (fun j U => U.set i j (temp.matrix i j)) (m - (i + 1)) (i + 1) s.U
      Except.ok { s with temp := temp, L := L, U := U }

/-- Forward substitution of `Matrix::LU` (source lines 643-649). -/
def forwardSubst (m : Nat) (L b y : Matrix) : Matrix :=
  forLoop (fun i y =>
    let c := forLoop (fun j c => c + L.matrix i j * y.matrix j 0) i 0 0
    y.set i 0 ((b.matrix i 0 - c) / L.matrix i i))
    m 0 y

/-- Back substitution of `Matrix::LU` (source lines 651-657); the outer loop
counts down on an `unsigned int` and runs at most `m` times. -/
def backSubst (m : Nat) (U y b : Matrix) : Matrix :=
  forLoopDown m (fun i b =>
    let c := forLoop (fun j c => c + U.matrix i j * b.matrix j 0) (m - (i + 1)) (i + 1) 0
    b.set i 0 (y.matrix i 0 - c))
    m (wrapDec m) b

/-- Method `Matrix::LU(Matrix &b)`; `b = none` is the call without argument. -/
def LU (self : Matrix) (b : Option Matrix) (detFactor : Int) : LUOutcome :=
  if self.n ≠ self.m then
    ⟨Except.error ⟨"Not a square matrix"⟩, b, detFactor⟩
  else if (match b with
      | some b => decide (b.m ≠ self.m ∨ b.n ≠ 1)
      | none => false) then
    ⟨Except.error ⟨"Incompatible dimensions for Matrix b"⟩, b, detFactor⟩
  else
    let y := zeros self.n 1
    match (zeros self.n self.n).identity with
    | Except.error e => ⟨Except.error e, b, detFactor⟩
    | Except.ok U =>
      match forLoopE (LUstep self.m self.n) self.m 0
          ⟨self, zeros self.n self.n, U, b, 1⟩ with
      | Except.error (e, b1, detFactor1) => ⟨Except.error e, b1, detFactor1⟩
      | Except.ok s =>
        match s.b with
        | some b1 =>
          let singular := scanSingular s.temp self.m self.n
          if !singular then
            let y := forwardSubst self.m s.L b1 y
            let b2 := backSubst self.m s.U y b1
            ⟨Except.ok ⟨s.temp, s.L, s.U, empty, true, true⟩, some b2, s.detFactor⟩
          else
            ⟨Except.ok ⟨s.temp, s.L, s.U, empty, true, false⟩, some b1, s.detFactor⟩
        | none =>
          ⟨Except.ok ⟨s.temp, s.L, s.U, empty, false, false⟩, none, s.detFactor⟩

/-- Method `Matrix::det()`: the value returned or the exception thrown, and
`detFactor` after the call. -/
def det (self : Matrix) (detFactor : Int) : Except LinAlgException ℚ × Int :=
  if self.n ≠ self.m then
    (Except.error ⟨"Not a square matrix"⟩, detFactor)
  else
    let out := self.LU none detFactor
    match out.result with
    | Except.error e => (Except.error e, out.detFactor)
    | Except.ok LU =>
      let temp := LU.A
      let L := LU.L
      let singular := scanSingular temp self.m self.n
      if singular then
        (Except.ok 0, out.detFactor)
      else
        let det := forLoop (fun i det => det * L.matrix i i) self.m 0 1
        (Except.ok (det * out.detFactor), out.detFactor)

/-- One iteration of the elimination loop of `Matrix::inverse` (source lines 493-530). -/
def inverseStep (m n i : Nat) (s : InvState) : Except LinAlgException InvState :=
  match (if fabs (s.temp.matrix i i) < DBL_EPSILON then
      let largestValue := largestValue s.temp n i
      match s.temp.swapRow i largestValue with
      | Except.error e => Except.error e
      | Except.ok temp =>
        match s.inv.swapRow i largestValue with
        | Except.error e => Except.error e
        | Except.ok inv => Except.ok (InvState.mk temp inv)
    else Except.ok s) with
  | Except.error e => Except.error e
  | Except.ok s =>
    let pivotElement := s.temp.matrix i i
    if fabs pivotElement < DBL_EPSILON then
      Except.error ⟨"Divide by zero"⟩
    else
      let s := forLoop (fun j s =>
        InvState.mk (s.temp.set i j (s.temp.matrix i j / pivotElement))
          (s.inv.set i j (s.inv.matrix i j / pivotElement)))
        n 0 s
      Except.ok
        (forLoop (fun j s =>
          if (j != i) && decide (fabs (s.temp.matrix j i) > DBL_EPSILON) then
            let factor := s.temp.matrix j i
            forLoop (fun k s =>
              InvState.mk (s.temp.set j k (s.temp.matrix j k - factor * s.temp.matrix i k))
                (s.inv.set j k (s.inv.matrix j k - factor * s.inv.matrix i k)))
              n 0 s
          else s)
          m 0 s)

/-- The elimination loop of `Matrix::inverse`, from the copy of the receiver
and the identity accumulator (source lines 490-530). -/
def inverseLoop (self : Matrix) : Except LinAlgException InvState :=
  match (zeros self.n self.n).identity with
  | Except.error e => Except.error e
  | Except.ok inv => forLoopE (inverseStep self.m self.n) self.m 0 ⟨self, inv⟩

/-- Method `Matrix::inverse()`.  In the final scan the `throw` stands where
`det()` has its `break`. -/
def inverse (self : Matrix) : Except LinAlgException Matrix :=
  if self.n ≠ self.m then
    Except.error ⟨"Not a square matrix"⟩
  else
    match inverseLoop self with
    | Except.error e => Except.error e
    | Except.ok s =>
      if scanSingular s.temp self.m self.n then
        Except.error ⟨"Singular matrix"⟩
      else
        Except.ok s.inv

end Matrix

/-! ## Flat arrays -/

/-- The assignment `values[k] = x` on a `double *` array. -/
def arraySet (values : Nat → ℚ) (k : Nat) (x : ℚ) : Nat → ℚ :=
  fun i => if i = k then x else values i

namespace Matrix

/-- The receiver after a call of one of the methods that work in place
(`pivot`, `swapRow`, `swapCol`, `identity`): the matrix written when the call
returns, the receiver as it was when the call throws, every `throw` of these
methods standing before their first write. -/
def after (M : Matrix) (r : Except LinAlgException Matrix) : Matrix :=
  match r with
  | Except.ok R => R
  | Except.error _ => M

/-- Method `Matrix::swapCol(unsigned int a, unsigned int b)`. -/
def swapCol (M : Matrix) (a b : Nat) : Except LinAlgException Matrix :=
  if a ≥ M.n ∨ b ≥ M.n then
    Except.error ⟨"Column out of bounds"⟩
  else
    Except.ok
      (forLoop (fun i M =>
        let temp := M.matrix i a
        (M.set i a (M.matrix i b)).set i b temp)
        M.m 0 M)

/-- The body shared by `Matrix::Matrix(double *values, unsigned int a, bool colOrder)`
and `Matrix::load(double *values, unsigned int a, bool colOrder)`.  The
parameter `sqrt` stands for `sqrt` of `<cmath>` on the `double` value of an
`unsigned int`; `pow(x, 2.0)` is `x * x`, and the cast `(unsigned int)` drops
the fraction. -/
def loadValues (sqrt : Nat → ℚ) (values : Nat → ℚ) (a : Nat) (colOrder : Bool) :
    Except LinAlgException Matrix :=
  if fabs (sqrt a * sqrt a - a) > DBL_EPSILON then
    Except.error ⟨"Not a square matrix"⟩
  else
    let n := (Rat.floor (sqrt a)).toNat
    let M := zeros n n
    Except.ok
      (forLoop (fun i M =>
        forLoop (fun j M =>
          if colOrder then M.set i j (values (n * j + i))
          else M.set i j (values (n * i + j)))
          n 0 M)
        n 0 M)

/-- Constructor `Matrix::Matrix(double *values, unsigned int a, bool colOrder)`. -/
def ofValues (sqrt : Nat → ℚ) (values : Nat → ℚ) (a : Nat) (colOrder : Bool) :
    Except LinAlgException Matrix :=
  loadValues sqrt values a colOrder

/-- Method `Matrix::load(double *values, unsigned int a, bool colOrder)`: the
extents and the storage of the receiver are replaced. -/
def load (_self : Matrix) (sqrt : Nat → ℚ) (values : Nat → ℚ) (a : Nat) (colOrder : Bool) :
    Except LinAlgException Matrix :=
  loadValues sqrt values a colOrder

/-- Method `Matrix::values(bool colOrder)`: the array `new double[m*n]` it fills. -/
def values (M : Matrix) (colOrder : Bool) : Nat → ℚ :=
  let values : Nat → ℚ := fun _ => 0
  if colOrder then
    forLoop (fun i values =>
      forLoop (fun j values => arraySet values (i * M.m + j) (M.matrix j i)) M.m 0 values)
      M.n 0 values
  else
    forLoop (fun i values =>
      forLoop (fun j values => arraySet values (i * M.n + j) (M.matrix i j)) M.n 0 values)
      M.m 0 values

end Matrix

/-! ## `class Vector` -/

/-- Class `Vector`: the dimension `n` and the storage `vector[i]`. -/
structure Vector where
  /-- Indicates the dimension of the vector. -/
  n : Nat
  /-- Array that stores the actual vector. -/
  vector : Nat → ℚ

namespace Vector

/-- Constructor `Vector::Vector(unsigned int a)`: the zero vector of dimension `a`. -/
def zeros (a : Nat) : Vector := ⟨a, fun _ => 0⟩

/-- Constructor `Vector::Vector(double *values, unsigned int a)`. -/
def ofArray (values : List ℚ) (a : Nat) : Vector :=
  ⟨a, fun i => if i < a then values.getD i 0 else 0⟩

/-- Mutator `Vector::set(unsigned int a, double v)`: `vector[a] = v`. -/
def set (u : Vector) (a : Nat) (v : ℚ) : Vector :=
  { u with vector := arraySet u.vector a v }

/-- The components of the vector in order (what `operator<<` prints). -/
def toList (u : Vector) : List ℚ := (List.range u.n).map u.vector

/-- Cross product `Vector::operator%(Vector &other)`. -/
def cross (self other : Vector) : Except LinAlgException Vector :=
  if self.n ≠ 3 ∨ other.n ≠ 3 then
    Except.error ⟨"Cross product is only defined in 3 space"⟩
  else
    let answer := zeros 3
    let answer := answer.set 0 (self.vector 1 * other.vector 2 - self.vector 2 * other.vector 1)
    let answer := answer.set 1 (self.vector 2 * other.vector 0 - self.vector 0 * other.vector 2)
    let answer := answer.set 2 (self.vector 0 * other.vector 1 - self.vector 1 * other.vector 0)
    Except.ok answer

/-- Comparison `Vector::operator==(Vector &other)`. -/
def eq (self other : Vector) : Bool :=
  forLoopBreak (fun i equal =>
    if fabs (self.vector i - other.vector i) > DBL_EPSILON then (false, true)
    else (equal, false))
    self.n 0 true

end Vector

/-! ## Loops, objects and predicates of the later claims -/

/-- The loop `for (unsigned int i = start; i >= 0 && i < m; i--) s = body i s`
with the fuel made visible: `none` when the fuel runs out while the test of the
loop still holds, the final state when the loop leaves through its test. -/
def forLoopDownFuel {σ : Type} (m : Nat) (body : Nat → σ → σ) : Nat → Nat → σ → Option σ
  | 0, i, s => if 0 ≤ i ∧ i < m then none else some s
  | fuel + 1, i, s =>
    if 0 ≤ i ∧ i < m then forLoopDownFuel m body fuel (wrapDec i) (body i s) else some s

namespace Matrix

/-- The elimination loop of `Matrix::LU` from its initial state (source lines
594-624): `temp` a copy of the receiver, `L` zero, `U` the identity,
`detFactor = 1`. -/
def LUeliminate (self : Matrix) (b : Option Matrix) (detFactor : Int) :
    Except (LinAlgException × Option Matrix × Int) LUState :=
  match (zeros self.n self.n).identity with
  | Except.error e => Except.error (e, b, detFactor)
  | Except.ok U =>
    forLoopE (LUstep self.m self.n) self.m 0 ⟨self, zeros self.n self.n, U, b, 1⟩

/-- The column search of `Matrix::rref` in row `i` (source lines 724-733):
`col = n; for (j = 0; j < n; j++) if (fabs(matrix[i][j]) > DBL_EPSILON) { col = j; break; }`. -/
def rrefCol (M : Matrix) (i : Nat) : Nat :=
  forLoopBreak (fun j col =>
    if fabs (M.matrix i j) > DBL_EPSILON then (j, true) else (col, false))
    M.n 0 M.n

/-- Method `Matrix::rref()`. -/
def rref (M : Matrix) : Except LinAlgException Matrix :=
  match forLoopE (fun i (M : Matrix) =>
      let col := rrefCol M i
      if col ≠ M.n then M.pivot i col true else Except.ok M)
      M.m 0 M with
  | Except.error e => Except.error e
  | Except.ok M =>
    Except.ok
      (forLoop (fun i (M : Matrix) =>
        forLoop (fun j (M : Matrix) =>
          if fabs (M.matrix i j) < DBL_EPSILON then M.set i j 0 else M)
          M.n 0 M)
        M.m 0 M)

/-- The working copy and the accumulator of `inverse()` satisfy `inv · A = temp`
over the `n × n` block. -/
def leftProduct (n : Nat) (A : Matrix) (s : InvState) : Prop :=
  ∀ r c, r < n → c < n →
    ∑ t in Finset.range n, s.inv.matrix r t * A.matrix t c = s.temp.matrix r c

/-- The matrix `L` is lower triangular and `U` is upper triangular with a
unit diagonal over its first `n` rows. -/
def isTriangularLU (n : Nat) (L U : Matrix) : Prop :=
  (∀ x y, x < y → L.matrix x y = 0) ∧ (∀ x, x < n → U.matrix x x = 1) ∧
    (∀ x y, y < x → U.matrix x y = 0)

end Matrix

/-! ## `double` arithmetic -/

namespace Vector

end Vector

/-! ## The caller's matrices by address -/

/-- The matrices that exist when a method is called, by address.  The receiver
`*this` and a matrix passed by reference (`Matrix &b`) are addresses into the
heap; two references may hold one address. -/
abbrev Heap := Nat → Matrix

/-- An assignment through a reference: the object at address `p` becomes `M`. -/
def writeAt (h : Heap) (p : Nat) (M : Matrix) : Heap := fun a => if a = p then M else h a

/-- The variables of `Matrix::LU` during its elimination loop, the caller's
matrices by address: the heap, the locals `temp`, `L`, `U`, and `detFactor`. -/
structure LUVars where
  /-- The caller's matrices, the receiver and `b` among them. -/
  heap : Heap
  /-- The local `temp`. -/
  temp : Matrix
  /-- The local `L`. -/
  L : Matrix
  /-- The local `U`. -/
  U : Matrix
  /-- The variable `detFactor`. -/
  detFactor : Int

/-- The variables of `Matrix::inverse` during its elimination loop. -/
structure InvVars where
  /-- The caller's matrices, the receiver among them. -/
  heap : Heap
  /-- The local `temp`. -/
  temp : Matrix
  /-- The fresh object `*inv`. -/
  inv : Matrix

/-- What a call leaves behind: the value returned or the exception thrown,
the caller's matrices and `detFactor`. -/
structure Outcome (α : Type) where
  /-- The value returned, or the exception. -/
  result : Except LinAlgException α
  /-- The caller's matrices after the call. -/
  heap : Heap
  /-- The variable `detFactor` after the call. -/
  detFactor : Int

/-- Two runs agree: both return, with related states, or both throw, with
related exceptions. -/
def relExcept {ε₁ ε₂ σ τ : Type} (R : σ → τ → Prop) (RE : ε₁ → ε₂ → Prop) :
    Except ε₁ σ → Except ε₂ τ → Prop
  | Except.ok s, Except.ok t => R s t
  | Except.error e1, Except.error e2 => RE e1 e2
  | _, _ => False

namespace Heap

/-- The heap `h1` differs from `h` at most in the object at the address `b`,
and every object of `h1` has the dimensions it has in `h`. -/
def frame (h : Heap) (b : Option Nat) (h1 : Heap) : Prop :=
  (∀ a, b ≠ some a → h1 a = h a) ∧ ∀ a, (h1 a).m = (h a).m ∧ (h1 a).n = (h a).n

/-- The row exchange at step `i` of `Matrix::LU` (source lines 604-616) on the
receiver at address `this`, with `b` the address passed for `Matrix &b` (`none`
for the null reference): `n` is read from the receiver, `temp.swapRow` writes
the local, `b.swapRow` writes the object at `b`. -/
def LUswap (this : Nat) (b : Option Nat) (i : Nat) (s : LUVars) :
    Except (LinAlgException × Heap × Int) LUVars :=
  if fabs (s.temp.matrix i i) < DBL_EPSILON then
    let largestValue := Matrix.largestValue s.temp (s.heap this).n i
    let detFactor := s.detFactor * -1
    match s.temp.swapRow i largestValue with
    | Except.error e => Except.error (e, s.heap, detFactor)
    | Except.ok temp =>
      match b with
      | some p =>
        match (s.heap p).swapRow i largestValue with
        | Except.error e => Except.error (e, s.heap, detFactor)
        | Except.ok b1 =>
          Except.ok { s with heap := writeAt s.heap p b1, temp := temp, detFactor := detFactor }
      | none => Except.ok { s with temp := temp, detFactor := detFactor }
  else
    Except.ok s

/-- One iteration of the elimination loop of `Matrix::LU` (source lines
600-624) on the receiver at address `this`. -/
def LUstep (this : Nat) (b : Option Nat) (i : Nat) (s : LUVars) :
    Except (LinAlgException × Heap × Int) LUVars :=
  match LUswap this b i s with
  | Except.error e => Except.error e
  | Except.ok s =>
    let L := s.L.set i i (s.temp.matrix i i)
    let L := forLoop (fun j L => L.set j i (s.temp.matrix j i))
      ((s.heap this).n - (i + 1)) (i + 1) L
    match s.temp.pivot i i true with
    | Except.error e => Except.error (e, s.heap, s.detFactor)
    | Except.ok temp =>
      let U := forLoop (fun j U => U.set i j (temp.matrix i j))
        ((s.heap this).m - (i + 1)) (i + 1) s.U
      Except.ok { s with temp := temp, L := L, U := U }

/-- Back substitution of `Matrix::LU` (source lines 651-657):
`b.matrix[i][0]=y.matrix[i][0]-c` writes the object at address `p`. -/
def backSubst (this p : Nat) (U y : Matrix) (h : Heap) : Heap :=
  forLoopDown (h this).m (fun i h =>
    let c := forLoop (fun j c => c + U.matrix i j * (h p).matrix j 0)
      ((h this).m - (i + 1)) (i + 1) 0
    writeAt h p ((h p).set i 0 (y.matrix i 0 - c)))
    (h this).m (wrapDec (h this).m) h

/-- Method `Matrix::LU(Matrix &b)` called on the receiver at address `this`
with the reference `b`.  The receiver is read through `m`, `n` and the copy
`temp=*this`; the writes go to the locals and, through `b`, to the heap. -/
def LU (h : Heap) (this : Nat) (b : Option Nat) (detFactor : Int) : Outcome LUDecomposition :=
  if (h this).n ≠ (h this).m then
    ⟨Except.error ⟨"Not a square matrix"⟩, h, detFactor⟩
  else if (match b with
      | some p => decide ((h p).m ≠ (h this).m ∨ (h p).n ≠ 1)
      | none => false) then
    ⟨Except.error ⟨"Incompatible dimensions for Matrix b"⟩, h, detFactor⟩
  else
    let y := Matrix.zeros (h this).n 1
    match (Matrix.zeros (h this).n (h this).n).identity with
    | Except.error e => ⟨Except.error e, h, detFactor⟩
    | Except.ok U =>
      match forLoopE (LUstep this b) (h this).m 0
          ⟨h, h this, Matrix.zeros (h this).n (h this).n, U, 1⟩ with
      | Except.error (e, h1, detFactor1) => ⟨Except.error e, h1, detFactor1⟩
      | Except.ok s =>
        match b with
        | some p =>
          let singular := Matrix.scanSingular s.temp (s.heap this).m (s.heap this).n
          if !singular then
            let y := Matrix.forwardSubst (s.heap this).m s.L (s.heap p) y
            let h2 := backSubst this p s.U y s.heap
            ⟨Except.ok ⟨s.temp, s.L, s.U, Matrix.empty, true, true⟩, h2, s.detFactor⟩
          else
            ⟨Except.ok ⟨s.temp, s.L, s.U, Matrix.empty, true, false⟩, s.heap, s.detFactor⟩
        | none =>
          ⟨Except.ok ⟨s.temp, s.L, s.U, Matrix.empty, false, false⟩, s.heap, s.detFactor⟩

/-- Method `Matrix::det()` called on the receiver at address `this`: it calls
`this->LU()` and works on the copies `temp=LU.A`, `L=LU.L`. -/
def det (h : Heap) (this : Nat) (detFactor : Int) : Outcome ℚ :=
  if (h this).n ≠ (h this).m then
    ⟨Except.error ⟨"Not a square matrix"⟩, h, detFactor⟩
  else
    let out := LU h this none detFactor
    match out.result with
    | Except.error e => ⟨Except.error e, out.heap, out.detFactor⟩
    | Except.ok LU =>
      let temp := LU.A
      let L := LU.L
      let singular := Matrix.scanSingular temp (out.heap this).m (out.heap this).n
      if singular then
        ⟨Except.ok 0, out.heap, out.detFactor⟩
      else
        let det := forLoop (fun i det => det * L.matrix i i) (out.heap this).m 0 1
        ⟨Except.ok (det * out.detFactor), out.heap, out.detFactor⟩

/-- One iteration of the elimination loop of `Matrix::inverse` (source lines
493-530) on the receiver at address `this`: every write goes to the local
`temp` or to the fresh object `*inv`. -/
def inverseStep (this i : Nat) (s : InvVars) : Except (LinAlgException × Heap) InvVars :=
  match (if fabs (s.temp.matrix i i) < DBL_EPSILON then
      let largestValue := Matrix.largestValue s.temp (s.heap this).n i
      match s.temp.swapRow i largestValue with
      | Except.error e => Except.error (e, s.heap)
      | Except.ok temp =>
        match s.inv.swapRow i largestValue with
        | Except.error e => Except.error (e, s.heap)
        | Except.ok inv => Except.ok { s with temp := temp, inv := inv }
    else Except.ok s) with
  | Except.error e => Except.error e
  | Except.ok s =>
    let pivotElement := s.temp.matrix i i
    if fabs pivotElement < DBL_EPSILON then
      Except.error (⟨"Divide by zero"⟩, s.heap)
    else
      let s := forLoop (fun j (s : InvVars) =>
        { s with temp := s.temp.set i j (s.temp.matrix i j / pivotElement),
                 inv := s.inv.set i j (s.inv.matrix i j / pivotElement) })
        (s.heap this).n 0 s
      Except.ok
        (forLoop (fun j (s : InvVars) =>
          if (j != i) && decide (fabs (s.temp.matrix j i) > DBL_EPSILON) then
            let factor := s.temp.matrix j i
            forLoop (fun k (s : InvVars) =>
              { s with temp := s.temp.set j k (s.temp.matrix j k - factor * s.temp.matrix i k),
                       inv := s.inv.set j k (s.inv.matrix j k - factor * s.inv.matrix i k) })
              (s.heap this).n 0 s
          else s)
          (s.heap this).m 0 s)

/-- Method `Matrix::inverse()` called on the receiver at address `this`; the
matrix returned is the fresh object `*inv`. -/
def inverse (h : Heap) (this : Nat) : Except LinAlgException Matrix × Heap :=
  if (h this).n ≠ (h this).m then
    (Except.error ⟨"Not a square matrix"⟩, h)
  else
    match (Matrix.zeros (h this).n (h this).n).identity with
    | Except.error e => (Except.error e, h)
    | Except.ok inv =>
      match forLoopE (inverseStep this) (h this).m 0 ⟨h, h this, inv⟩ with
      | Except.error (e, h1) => (Except.error e, h1)
      | Except.ok s =>
        if Matrix.scanSingular s.temp (s.heap this).m (s.heap this).n then
          (Except.error ⟨"Singular matrix"⟩, s.heap)
        else
          (Except.ok s.inv, s.heap)

end Heap

end LinAlg

/-! # Verification -/

namespace LinAlg

/-! ## Loops -/

/-- Invariant rule for `forLoop`: an invariant that holds on entry and is kept
by every iteration holds on exit. -/
theorem forLoop_invariant {σ : Type} (body : Nat → σ → σ) (P : Nat → σ → Prop) :
    ∀ (count start : Nat) (s : σ), P start s →
      (∀ i t, start ≤ i → i < start + count → P i t → P (i + 1) (body i t)) →
      P (start + count) (forLoop body count start s) := by
  intro count
  induction count with
  | zero => intro start s h0 _; simpa [forLoop] using h0
  | succ k ih =>
    intro start s h0 hstep
    have h1 : P (start + 1) (body start s) := hstep start s (Nat.le_refl _) (by omega) h0
    have h2 := ih (start + 1) (body start s) h1
      (fun i t hi hlt hP => hstep i t (by omega) (by omega) hP)
    have e : start + (k + 1) = start + 1 + k := by omega
    rw [e]
    simpa [forLoop] using h2

/-- A loop whose body never changes the state returns the state it was given. -/
theorem forLoop_fixed {σ : Type} (body : Nat → σ → σ) (count start : Nat) (s : σ)
    (h : ∀ i, start ≤ i → i < start + count → body i s = s) :
    forLoop body count start s = s := by
  have := forLoop_invariant body (fun _ t => t = s) count start s rfl
    (fun i t hi hlt ht => by subst ht; exact h i hi hlt)
  exact this

/-- Invariant rule for `forLoopE` when the loop ends normally. -/
theorem forLoopE_invariant {ε σ : Type} (body : Nat → σ → Except ε σ) (P : Nat → σ → Prop) :
    ∀ (count start : Nat) (s r : σ), P start s →
      (∀ i t u, start ≤ i → i < start + count → P i t → body i t = Except.ok u → P (i + 1) u) →
      forLoopE body count start s = Except.ok r → P (start + count) r := by
  intro count
  induction count with
  | zero =>
    intro start s r h0 _ hr
    simp only [forLoopE, Except.ok.injEq] at hr
    subst hr
    simpa using h0
  | succ k ih =>
    intro start s r h0 hstep hr
    simp only [forLoopE] at hr
    cases hb : body start s with
    | error e => rw [hb] at hr; cases hr
    | ok u =>
      rw [hb] at hr
      have h1 : P (start + 1) u := hstep start s u (Nat.le_refl _) (by omega) h0 hb
      have h2 := ih (start + 1) u r h1
        (fun i t v hi hlt hP hv => hstep i t v (by omega) (by omega) hP hv) hr
      have e : start + (k + 1) = start + 1 + k := by omega
      rw [e]
      exact h2

/-- A `forLoopE` whose every iteration succeeds, keeping an invariant, ends normally. -/
theorem forLoopE_ok {ε σ : Type} (body : Nat → σ → Except ε σ) (P : Nat → σ → Prop) :
    ∀ (count start : Nat) (s : σ), P start s →
      (∀ i t, start ≤ i → i < start + count → P i t → ∃ u, body i t = Except.ok u ∧ P (i + 1) u) →
      ∃ r, forLoopE body count start s = Except.ok r ∧ P (start + count) r := by
  intro count
  induction count with
  | zero => intro start s h0 _; exact ⟨s, rfl, by simpa using h0⟩
  | succ k ih =>
    intro start s h0 hstep
    obtain ⟨u, hu, hPu⟩ := hstep start s (Nat.le_refl _) (by omega) h0
    obtain ⟨r, hr, hPr⟩ := ih (start + 1) u hPu
      (fun i t hi hlt hP => hstep i t (by omega) (by omega) hP)
    refine ⟨r, ?_, ?_⟩
    · simp only [forLoopE, hu]; exact hr
    · have e : start + (k + 1) = start + 1 + k := by omega
      rw [e]; exact hPr

/-- Decrementing a positive `unsigned int` below `2³²` is ordinary subtraction. -/
theorem wrapDec_succ (i : Nat) (h : i + 1 < 4294967296) : wrapDec (i + 1) = i := by
  unfold wrapDec
  omega

/-- Decrementing `0` wraps to `UINT_MAX`. -/
theorem wrapDec_zero : wrapDec 0 = 4294967295 := rfl

/-- From index `i < m` the countdown loop leaves through its own test after
`i + 1` iterations: more fuel than that changes nothing. -/
theorem forLoopDown_fuel {σ : Type} (m : Nat) (hm : m < 4294967296) (body : Nat → σ → σ) :
    ∀ (i extra : Nat) (s : σ), i < m →
      forLoopDown m body (i + 1 + extra) i s = forLoopDown m body (i + 1) i s := by
  intro i
  induction i with
  | zero =>
    intro extra s hi
    have e : 0 + 1 + extra = extra + 1 := by omega
    have hw : ¬ (0 ≤ wrapDec 0 ∧ wrapDec 0 < m) := by rw [wrapDec_zero]; omega
    rw [e]
    simp only [forLoopDown, Nat.le_refl, hi, and_self, if_true]
    cases extra with
    | zero => rfl
    | succ k => simp only [forLoopDown, hw, if_false]
  | succ k ih =>
    intro extra s hi
    have e : k + 1 + 1 + extra = (k + 1 + extra) + 1 := by omega
    have hc : 0 ≤ k + 1 ∧ k + 1 < m := ⟨Nat.zero_le _, hi⟩
    rw [e]
    simp only [forLoopDown, hc, and_self, if_true, wrapDec_succ k (by omega)]
    exact ih extra (body (k + 1) s) (by omega)

/-- The back-substitution countdown `for (i = m-1; i >= 0 && i < m; i--)` ends
by its own test within `m` iterations: fuel beyond `m` changes nothing. -/
theorem forLoopDown_adequate {σ : Type} (m : Nat) (hm : m < 4294967296) (body : Nat → σ → σ)
    (extra : Nat) (s : σ) :
    forLoopDown m body (m + extra) (wrapDec m) s = forLoopDown m body m (wrapDec m) s := by
  cases m with
  | zero =>
    have hw : ¬ (0 ≤ wrapDec 0 ∧ wrapDec 0 < 0) := by omega
    cases extra with
    | zero => rfl
    | succ k => simp only [Nat.zero_add, forLoopDown, hw, if_false]
  | succ k =>
    rw [wrapDec_succ k hm]
    exact forLoopDown_fuel (k + 1) hm body k extra s (Nat.lt_succ_self k)

/-! ## Cells -/

namespace Matrix

@[simp] theorem set_m (M : Matrix) (a b : Nat) (v : ℚ) : (M.set a b v).m = M.m := rfl

@[simp] theorem set_n (M : Matrix) (a b : Nat) (v : ℚ) : (M.set a b v).n = M.n := rfl

theorem set_matrix (M : Matrix) (a b : Nat) (v : ℚ) (i j : Nat) :
    (M.set a b v).matrix i j = if i = a ∧ j = b then v else M.matrix i j := rfl

/-- The accumulation loop `for (k = 0; k < count; k++) answer[i][j] += f k`
of one cell: extents are kept, cell `(i, j)` gains the sum, no other cell changes. -/
theorem accumulate_cell (f : Nat → ℚ) (i j count : Nat) (M : Matrix) :
    let R := forLoop (fun k answer => answer.set i j (answer.matrix i j + f k)) count 0 M
    R.m = M.m ∧ R.n = M.n ∧
      ∀ a b, R.matrix a b =
        if a = i ∧ b = j then M.matrix i j + ∑ t in Finset.range count, f t else M.matrix a b := by
  intro R
  have := forLoop_invariant (fun k answer => answer.set i j (answer.matrix i j + f k))
    (fun k R => R.m = M.m ∧ R.n = M.n ∧
      ∀ a b, R.matrix a b =
        if a = i ∧ b = j then M.matrix i j + ∑ t in Finset.range k, f t else M.matrix a b)
    count 0 M ⟨rfl, rfl, fun a b => by
      by_cases h : a = i ∧ b = j
      · simp [h.1, h.2]
      · simp [h]⟩
    (fun k R _ _ hR => by
      obtain ⟨hm, hn, hc⟩ := hR
      refine ⟨by simpa using hm, by simpa using hn, fun a b => ?_⟩
      rw [set_matrix]
      by_cases h : a = i ∧ b = j
      · simp only [h, and_self, if_true]
        rw [hc i j, Finset.sum_range_succ]
        simp only [and_self, if_true]
        ring
      · simp only [h, if_false]
        rw [hc a b]
        simp only [h, if_false])
  simpa using this

/-- The loop over `j` of `operator*` for a fixed row `i`: every cell `(i, j)`,
`j < R.n`, gains its inner product; nothing else changes. -/
theorem mul_row (self other : Matrix) (i : Nat) (M : Matrix) :
    let R := forLoop (fun j answer =>
      forLoop (fun k answer =>
        answer.set i j (answer.matrix i j + self.matrix i k * other.matrix k j))
        self.n 0 answer) M.n 0 M
    R.m = M.m ∧ R.n = M.n ∧
      ∀ a b, R.matrix a b =
        if a = i ∧ b < M.n then
          M.matrix a b + ∑ t in Finset.range self.n, self.matrix i t * other.matrix t b
        else M.matrix a b := by
  intro R
  have := forLoop_invariant (fun j answer =>
      forLoop (fun k answer =>
        answer.set i j (answer.matrix i j + self.matrix i k * other.matrix k j))
        self.n 0 answer)
    (fun j R => R.m = M.m ∧ R.n = M.n ∧
      ∀ a b, R.matrix a b =
        if a = i ∧ b < j then
          M.matrix a b + ∑ t in Finset.range self.n, self.matrix i t * other.matrix t b
        else M.matrix a b)
    M.n 0 M ⟨rfl, rfl, fun a b => by simp⟩
    (fun j R _ _ hR => by
      obtain ⟨hm, hn, hc⟩ := hR
      obtain ⟨am, an, ac⟩ :=
        accumulate_cell (fun k => self.matrix i k * other.matrix k j) i j self.n R
      refine ⟨am.trans hm, an.trans hn, fun a b => ?_⟩
      rw [ac a b]
      by_cases h : a = i ∧ b = j
      · obtain ⟨rfl, rfl⟩ := h
        simp only [and_self, if_true, Nat.lt_succ_self]
        rw [hc a b]
        simp
      · simp only [h, if_false]
        rw [hc a b]
        by_cases ha : a = i
        · have hb : b ≠ j := fun hb => h ⟨ha, hb⟩
          have e : (b < j + 1) = (b < j) := by
            apply propext; constructor <;> intro hlt <;> omega
          simp only [ha, true_and, e]
        · simp [ha])
  simpa using this

/-- Closed form of `operator*` on operands whose inner extents agree. -/
theorem mul_closed (self other : Matrix) (h : self.n = other.m) :
    ∃ R, self.mul other = Except.ok R ∧ R.m = self.m ∧ R.n = other.n ∧
      ∀ a b, R.matrix a b =
        if a < self.m ∧ b < other.n then
          ∑ t in Finset.range self.n, self.matrix a t * other.matrix t b
        else 0 := by
  refine ⟨_, by unfold mul; rw [if_neg (not_not.mpr h)], ?_⟩
  have := forLoop_invariant (fun i answer =>
        forLoop (fun j answer =>
          forLoop (fun k answer =>
            answer.set i j (answer.matrix i j + self.matrix i k * other.matrix k j))
            self.n 0 answer)
          answer.n 0 answer)
    (fun i R => R.m = self.m ∧ R.n = other.n ∧
      ∀ a b, R.matrix a b =
        if a < i ∧ b < other.n then
          ∑ t in Finset.range self.n, self.matrix a t * other.matrix t b
        else 0)
    (zeros self.m other.n).m 0 (zeros self.m other.n) ⟨rfl, rfl, fun a b => by simp [zeros]⟩
    (fun i R _ _ hR => by
      obtain ⟨hm, hn, hc⟩ := hR
      obtain ⟨rm, rn, rc⟩ := mul_row self other i R
      refine ⟨rm.trans hm, rn.trans hn, fun a b => ?_⟩
      rw [rc a b, hn, hc a b]
      by_cases ha : a = i
      · subst ha
        by_cases hb : b < other.n
        · simp [hb]
        · simp [hb]
      · have e : (a < i + 1) = (a < i) := by
          apply propext; constructor <;> intro hlt <;> omega
        simp only [ha, false_and, if_false, e])
  simpa [zeros] using this

/-- A loop that writes the cells `(i, j)`, `start ≤ j < start + count`, of one
row, the value written at `j` being `w j` whatever has been written so far. -/
theorem row_update (i : Nat) (v : Nat → Matrix → ℚ) (w : Nat → ℚ) (count start : Nat)
    (M : Matrix)
    (hv : ∀ j R, start ≤ j → j < start + count →
      (∀ a b, R.matrix a b = if a = i ∧ start ≤ b ∧ b < j then w b else M.matrix a b) →
      v j R = w j) :
    (forLoop (fun j M => M.set i j (v j M)) count start M).m = M.m ∧
    (forLoop (fun j M => M.set i j (v j M)) count start M).n = M.n ∧
    ∀ a b, (forLoop (fun j M => M.set i j (v j M)) count start M).matrix a b =
      if a = i ∧ start ≤ b ∧ b < start + count then w b else M.matrix a b := by
  have := forLoop_invariant (fun j M => M.set i j (v j M))
    (fun j R => R.m = M.m ∧ R.n = M.n ∧
      ∀ a b, R.matrix a b = if a = i ∧ start ≤ b ∧ b < j then w b else M.matrix a b)
    count start M
    ⟨rfl, rfl, fun a b => by
      have : ¬ (a = i ∧ start ≤ b ∧ b < start) := by omega
      simp only [this, if_false]⟩
    (fun j R hj hlt hR => by
      obtain ⟨hm, hn, hc⟩ := hR
      refine ⟨by simpa using hm, by simpa using hn, fun a b => ?_⟩
      rw [set_matrix, hv j R hj hlt hc]
      by_cases h : a = i ∧ b = j
      · obtain ⟨rfl, rfl⟩ := h
        have : (a = a ∧ start ≤ b ∧ b < b + 1) := ⟨rfl, hj, by omega⟩
        simp only [and_self, if_true, this]
      · simp only [h, if_false]
        rw [hc a b]
        have e : (a = i ∧ start ≤ b ∧ b < j + 1) = (a = i ∧ start ≤ b ∧ b < j) := by
          apply propext
          constructor
          · rintro ⟨h1, h2, h3⟩
            refine ⟨h1, h2, ?_⟩
            have : b ≠ j := fun hb => h ⟨h1, hb⟩
            omega
          · rintro ⟨h1, h2, h3⟩
            exact ⟨h1, h2, by omega⟩
        simp only [e])
  exact this

/-- A loop that writes the cells `(j, i)`, `start ≤ j < start + count`, of one
column with values `w j` that do not depend on the matrix written. -/
theorem col_fill (i : Nat) (w : Nat → ℚ) (count start : Nat) (M : Matrix) :
    (forLoop (fun j M => M.set j i (w j)) count start M).m = M.m ∧
    (forLoop (fun j M => M.set j i (w j)) count start M).n = M.n ∧
    ∀ a b, (forLoop (fun j M => M.set j i (w j)) count start M).matrix a b =
      if b = i ∧ start ≤ a ∧ a < start + count then w a else M.matrix a b := by
  have := forLoop_invariant (fun j M => M.set j i (w j))
    (fun j R => R.m = M.m ∧ R.n = M.n ∧
      ∀ a b, R.matrix a b = if b = i ∧ start ≤ a ∧ a < j then w a else M.matrix a b)
    count start M
    ⟨rfl, rfl, fun a b => by
      have : ¬ (b = i ∧ start ≤ a ∧ a < start) := by omega
      simp only [this, if_false]⟩
    (fun j R hj hlt hR => by
      obtain ⟨hm, hn, hc⟩ := hR
      refine ⟨by simpa using hm, by simpa using hn, fun a b => ?_⟩
      rw [set_matrix]
      by_cases h : a = j ∧ b = i
      · obtain ⟨rfl, rfl⟩ := h
        have : (b = b ∧ start ≤ a ∧ a < a + 1) := ⟨rfl, hj, by omega⟩
        simp only [and_self, if_true, this]
      · simp only [h, if_false]
        rw [hc a b]
        have e : (b = i ∧ start ≤ a ∧ a < j + 1) = (b = i ∧ start ≤ a ∧ a < j) := by
          apply propext
          constructor
          · rintro ⟨h1, h2, h3⟩
            refine ⟨h1, h2, ?_⟩
            have : a ≠ j := fun ha => h ⟨ha, h1⟩
            omega
          · rintro ⟨h1, h2, h3⟩
            exact ⟨h1, h2, by omega⟩
        simp only [e])
  exact this

/-- Closed form of `identity()` on a square matrix. -/
theorem identity_closed (M : Matrix) (h : M.n = M.m) :
    ∃ R, M.identity = Except.ok R ∧ R.m = M.m ∧ R.n = M.n ∧
      ∀ a b, R.matrix a b =
        if a < M.m ∧ b < M.n then (if a = b then 1 else 0) else M.matrix a b := by
  refine ⟨_, by unfold identity; rw [if_neg (not_not.mpr h)], ?_⟩
  have := forLoop_invariant (fun i M =>
        forLoop (fun j M => if i ≠ j then M.set i j 0 else M.set i j 1) M.n 0 M)
    (fun k R => R.m = M.m ∧ R.n = M.n ∧
      ∀ a b, R.matrix a b =
        if a < k ∧ b < M.n then (if a = b then 1 else 0) else M.matrix a b)
    M.m 0 M ⟨rfl, rfl, fun a b => by simp⟩
    (fun k R _ _ hR => by
      obtain ⟨hm, hn, hc⟩ := hR
      have hbody : (fun j (M : Matrix) => if k ≠ j then M.set k j 0 else M.set k j 1) =
          (fun j (M : Matrix) => M.set k j ((fun j _ => if k = j then 1 else 0) j M)) := by
        funext j M
        by_cases hkj : k = j <;> simp [hkj]
      beta_reduce
      rw [hbody]
      obtain ⟨rm, rn, rc⟩ := row_update k (fun j _ => if k = j then 1 else 0)
        (fun j => if k = j then 1 else 0) R.n 0 R (fun _ _ _ _ _ => rfl)
      refine ⟨rm.trans hm, rn.trans hn, fun a b => ?_⟩
      rw [rc a b, hc a b, hn]
      by_cases ha : a = k
      · subst ha
        by_cases hb : b < M.n
        · simp [hb]
        · simp [hb]
      · have e : (a < k + 1) = (a < k) := by
          apply propext; constructor <;> intro hlt <;> omega
        simp only [ha, false_and, if_false, e])
  simpa using this

/-- Closed form of `swapRow(a, b)` with both rows in range. -/
theorem swapRow_closed (M : Matrix) (a b : Nat) (ha : a < M.m) (hb : b < M.m) :
    ∃ R, M.swapRow a b = Except.ok R ∧ R.m = M.m ∧ R.n = M.n ∧
      ∀ x y, R.matrix x y =
        if y < M.n then
          (if x = b then M.matrix a y else if x = a then M.matrix b y else M.matrix x y)
        else M.matrix x y := by
  refine ⟨_, by unfold swapRow; rw [if_neg (by omega)], ?_⟩
  have := forLoop_invariant (fun i (M : Matrix) =>
        let temp := M.matrix a i
        (M.set a i (M.matrix b i)).set b i temp)
    (fun k R => R.m = M.m ∧ R.n = M.n ∧
      ∀ x y, R.matrix x y =
        if y < k then
          (if x = b then M.matrix a y else if x = a then M.matrix b y else M.matrix x y)
        else M.matrix x y)
    M.n 0 M ⟨rfl, rfl, fun x y => by simp⟩
    (fun k R _ _ hR => by
      obtain ⟨hm, hn, hc⟩ := hR
      refine ⟨by simpa using hm, by simpa using hn, fun x y => ?_⟩
      simp only [set_matrix]
      have hk : ¬ k < k := Nat.lt_irrefl k
      by_cases hy : y = k
      · subst hy
        simp only [and_true, Nat.lt_succ_self, if_true]
        rw [hc a y, hc b y]
        simp only [hk, if_false]
        by_cases hxb : x = b
        · simp [hxb]
        · by_cases hxa : x = a
          · simp [hxa, hxb]
          · rw [hc x y]; simp [hxa, hxb]
      · have e : (y < k + 1) = (y < k) := by
          apply propext; constructor <;> intro hlt <;> omega
        simp only [hy, and_false, if_false, e]
        exact hc x y)
  simpa using this

/-- The elimination loop of `pivot` (source lines 702-710) on the matrix `M1`
whose pivot row `a` has been normalised. -/
theorem pivot_eliminate (M1 : Matrix) (a b : Nat) (rowReduce : Bool) (R : Matrix)
    (hR : R = forLoop (fun i (M : Matrix) =>
        if rowReduce && (i != a) && decide (fabs (M.matrix i b) > DBL_EPSILON) then
          let factor := M.matrix i b
          forLoop (fun j M => M.set i j (M.matrix i j - factor * M.matrix a j)) M.n 0 M
        else M) M1.m 0 M1) :
    R.m = M1.m ∧ R.n = M1.n ∧
      ∀ x y, R.matrix x y =
        if (x < M1.m ∧ y < M1.n) ∧ rowReduce = true ∧ x ≠ a ∧ fabs (M1.matrix x b) > DBL_EPSILON
        then M1.matrix x y - M1.matrix x b * M1.matrix a y
        else M1.matrix x y := by
  subst hR
  have := forLoop_invariant (fun i (M : Matrix) =>
        if rowReduce && (i != a) && decide (fabs (M.matrix i b) > DBL_EPSILON) then
          let factor := M.matrix i b
          forLoop (fun j M => M.set i j (M.matrix i j - factor * M.matrix a j)) M.n 0 M
        else M)
    (fun k R => R.m = M1.m ∧ R.n = M1.n ∧
      ∀ x y, R.matrix x y =
        if (x < k ∧ y < M1.n) ∧ rowReduce = true ∧ x ≠ a ∧ fabs (M1.matrix x b) > DBL_EPSILON
        then M1.matrix x y - M1.matrix x b * M1.matrix a y
        else M1.matrix x y)
    M1.m 0 M1 ⟨rfl, rfl, fun x y => by simp⟩
    (fun k R _ _ hR => by
      obtain ⟨hm, hn, hc⟩ := hR
      have hk : ¬ k < k := Nat.lt_irrefl k
      have hRk : ∀ y, R.matrix k y = M1.matrix k y := fun y => by
        rw [hc k y]; simp only [hk, false_and, if_false]
      have hRa : ∀ y, R.matrix a y = M1.matrix a y := fun y => by
        rw [hc a y]; simp
      by_cases hcond : rowReduce = true ∧ k ≠ a ∧ fabs (M1.matrix k b) > DBL_EPSILON
      · obtain ⟨h1, h2, h3⟩ := hcond
        have hif : (rowReduce && (k != a) && decide (fabs (R.matrix k b) > DBL_EPSILON)) = true := by
          rw [hRk b]; simp [h1, h2, h3]
        simp only [hif, if_true]
        obtain ⟨rm, rn, rc⟩ := row_update k
          (fun j (M : Matrix) => M.matrix k j - R.matrix k b * M.matrix a j)
          (fun j => M1.matrix k j - M1.matrix k b * M1.matrix a j) R.n 0 R
          (fun j S _ _ hS => by
            show S.matrix k j - R.matrix k b * S.matrix a j = _
            have hj1 : ¬ (k = k ∧ 0 ≤ j ∧ j < j) := by omega
            have hj2 : ¬ (a = k ∧ 0 ≤ j ∧ j < j) := by omega
            rw [hS k j, hS a j, if_neg hj1, if_neg hj2, hRk b, hRk j, hRa j])
        refine ⟨rm.trans hm, rn.trans hn, fun x y => ?_⟩
        rw [rc x y]
        by_cases hx : x = k
        · subst hx
          by_cases hy : y < M1.n
          · simp [hy, hn, h1, h2, h3]
          · simp [hy, hn, hRk y]
        · have e : (x < k + 1) = (x < k) := by
            apply propext; constructor <;> intro hlt <;> omega
          simp only [hx, false_and, if_false, e]
          exact hc x y
      · have hif : (rowReduce && (k != a) && decide (fabs (R.matrix k b) > DBL_EPSILON)) = false := by
          rw [hRk b]
          by_cases h1 : rowReduce = true
          · by_cases h2 : k = a
            · simp [h2]
            · have h3 : ¬ fabs (M1.matrix k b) > DBL_EPSILON := fun h3 => hcond ⟨h1, h2, h3⟩
              simp [h1, h2, h3]
          · simp [h1]
        simp only [hif, Bool.false_eq_true, if_false]
        refine ⟨hm, hn, fun x y => ?_⟩
        rw [hc x y]
        by_cases hx : x = k
        · subst hx
          have : ¬ ((x < x + 1 ∧ y < M1.n) ∧ rowReduce = true ∧ x ≠ a ∧
              fabs (M1.matrix x b) > DBL_EPSILON) := fun h => hcond h.2
          simp only [hk, false_and, if_false, this]
        · have e : (x < k + 1) = (x < k) := by
            apply propext; constructor <;> intro hlt <;> omega
          simp only [e])
  simpa only [Nat.zero_add] using this

/-- Closed form of a successful `pivot(a, b, rowReduce)`: row `a` is divided by
the pivot element, and with `rowReduce` every other row whose entry in column
`b` exceeds epsilon in magnitude loses that multiple of the new row `a`. -/
theorem pivot_closed (M : Matrix) (a b : Nat) (rowReduce : Bool) (ha : a < M.m) (hb : b < M.n)
    (hp : ¬ fabs (M.matrix a b) < DBL_EPSILON) :
    ∃ R, M.pivot a b rowReduce = Except.ok R ∧ R.m = M.m ∧ R.n = M.n ∧
      ∀ x y, R.matrix x y =
        if x = a then (if y < M.n then M.matrix a y / M.matrix a b else M.matrix a y)
        else if (x < M.m ∧ y < M.n) ∧ rowReduce = true ∧ fabs (M.matrix x b) > DBL_EPSILON
        then M.matrix x y - M.matrix x b * (M.matrix a y / M.matrix a b)
        else M.matrix x y := by
  obtain ⟨m1, n1, c1⟩ := row_update a (fun i (M1 : Matrix) => M1.matrix a i / M.matrix a b)
    (fun i => M.matrix a i / M.matrix a b) M.n 0 M
    (fun j S _ _ hS => by
      show S.matrix a j / M.matrix a b = _
      have hj : ¬ (a = a ∧ 0 ≤ j ∧ j < j) := by omega
      rw [hS a j, if_neg hj])
  obtain ⟨m2, n2, c2⟩ := pivot_eliminate
    (forLoop (fun i (M1 : Matrix) => M1.set a i (M1.matrix a i / M.matrix a b)) M.n 0 M)
    a b rowReduce _ rfl
  refine ⟨_, by unfold pivot; rw [if_neg (by omega), if_neg hp], m2.trans m1, n2.trans n1, ?_⟩
  intro x y
  rw [c2 x y, m1, n1]
  by_cases hx : x = a
  · subst hx
    simp only [ne_eq, not_true_eq_false, false_and, and_false, if_false, if_true]
    rw [c1 x y]
    simp
  · have hxb : (forLoop (fun i (M1 : Matrix) => M1.set a i (M1.matrix a i / M.matrix a b))
        M.n 0 M).matrix x b = M.matrix x b := by rw [c1 x b]; simp [hx]
    have hxy : (forLoop (fun i (M1 : Matrix) => M1.set a i (M1.matrix a i / M.matrix a b))
        M.n 0 M).matrix x y = M.matrix x y := by rw [c1 x y]; simp [hx]
    rw [hxb, hxy]
    simp only [hx, if_false, ne_eq, not_false_eq_true, true_and]
    by_cases hc : (x < M.m ∧ y < M.n) ∧ rowReduce = true ∧ fabs (M.matrix x b) > DBL_EPSILON
    · rw [if_pos hc, if_pos hc, c1 a y]
      have : (a = a ∧ 0 ≤ y ∧ y < 0 + M.n) := ⟨rfl, Nat.zero_le _, by omega⟩
      rw [if_pos this]
    · rw [if_neg hc, if_neg hc]

/-! ## Scalars -/

end Matrix

theorem fabs_eq_abs (x : ℚ) : fabs x = |x| := by
  unfold fabs
  split_ifs with h
  · exact (abs_of_neg h).symm
  · exact (abs_of_nonneg (not_lt.mp h)).symm

theorem DBL_EPSILON_pos : 0 < DBL_EPSILON := by
  unfold DBL_EPSILON; norm_num

theorem DBL_EPSILON_lt_one : DBL_EPSILON < 1 := by
  unfold DBL_EPSILON; norm_num

@[simp] theorem fabs_zero : fabs 0 = 0 := by simp [fabs]

@[simp] theorem fabs_one : fabs 1 = 1 := by simp [fabs]

theorem fabs_zero_lt : fabs 0 < DBL_EPSILON := by
  rw [fabs_zero]; exact DBL_EPSILON_pos

theorem fabs_zero_not_gt : ¬ fabs 0 > DBL_EPSILON := by
  rw [fabs_zero]; exact not_lt.mpr (le_of_lt DBL_EPSILON_pos)

theorem fabs_one_not_lt : ¬ fabs 1 < DBL_EPSILON := by
  rw [fabs_one]; exact not_lt.mpr (le_of_lt DBL_EPSILON_lt_one)

theorem fabs_one_gt : fabs 1 > DBL_EPSILON := by
  rw [fabs_one]; exact DBL_EPSILON_lt_one

namespace Matrix

/-! ## The singularity scan -/

end Matrix

/-- Rule for `forLoopBreak`: `P` is kept while the loop goes on, and `Q` holds
both where the body breaks and where the loop runs out. -/
theorem forLoopBreak_rule {σ : Type} (body : Nat → σ → σ × Bool) (P : Nat → σ → Prop)
    (Q : σ → Prop) :
    ∀ (count start : Nat) (s : σ), P start s →
      (∀ i t, start ≤ i → i < start + count → P i t →
        ((body i t).2 = true → Q (body i t).1) ∧
        ((body i t).2 = false → P (i + 1) (body i t).1)) →
      (∀ t, P (start + count) t → Q t) →
      Q (forLoopBreak body count start s) := by
  intro count
  induction count with
  | zero => intro start s h0 _ hend; exact hend s (by simpa using h0)
  | succ k ih =>
    intro start s h0 hstep hend
    obtain ⟨hbrk, hgo⟩ := hstep start s (Nat.le_refl _) (by omega) h0
    simp only [forLoopBreak]
    cases hb : (body start s).2 with
    | true => simpa using hbrk hb
    | false =>
      simp only [Bool.false_eq_true, if_false]
      refine ih (start + 1) _ (hgo hb)
        (fun i t hi hlt hP => hstep i t (by omega) (by omega) hP) ?_
      intro t ht
      have e : start + (k + 1) = start + 1 + k := by omega
      exact hend t (e ▸ ht)

namespace Matrix

/-- The scan of one row sets `singular` exactly when the row is negligible. -/
theorem scanRow_true_iff (temp : Matrix) (n i : Nat) (singular : Bool) :
    scanRow temp n i singular = true ↔ singular = true ∨ rowNegligible temp n i := by
  unfold scanRow
  refine forLoopBreak_rule _
    (fun j t => (∀ k, k < j → ¬ fabs (temp.matrix i k) > DBL_EPSILON) ∧
      (if j = n ∧ 0 < n then t = true else t = singular))
    (fun r => r = true ↔ singular = true ∨ rowNegligible temp n i)
    n 0 singular ⟨fun k hk => absurd hk (Nat.not_lt_zero k), ?_⟩ ?_ ?_
  · have : ¬ (0 = n ∧ 0 < n) := by omega
    simp only [this, if_false]
  · intro j t _ hj hP
    obtain ⟨hsmall, ht⟩ := hP
    have hjn : ¬ (j = n ∧ 0 < n) := by omega
    rw [if_neg hjn] at ht
    subst ht
    by_cases hbig : fabs (temp.matrix i j) > DBL_EPSILON
    · simp only [hbig, if_true, forall_true_left, Bool.true_eq_false, false_implies, and_true]
      constructor
      · exact fun h => Or.inl h
      · rintro (h | ⟨_, h⟩)
        · exact h
        · exact absurd hbig (h j (by omega))
    · have hsmall1 : ∀ k, k < j + 1 → ¬ fabs (temp.matrix i k) > DBL_EPSILON := by
        intro k hk
        by_cases hkj : k = j
        · subst hkj; exact hbig
        · exact hsmall k (by omega)
      by_cases hlast : j = n - 1
      · have hn : j + 1 = n ∧ 0 < n := by omega
        refine ⟨fun h => ?_, fun _ => ⟨hsmall1, ?_⟩⟩
        · simp only [hbig, if_false, if_pos hlast] at h
          exact absurd h (by decide)
        · simp only [hbig, if_false, if_pos hlast, if_pos hn]
      · have hn : ¬ (j + 1 = n ∧ 0 < n) := by omega
        refine ⟨fun h => ?_, fun _ => ⟨hsmall1, ?_⟩⟩
        · simp only [hbig, if_false, if_neg hlast] at h
          exact absurd h (by decide)
        · simp only [hbig, if_false, if_neg hlast, if_neg hn]
  · intro t ht
    obtain ⟨hsmall, ht⟩ := ht
    simp only [Nat.zero_add, true_and] at ht hsmall
    by_cases hn : 0 < n
    · simp only [hn, if_true] at ht
      subst ht
      simp only [true_iff]
      exact Or.inr ⟨hn, hsmall⟩
    · simp only [hn, if_false] at ht
      subst ht
      constructor
      · exact fun h => Or.inl h
      · rintro (h | ⟨h, _⟩)
        · exact h
        · exact absurd h hn

/-- The scan of `det`, `LU` and `inverse` reports a singular matrix exactly when
some row among the first `m` is negligible over its `n` columns. -/
theorem scanSingular_true_iff (temp : Matrix) (m n : Nat) :
    scanSingular temp m n = true ↔ ∃ i, i < m ∧ rowNegligible temp n i := by
  unfold scanSingular
  refine forLoopBreak_rule _
    (fun i t => t = false ∧ ∀ k, k < i → ¬ rowNegligible temp n k)
    (fun r => r = true ↔ ∃ i, i < m ∧ rowNegligible temp n i)
    m 0 false ⟨rfl, fun k hk => absurd hk (Nat.not_lt_zero k)⟩ ?_ ?_
  · intro i t _ hi hP
    obtain ⟨ht, hnone⟩ := hP
    subst ht
    have hrow := scanRow_true_iff temp n i false
    simp only [Bool.false_eq_true, false_or] at hrow
    constructor
    · intro hb
      simp only at hb
      simp only [hb, true_iff]
      exact ⟨i, by omega, hrow.mp hb⟩
    · intro hb
      simp only at hb
      refine ⟨hb, fun k hk => ?_⟩
      by_cases hki : k = i
      · subst hki
        intro hneg
        have := hrow.mpr hneg
        rw [hb] at this
        exact Bool.false_ne_true this
      · exact hnone k (by omega)
  · intro t ht
    obtain ⟨ht, hnone⟩ := ht
    subst ht
    simp only [Bool.false_eq_true, false_iff, not_exists, not_and]
    intro i hi
    exact hnone i (by omega)

/-! ## `LU` and `det` on the identity -/

/-- The identity has no negligible row. -/
theorem isIdentity_not_negligible (n : Nat) (T : Matrix) (hT : isIdentity n T) (i : Nat)
    (hi : i < n) : ¬ rowNegligible T n i := by
  rintro ⟨_, h⟩
  apply h i hi
  rw [hT.2.2 i i hi hi, if_pos rfl]
  exact fabs_one_gt

/-- One elimination step of `LU` on the identity: no exchange, the pivot is
`1`, and the working copy is the identity again. -/
theorem LUstep_identity (n i : Nat) (s : LUState) (hi : i < n) (hT : isIdentity n s.temp) :
    ∃ u, LUstep n n i s = Except.ok u ∧ isIdentity n u.temp ∧ u.b = s.b ∧
      u.detFactor = s.detFactor ∧
      ∀ x, u.L.matrix x x = if x = i then 1 else s.L.matrix x x := by
  obtain ⟨hm, hn, hc⟩ := hT
  have hii : s.temp.matrix i i = 1 := by rw [hc i i hi hi, if_pos rfl]
  have hswap : LUswap n i s = Except.ok s := by
    unfold LUswap
    rw [hii, if_neg fabs_one_not_lt]
  obtain ⟨R, hR, rm, rn, rc⟩ := pivot_closed s.temp i i true (by omega) (by omega)
    (by rw [hii]; exact fabs_one_not_lt)
  obtain ⟨_, _, lc⟩ := col_fill i (fun j => s.temp.matrix j i) (n - (i + 1)) (i + 1)
    (s.L.set i i (s.temp.matrix i i))
  have hstep : LUstep n n i s = Except.ok
      ⟨R, forLoop (fun j L => L.set j i (s.temp.matrix j i)) (n - (i + 1)) (i + 1)
          (s.L.set i i (s.temp.matrix i i)),
        forLoop (fun j U => U.set i j (R.matrix i j)) (n - (i + 1)) (i + 1) s.U,
        s.b, s.detFactor⟩ := by
    simp only [LUstep, hswap, hR]
  refine ⟨_, hstep, ⟨rm.trans hm, rn.trans hn, ?_⟩, rfl, rfl, ?_⟩
  · intro x y hx hy
    rw [rc x y, hii, hn, hm]
    by_cases hxi : x = i
    · subst hxi
      simp only [if_true, hy, div_one]
      exact hc x y hx hy
    · have hxi0 : s.temp.matrix x i = 0 := by rw [hc x i hx hi, if_neg hxi]
      simp only [hxi, if_false, hxi0, fabs_zero_not_gt, and_false]
      exact hc x y hx hy
  · intro x
    show (forLoop (fun j L => L.set j i (s.temp.matrix j i)) (n - (i + 1)) (i + 1)
      (s.L.set i i (s.temp.matrix i i))).matrix x x = _
    rw [lc x x, set_matrix, hii]
    by_cases hxi : x = i
    · subst hxi
      have : ¬ (x = x ∧ x + 1 ≤ x ∧ x < x + 1 + (n - (x + 1))) := by omega
      rw [if_neg this]
      simp only [and_self, if_true]
    · simp only [hxi, false_and, if_false]

/-- On the identity, `LU()` called without `b` returns with the working copy
still the identity, a unit diagonal in `L`, and `detFactor` equal to `1`. -/
theorem LU_identity (n : Nat) (T : Matrix) (hT : isIdentity n T) (d : Int) :
    ∃ r, (T.LU none d).result = Except.ok r ∧ (T.LU none d).detFactor = 1 ∧
      isIdentity n r.A ∧ ∀ x, x < n → r.L.matrix x x = 1 := by
  have hm := hT.1
  have hn := hT.2.1
  obtain ⟨U, hU, -, -, -⟩ := identity_closed (zeros T.n T.n) rfl
  obtain ⟨r, hr, hP⟩ := forLoopE_ok (LUstep T.m T.n)
    (fun k s => isIdentity n s.temp ∧ s.b = none ∧ s.detFactor = 1 ∧
      ∀ x, x < k → s.L.matrix x x = 1)
    T.m 0 ⟨T, zeros T.n T.n, U, none, 1⟩
    ⟨hT, rfl, rfl, fun x hx => absurd hx (Nat.not_lt_zero x)⟩
    (fun i t _ hi hP => by
      obtain ⟨h1, h2, h3, h4⟩ := hP
      rw [hm, hn]
      obtain ⟨u, hu, u1, u2, u3, u4⟩ := LUstep_identity n i t (by omega) h1
      refine ⟨u, hu, u1, u2.trans h2, u3.trans h3, fun x hx => ?_⟩
      rw [u4 x]
      by_cases hxi : x = i
      · simp [hxi]
      · simp only [hxi, if_false]; exact h4 x (by omega))
  obtain ⟨h1, h2, h3, h4⟩ := hP
  have hsq : ¬ T.n ≠ T.m := by rw [hm, hn]; exact not_not.mpr rfl
  have hLU : T.LU none d = ⟨Except.ok ⟨r.temp, r.L, r.U, empty, false, false⟩, none, r.detFactor⟩ := by
    unfold LU
    rw [if_neg hsq]
    simp only [Bool.false_eq_true, if_false, hU, hr, h2]
  rw [hLU]
  exact ⟨_, rfl, h3, h1, fun x hx => h4 x (by omega)⟩

/-- The product loop of `det` over a unit diagonal is `1`. -/
theorem diag_product_one (L : Matrix) (m : Nat) (h : ∀ x, x < m → L.matrix x x = 1) :
    forLoop (fun i det => det * L.matrix i i) m 0 (1 : ℚ) = 1 := by
  have := forLoop_invariant (fun i det => det * L.matrix i i) (fun _ det => det = (1 : ℚ))
    m 0 1 rfl (fun i t _ hi ht => by
      show t * L.matrix i i = 1
      rw [ht, h i (by omega), mul_one])
  exact this

/-- On the identity `det()` returns `1`, whatever `detFactor` held before. -/
theorem det_identity (n : Nat) (T : Matrix) (hT : isIdentity n T) (d : Int) :
    (T.det d).1 = Except.ok 1 := by
  obtain ⟨r, hr, hd, hA, hL⟩ := LU_identity n T hT d
  have hm := hT.1
  have hn := hT.2.1
  have hsq : ¬ T.n ≠ T.m := by rw [hm, hn]; exact not_not.mpr rfl
  have hscan : scanSingular r.A T.m T.n = false := by
    rw [Bool.eq_false_iff]
    intro h
    obtain ⟨i, hi, hneg⟩ := (scanSingular_true_iff r.A T.m T.n).mp h
    rw [hn] at hneg
    exact isIdentity_not_negligible n r.A hA i (by omega) hneg
  unfold det
  rw [if_neg hsq]
  simp only [hr, hscan, Bool.false_eq_true, if_false, hd]
  rw [diag_product_one r.L T.m (fun x hx => hL x (by omega))]
  simp

/-! ## `detFactor` is reset by `LU` -/

/-- On a square receiver and with `b` absent or of matching shape, `LU` does
not depend on the value `detFactor` held before the call. -/
theorem LU_detFactor (A : Matrix) (b : Option Matrix) (d d1 : Int) (h : A.n = A.m)
    (hb : ∀ b0, b = some b0 → b0.m = A.m ∧ b0.n = 1) :
    A.LU b d = A.LU b d1 := by
  obtain ⟨U, hU, -, -, -⟩ := identity_closed (zeros A.n A.n) rfl
  cases b with
  | none =>
    unfold LU
    rw [if_neg (not_not.mpr h), if_neg (not_not.mpr h)]
    simp only [Bool.false_eq_true, if_false, hU]
  | some b0 =>
    obtain ⟨h1, h2⟩ := hb b0 rfl
    have hchk : decide (b0.m ≠ A.m ∨ b0.n ≠ 1) = false := by simp [h1, h2]
    unfold LU
    rw [if_neg (not_not.mpr h), if_neg (not_not.mpr h)]
    simp only [hchk, Bool.false_eq_true, if_false, hU]

/-- The value `det()` returns, or the exception it throws, does not depend on
the value `detFactor` held before the call. -/
theorem det_detFactor (A : Matrix) (d d1 : Int) : (A.det d).1 = (A.det d1).1 := by
  unfold det
  by_cases h : A.n = A.m
  · rw [if_neg (not_not.mpr h), if_neg (not_not.mpr h),
      LU_detFactor A none d d1 h (fun b0 hb => by cases hb)]
  · rw [if_pos h, if_pos h]

/-! ## `inverse` on the zero matrix -/

/-- Searching a column of zeros leaves `largestValue` at `0`. -/
theorem largestValue_zeros (a b n i : Nat) : largestValue (zeros a b) n i = 0 := by
  unfold largestValue
  apply forLoop_fixed
  intro j _ _
  have : ¬ fabs (0 : ℚ) > fabs 0 := lt_irrefl _
  simp [zeros]

/-- The first elimination step of `inverse()` on a zero matrix with at least
one row throws "Divide by zero". -/
theorem inverseStep_zeros (k : Nat) (inv : Matrix) (hinv : inv.m = k + 1) :
    inverseStep (k + 1) (k + 1) 0 ⟨zeros (k + 1) (k + 1), inv⟩ =
      Except.error ⟨"Divide by zero"⟩ := by
  obtain ⟨T, hT, -, -, tc⟩ := swapRow_closed (zeros (k + 1) (k + 1)) 0 0
    (Nat.succ_pos k) (Nat.succ_pos k)
  obtain ⟨V, hV, -, -, -⟩ := swapRow_closed inv 0 0 (by omega) (by omega)
  have h00 : T.matrix 0 0 = 0 := by rw [tc 0 0]; simp [zeros]
  have hz : (zeros (k + 1) (k + 1)).matrix 0 0 = 0 := rfl
  simp only [inverseStep, hz, fabs_zero_lt, if_true, largestValue_zeros, hT, hV, h00]

end Matrix

/-! ## Vectors -/

namespace Vector

@[simp] theorem vec_set_n (u : Vector) (a : Nat) (x : ℚ) : (u.set a x).n = u.n := rfl

theorem vec_set_vector (u : Vector) (a : Nat) (x : ℚ) (i : Nat) :
    (u.set a x).vector i = if i = a then x else u.vector i := rfl

end Vector

/-- A scalar that passes the divisor test of `operator/` is not zero. -/
theorem ne_zero_of_not_fabs_lt (k : ℚ) (hk : ¬ fabs k < DBL_EPSILON) : k ≠ 0 := by
  rintro rfl
  exact hk fabs_zero_lt

/-- Dropping the fraction of a natural number kept in a `double` gives it back. -/
theorem floor_natCast_toNat (k : Nat) : (Rat.floor (k : ℚ)).toNat = k := by
  have h : Rat.floor (k : ℚ) = (k : ℤ) := by
    have := Int.floor_natCast (α := ℚ) k
    exact this
  rw [h, Int.toNat_natCast]

/-- A loop that writes the cells `base + j`, `j < count`, of a flat array with
values `w j` that do not depend on the array. -/
theorem array_fill (w : Nat → ℚ) (base count : Nat) (arr : Nat → ℚ) :
    ∀ idx, forLoop (fun j values => arraySet values (base + j) (w j)) count 0 arr idx =
      if base ≤ idx ∧ idx < base + count then w (idx - base) else arr idx := by
  have := forLoop_invariant (fun j values => arraySet values (base + j) (w j))
    (fun k out => ∀ idx, out idx =
      if base ≤ idx ∧ idx < base + k then w (idx - base) else arr idx)
    count 0 arr
    (fun idx => by
      have : ¬ (base ≤ idx ∧ idx < base + 0) := by omega
      rw [if_neg this])
    (fun k out _ _ hout idx => by
      show arraySet out (base + k) (w k) idx = _
      unfold arraySet
      by_cases h : idx = base + k
      · subst h
        have : base ≤ base + k ∧ base + k < base + (k + 1) := by omega
        rw [if_pos rfl, if_pos this, Nat.add_sub_cancel_left]
      · rw [if_neg h, hout idx]
        have e : (base ≤ idx ∧ idx < base + (k + 1)) = (base ≤ idx ∧ idx < base + k) := by
          apply propext; constructor <;> intro hlt <;> omega
        simp only [e])
  simpa only [Nat.zero_add] using this

namespace Matrix

/-- Two matrices with the same extents and the same storage are equal. -/
theorem ext_of (L R : Matrix) (hm : L.m = R.m) (hn : L.n = R.n)
    (hc : ∀ i j, L.matrix i j = R.matrix i j) : L = R := by
  cases L with
  | mk lm ln lf =>
    cases R with
    | mk rm rn rf =>
      simp only at hm hn hc
      subst hm
      subst hn
      have : lf = rf := funext fun i => funext fun j => hc i j
      subst this
      rfl

/-- Nested loops that write every cell `(i, j)`, `i < rows`, `j < cols`, with a
value `g i j` that does not depend on the matrix. -/
theorem grid_fill (g : Nat → Nat → ℚ) (rows cols : Nat) (M : Matrix) :
    (forLoop (fun i M => forLoop (fun j M => M.set i j (g i j)) cols 0 M) rows 0 M).m = M.m ∧
    (forLoop (fun i M => forLoop (fun j M => M.set i j (g i j)) cols 0 M) rows 0 M).n = M.n ∧
    ∀ a b, (forLoop (fun i M => forLoop (fun j M => M.set i j (g i j)) cols 0 M)
        rows 0 M).matrix a b =
      if a < rows ∧ b < cols then g a b else M.matrix a b := by
  have := forLoop_invariant (fun i M => forLoop (fun j M => M.set i j (g i j)) cols 0 M)
    (fun k R => R.m = M.m ∧ R.n = M.n ∧
      ∀ a b, R.matrix a b = if a < k ∧ b < cols then g a b else M.matrix a b)
    rows 0 M ⟨rfl, rfl, fun a b => by simp⟩
    (fun k R _ _ hR => by
      obtain ⟨hm, hn, hc⟩ := hR
      obtain ⟨rm, rn, rc⟩ := row_update k (fun j _ => g k j) (fun j => g k j) cols 0 R
        (fun _ _ _ _ _ => rfl)
      refine ⟨rm.trans hm, rn.trans hn, fun a b => ?_⟩
      rw [rc a b, hc a b]
      by_cases ha : a = k
      · subst ha
        by_cases hb : b < cols
        · simp [hb]
        · simp [hb]
      · have e : (a < k + 1) = (a < k) := by
          apply propext; constructor <;> intro hlt <;> omega
        simp only [ha, false_and, if_false, e])
  simpa only [Nat.zero_add] using this

/-- Closed form of the flat-array constructor and of `load` when `sqrt` is
exact on the length `k * k`. -/
theorem loadValues_closed (sqrt : Nat → ℚ) (values : Nat → ℚ) (k : Nat) (colOrder : Bool)
    (hsqrt : sqrt (k * k) = k) :
    ∃ M, loadValues sqrt values (k * k) colOrder = Except.ok M ∧ M.m = k ∧ M.n = k ∧
      ∀ i j, M.matrix i j =
        if i < k ∧ j < k then
          (if colOrder then values (k * j + i) else values (k * i + j))
        else 0 := by
  have htest : ¬ fabs (sqrt (k * k) * sqrt (k * k) - ((k * k : Nat) : ℚ)) > DBL_EPSILON := by
    rw [hsqrt]
    have : (k : ℚ) * k - ((k * k : Nat) : ℚ) = 0 := by push_cast; ring
    rw [this]
    exact fabs_zero_not_gt
  have hbody : ∀ n : Nat, (fun i (M : Matrix) =>
      forLoop (fun j (M : Matrix) =>
        if colOrder then M.set i j (values (n * j + i))
        else M.set i j (values (n * i + j))) n 0 M) =
      (fun i (M : Matrix) => forLoop (fun j (M : Matrix) =>
        M.set i j ((fun i j => if colOrder then values (n * j + i) else values (n * i + j)) i j))
        n 0 M) := by
    intro n
    funext i M
    congr 1
    funext j M
    cases colOrder <;> simp
  obtain ⟨gm, gn, gc⟩ := grid_fill
    (fun i j => if colOrder then values (k * j + i) else values (k * i + j)) k k (zeros k k)
  refine ⟨_, ?_, gm, gn, fun i j => ?_⟩
  · unfold loadValues
    rw [if_neg htest]
    simp only [hsqrt, floor_natCast_toNat, hbody]
  · rw [gc i j]
    rfl

/-- Closed form of `values(true)`: cell `idx` of the array holds the entry in
row `idx % m` and column `idx / m`. -/
theorem values_colOrder (M : Matrix) :
    ∀ idx, M.values true idx =
      if idx < M.n * M.m then M.matrix (idx % M.m) (idx / M.m) else 0 := by
  have := forLoop_invariant (fun i values =>
      forLoop (fun j values => arraySet values (i * M.m + j) (M.matrix j i)) M.m 0 values)
    (fun k out => ∀ idx, out idx =
      if idx < k * M.m then M.matrix (idx % M.m) (idx / M.m) else 0)
    M.n 0 (fun _ => 0)
    (fun idx => by simp)
    (fun k out _ _ hout idx => by
      show forLoop (fun j values => arraySet values (k * M.m + j) (M.matrix j k)) M.m 0 out idx = _
      rw [array_fill (fun j => M.matrix j k) (k * M.m) M.m out idx, hout idx]
      have hsucc : (k + 1) * M.m = k * M.m + M.m := by ring
      by_cases h : k * M.m ≤ idx ∧ idx < k * M.m + M.m
      · obtain ⟨h1, h2⟩ := h
        have hm : 0 < M.m := by omega
        have hidx : idx = (idx - k * M.m) + M.m * k := by
          rw [Nat.mul_comm M.m k]; omega
        have hr : idx - k * M.m < M.m := by omega
        have hdiv : idx / M.m = k := by
          rw [hidx, Nat.add_mul_div_left _ _ hm, Nat.div_eq_of_lt hr, Nat.zero_add]
        have hmod : idx % M.m = idx - k * M.m := by
          rw [hidx, Nat.add_mul_mod_self_left, Nat.mod_eq_of_lt hr]
          omega
        have hlt : idx < (k + 1) * M.m := by omega
        rw [if_pos ⟨h1, h2⟩, if_pos hlt, hdiv, hmod]
      · rw [if_neg h]
        have e : (idx < (k + 1) * M.m) = (idx < k * M.m) := by
          apply propext
          constructor
          · intro hlt; by_contra hge; exact h ⟨by omega, by omega⟩
          · intro hlt; omega
        simp only [e])
  intro idx
  have h2 := this idx
  simp only [Nat.zero_add] at h2
  unfold values
  simpa using h2

/-- Closed form of `swapCol(a, b)` with both columns in range. -/
theorem swapCol_closed (M : Matrix) (a b : Nat) (ha : a < M.n) (hb : b < M.n) :
    ∃ R, M.swapCol a b = Except.ok R ∧ R.m = M.m ∧ R.n = M.n ∧
      ∀ x y, R.matrix x y =
        if x < M.m then
          (if y = b then M.matrix x a else if y = a then M.matrix x b else M.matrix x y)
        else M.matrix x y := by
  refine ⟨_, by unfold swapCol; rw [if_neg (by omega)], ?_⟩
  have := forLoop_invariant (fun i (M : Matrix) =>
        let temp := M.matrix i a
        (M.set i a (M.matrix i b)).set i b temp)
    (fun k R => R.m = M.m ∧ R.n = M.n ∧
      ∀ x y, R.matrix x y =
        if x < k then
          (if y = b then M.matrix x a else if y = a then M.matrix x b else M.matrix x y)
        else M.matrix x y)
    M.m 0 M ⟨rfl, rfl, fun x y => by simp⟩
    (fun k R _ _ hR => by
      obtain ⟨hm, hn, hc⟩ := hR
      refine ⟨by simpa using hm, by simpa using hn, fun x y => ?_⟩
      simp only [set_matrix]
      have hk : ¬ k < k := Nat.lt_irrefl k
      by_cases hx : x = k
      · subst hx
        simp only [true_and, Nat.lt_succ_self, if_true]
        rw [hc x a, hc x b]
        simp only [hk, if_false]
        by_cases hyb : y = b
        · simp [hyb]
        · by_cases hya : y = a
          · simp [hya, hyb]
          · rw [hc x y]; simp [hya, hyb]
      · have e : (x < k + 1) = (x < k) := by
          apply propext; constructor <;> intro hlt <;> omega
        simp only [hx, false_and, if_false, e]
        exact hc x y)
  simpa using this

/-! ## What a normal return of `swapRow`, `pivot` and of a step of `LU` tells -/

/-- A `swapRow` that returns had both indices in range and exchanged the rows. -/
theorem swapRow_ok (M : Matrix) (a b : Nat) (R : Matrix) (h : M.swapRow a b = Except.ok R) :
    a < M.m ∧ b < M.m ∧ R.m = M.m ∧ R.n = M.n ∧
      ∀ x y, R.matrix x y =
        if y < M.n then
          (if x = b then M.matrix a y else if x = a then M.matrix b y else M.matrix x y)
        else M.matrix x y := by
  by_cases hab : a ≥ M.m ∨ b ≥ M.m
  · unfold swapRow at h
    rw [if_pos hab] at h
    cases h
  · have ha : a < M.m := by omega
    have hb : b < M.m := by omega
    obtain ⟨R1, hR1, rm, rn, rc⟩ := swapRow_closed M a b ha hb
    rw [hR1] at h
    cases h
    exact ⟨ha, hb, rm, rn, rc⟩

/-- A `pivot` that returns had its indices in range and a pivot element of
magnitude at least epsilon, and has the closed form of `pivot_closed`. -/
theorem pivot_ok (M : Matrix) (a b : Nat) (rowReduce : Bool) (R : Matrix)
    (h : M.pivot a b rowReduce = Except.ok R) :
    a < M.m ∧ b < M.n ∧ ¬ fabs (M.matrix a b) < DBL_EPSILON ∧ R.m = M.m ∧ R.n = M.n ∧
      ∀ x y, R.matrix x y =
        if x = a then (if y < M.n then M.matrix a y / M.matrix a b else M.matrix a y)
        else if (x < M.m ∧ y < M.n) ∧ rowReduce = true ∧ fabs (M.matrix x b) > DBL_EPSILON
        then M.matrix x y - M.matrix x b * (M.matrix a y / M.matrix a b)
        else M.matrix x y := by
  by_cases hab : a ≥ M.m ∨ b ≥ M.n
  · unfold pivot at h
    rw [if_pos hab] at h
    cases h
  · by_cases hp : fabs (M.matrix a b) < DBL_EPSILON
    · unfold pivot at h
      rw [if_neg hab] at h
      simp only [hp, if_true] at h
      cases h
    · have ha : a < M.m := by omega
      have hb : b < M.n := by omega
      obtain ⟨R1, hR1, rm, rn, rc⟩ := pivot_closed M a b rowReduce ha hb hp
      rw [hR1] at h
      cases h
      exact ⟨ha, hb, hp, rm, rn, rc⟩

/-- The row exchange of a step of `LU`, when it returns, leaves `L` and `U`
alone and keeps the shape of `temp` and of the caller's `b`. -/
theorem LUswap_ok (n i : Nat) (s u : LUState) (h : LUswap n i s = Except.ok u) :
    u.L = s.L ∧ u.U = s.U ∧ u.temp.m = s.temp.m ∧ u.temp.n = s.temp.n ∧
      (s.b = none → u.b = none) ∧
      (∀ b0, s.b = some b0 → ∃ b1, u.b = some b1 ∧ b1.m = b0.m ∧ b1.n = b0.n) := by
  unfold LUswap at h
  by_cases hd : fabs (s.temp.matrix i i) < DBL_EPSILON
  · simp only [hd, if_true] at h
    cases ht : s.temp.swapRow i (largestValue s.temp n i) with
    | error e => rw [ht] at h; cases h
    | ok T =>
      rw [ht] at h
      obtain ⟨-, -, tm, tn, -⟩ := swapRow_ok _ _ _ _ ht
      cases hb : s.b with
      | none =>
        rw [hb] at h
        simp only [Except.ok.injEq] at h
        subst h
        exact ⟨rfl, rfl, tm, tn, fun _ => rfl, fun b0 h0 => by cases h0⟩
      | some b0 =>
        rw [hb] at h
        simp only at h
        cases hb1 : b0.swapRow i (largestValue s.temp n i) with
        | error e => rw [hb1] at h; cases h
        | ok B =>
          rw [hb1] at h
          simp only [Except.ok.injEq] at h
          subst h
          obtain ⟨-, -, bm, bn, -⟩ := swapRow_ok _ _ _ _ hb1
          refine ⟨rfl, rfl, tm, tn, (fun h0 => by cases h0), fun b2 h2 => ?_⟩
          cases h2
          exact ⟨B, rfl, bm, bn⟩
  · simp only [hd, if_false, Except.ok.injEq] at h
    subst h
    exact ⟨rfl, rfl, rfl, rfl, fun h0 => h0, fun b0 h0 => ⟨b0, h0, rfl, rfl⟩⟩

/-- The row exchange of a step of `LU`, when it throws, leaves the caller's
`b` as it found it. -/
theorem LUswap_error (n i : Nat) (s : LUState) (e : LinAlgException) (b1 : Option Matrix)
    (d1 : Int) (h : LUswap n i s = Except.error (e, b1, d1)) : b1 = s.b := by
  unfold LUswap at h
  by_cases hd : fabs (s.temp.matrix i i) < DBL_EPSILON
  · simp only [hd, if_true] at h
    cases ht : s.temp.swapRow i (largestValue s.temp n i) with
    | error e1 =>
      rw [ht] at h
      simp only [Except.error.injEq, Prod.mk.injEq] at h
      exact h.2.1.symm
    | ok T =>
      rw [ht] at h
      cases hb : s.b with
      | none => rw [hb] at h; cases h
      | some b0 =>
        rw [hb] at h
        simp only at h
        cases hb1 : b0.swapRow i (largestValue s.temp n i) with
        | error e1 =>
          rw [hb1] at h
          simp only [Except.error.injEq, Prod.mk.injEq] at h
          exact h.2.1.symm
        | ok B => rw [hb1] at h; cases h
  · simp only [hd, if_false] at h
    cases h

/-- A step of `LU` that returns: the exchange returned a state `s1`, the pivot
on it returned the new `temp`, and `L`, `U` received column `i` and row `i`. -/
theorem LUstep_ok (m n i : Nat) (s u : LUState) (h : LUstep m n i s = Except.ok u) :
    ∃ s1, LUswap n i s = Except.ok s1 ∧ s1.temp.pivot i i true = Except.ok u.temp ∧
      u.L = forLoop (fun j L => L.set j i (s1.temp.matrix j i)) (n - (i + 1)) (i + 1)
        (s1.L.set i i (s1.temp.matrix i i)) ∧
      u.U = forLoop (fun j U => U.set i j (u.temp.matrix i j)) (m - (i + 1)) (i + 1) s1.U ∧
      u.b = s1.b ∧ u.detFactor = s1.detFactor := by
  unfold LUstep at h
  cases hs : LUswap n i s with
  | error e => rw [hs] at h; cases h
  | ok s1 =>
    rw [hs] at h
    simp only at h
    cases hp : s1.temp.pivot i i true with
    | error e => rw [hp] at h; cases h
    | ok T =>
      rw [hp] at h
      simp only [Except.ok.injEq] at h
      subst h
      exact ⟨s1, rfl, hp, rfl, rfl, rfl, rfl⟩

/-- A step of `LU` that throws leaves behind the caller's `b` either as the
step found it or as its row exchange left it. -/
theorem LUstep_error (m n i : Nat) (s : LUState) (e : LinAlgException) (b1 : Option Matrix)
    (d1 : Int) (h : LUstep m n i s = Except.error (e, b1, d1)) :
    b1 = s.b ∨ ∃ s1, LUswap n i s = Except.ok s1 ∧ b1 = s1.b := by
  unfold LUstep at h
  cases hs : LUswap n i s with
  | error e1 =>
    rw [hs] at h
    simp only [Except.error.injEq] at h
    subst h
    exact Or.inl (LUswap_error n i s e b1 d1 hs)
  | ok s1 =>
    rw [hs] at h
    simp only at h
    cases hp : s1.temp.pivot i i true with
    | error e1 =>
      rw [hp] at h
      simp only [Except.error.injEq, Prod.mk.injEq] at h
      exact Or.inr ⟨s1, rfl, h.2.1.symm⟩
    | ok T => rw [hp] at h; cases h

end Matrix

/-- Where a `forLoopE` throws: some iteration met a state satisfying the
invariant and its body threw that exception. -/
theorem forLoopE_error {ε σ : Type} (body : Nat → σ → Except ε σ) (P : Nat → σ → Prop) :
    ∀ (count start : Nat) (s : σ) (e : ε), P start s →
      (∀ i t u, start ≤ i → i < start + count → P i t → body i t = Except.ok u → P (i + 1) u) →
      forLoopE body count start s = Except.error e →
      ∃ i t, start ≤ i ∧ i < start + count ∧ P i t ∧ body i t = Except.error e := by
  intro count
  induction count with
  | zero => intro start s e _ _ h; simp only [forLoopE] at h; cases h
  | succ k ih =>
    intro start s e h0 hstep h
    simp only [forLoopE] at h
    cases hb : body start s with
    | error e1 =>
      rw [hb] at h
      simp only [Except.error.injEq] at h
      subst h
      exact ⟨start, s, Nat.le_refl _, by omega, h0, hb⟩
    | ok u =>
      rw [hb] at h
      have h1 : P (start + 1) u := hstep start s u (Nat.le_refl _) (by omega) h0 hb
      obtain ⟨i, t, hi1, hi2, hP, hbe⟩ := ih (start + 1) u e h1
        (fun i t v hi hlt hP hv => hstep i t v (by omega) (by omega) hP hv) h
      exact ⟨i, t, by omega, by omega, hP, hbe⟩

namespace Matrix

/-! ## The elimination loop of `LU` -/

/-- The identity written by `U.identity()` at the start of `LU`. -/
theorem LU_initial_U (n : Nat) :
    ∃ U, (zeros n n).identity = Except.ok U ∧
      ∀ a b, U.matrix a b = if a < n ∧ b < n then (if a = b then 1 else 0) else 0 := by
  obtain ⟨U, hU, -, -, uc⟩ := identity_closed (zeros n n) rfl
  exact ⟨U, hU, uc⟩

/-- On a square receiver with `b` absent or of matching shape, `LU` throws what
its elimination loop throws. -/
theorem LU_of_eliminate_error (A : Matrix) (b : Option Matrix) (d : Int) (h : A.n = A.m)
    (hb : ∀ b0, b = some b0 → b0.m = A.m ∧ b0.n = 1)
    (e : LinAlgException) (b1 : Option Matrix) (d1 : Int)
    (he : LUeliminate A b d = Except.error (e, b1, d1)) :
    A.LU b d = ⟨Except.error e, b1, d1⟩ := by
  obtain ⟨U, hU, -⟩ := LU_initial_U A.n
  unfold LUeliminate at he
  rw [hU] at he
  simp only at he
  cases b with
  | none =>
    unfold LU
    rw [if_neg (not_not.mpr h)]
    simp only [Bool.false_eq_true, if_false, hU, he]
  | some b0 =>
    obtain ⟨h1, h2⟩ := hb b0 rfl
    have hchk : decide (b0.m ≠ A.m ∨ b0.n ≠ 1) = false := by simp [h1, h2]
    unfold LU
    rw [if_neg (not_not.mpr h)]
    simp only [hchk, Bool.false_eq_true, if_false, hU, he]

/-- On a square receiver with `b` absent or of matching shape, `LU` returns
when its elimination loop does, with the flags and the `b` of source lines 625-672. -/
theorem LU_of_eliminate_ok (A : Matrix) (b : Option Matrix) (d : Int) (h : A.n = A.m)
    (hb : ∀ b0, b = some b0 → b0.m = A.m ∧ b0.n = 1) (s : LUState)
    (hs : LUeliminate A b d = Except.ok s) :
    A.LU b d =
      match s.b with
      | some b1 =>
        if !scanSingular s.temp A.m A.n then
          ⟨Except.ok ⟨s.temp, s.L, s.U, empty, true, true⟩,
            some (backSubst A.m s.U (forwardSubst A.m s.L b1 (zeros A.n 1)) b1), s.detFactor⟩
        else
          ⟨Except.ok ⟨s.temp, s.L, s.U, empty, true, false⟩, some b1, s.detFactor⟩
      | none =>
        ⟨Except.ok ⟨s.temp, s.L, s.U, empty, false, false⟩, none, s.detFactor⟩ := by
  obtain ⟨U, hU, -⟩ := LU_initial_U A.n
  unfold LUeliminate at hs
  rw [hU] at hs
  simp only at hs
  cases b with
  | none =>
    unfold LU
    rw [if_neg (not_not.mpr h)]
    simp only [Bool.false_eq_true, if_false, hU, hs]
  | some b0 =>
    obtain ⟨h1, h2⟩ := hb b0 rfl
    have hchk : decide (b0.m ≠ A.m ∨ b0.n ≠ 1) = false := by simp [h1, h2]
    unfold LU
    rw [if_neg (not_not.mpr h)]
    simp only [hchk, Bool.false_eq_true, if_false, hU, hs]

/-- A step of `LU` that returns keeps `L` lower triangular and `U` upper
triangular with a unit diagonal. -/
theorem LUstep_triangular (m n k i : Nat) (s u : LUState) (h : LUstep m n i s = Except.ok u)
    (hT : isTriangularLU k s.L s.U) : isTriangularLU k u.L u.U := by
  obtain ⟨s1, hs1, -, hL, hU, -, -⟩ := LUstep_ok m n i s u h
  obtain ⟨eL, eU, -⟩ := LUswap_ok n i s s1 hs1
  obtain ⟨t1, t2, t3⟩ := hT
  obtain ⟨-, -, lc⟩ := col_fill i (fun j => s1.temp.matrix j i) (n - (i + 1)) (i + 1)
    (s1.L.set i i (s1.temp.matrix i i))
  obtain ⟨-, -, uc⟩ := row_update i (fun j _ => u.temp.matrix i j) (fun j => u.temp.matrix i j)
    (m - (i + 1)) (i + 1) s1.U (fun _ _ _ _ _ => rfl)
  refine ⟨fun x y hxy => ?_, fun x hx => ?_, fun x y hxy => ?_⟩
  · rw [hL, lc x y, set_matrix, eL]
    have h1 : ¬ (y = i ∧ i + 1 ≤ x ∧ x < i + 1 + (n - (i + 1))) := by omega
    have h2 : ¬ (x = i ∧ y = i) := by omega
    rw [if_neg h1, if_neg h2]
    exact t1 x y hxy
  · rw [hU, uc x x, eU]
    have h1 : ¬ (x = i ∧ i + 1 ≤ x ∧ x < i + 1 + (m - (i + 1))) := by omega
    rw [if_neg h1]
    exact t2 x hx
  · rw [hU, uc x y, eU]
    have h1 : ¬ (x = i ∧ i + 1 ≤ y ∧ y < i + 1 + (m - (i + 1))) := by omega
    rw [if_neg h1]
    exact t3 x y hxy

/-- A step of `LU` that returns keeps the caller's `b` absent or of the same shape. -/
theorem LUstep_b (m n i : Nat) (s u : LUState) (h : LUstep m n i s = Except.ok u) :
    (s.b = none → u.b = none) ∧
    (∀ b0, s.b = some b0 → ∃ b1, u.b = some b1 ∧ b1.m = b0.m ∧ b1.n = b0.n) := by
  obtain ⟨s1, hs1, -, -, -, hb, -⟩ := LUstep_ok m n i s u h
  obtain ⟨-, -, -, -, h1, h2⟩ := LUswap_ok n i s s1 hs1
  rw [hb]
  exact ⟨h1, h2⟩

/-- What the elimination loop of `LU` has established when it returns: `L` and
`U` are triangular, and the caller's `b` is absent or of the shape it had. -/
theorem LUeliminate_ok (A : Matrix) (b : Option Matrix) (d : Int) (s : LUState)
    (hs : LUeliminate A b d = Except.ok s) :
    isTriangularLU A.n s.L s.U ∧ (b = none → s.b = none) ∧
      (∀ b0, b = some b0 → ∃ b1, s.b = some b1 ∧ b1.m = b0.m ∧ b1.n = b0.n) := by
  obtain ⟨U, hU, uc⟩ := LU_initial_U A.n
  unfold LUeliminate at hs
  rw [hU] at hs
  simp only at hs
  have := forLoopE_invariant (LUstep A.m A.n)
    (fun _ t => isTriangularLU A.n t.L t.U ∧ (b = none → t.b = none) ∧
      (∀ b0, b = some b0 → ∃ b1, t.b = some b1 ∧ b1.m = b0.m ∧ b1.n = b0.n))
    A.m 0 ⟨A, zeros A.n A.n, U, b, 1⟩ s
    ⟨⟨fun _ _ _ => rfl, fun x hx => by rw [uc x x]; simp [hx], fun x y hxy => by
        rw [uc x y]
        have : ¬ x = y := by omega
        simp [this]⟩,
      fun h0 => h0, fun b0 h0 => ⟨b0, h0, rfl, rfl⟩⟩
    (fun i t u _ _ hP hu => by
      obtain ⟨p1, p2, p3⟩ := hP
      obtain ⟨q1, q2⟩ := LUstep_b A.m A.n i t u hu
      refine ⟨LUstep_triangular A.m A.n A.n i t u hu p1, fun h0 => q1 (p2 h0), fun b0 h0 => ?_⟩
      obtain ⟨b1, hb1, bm, bn⟩ := p3 b0 h0
      obtain ⟨b2, hb2, bm2, bn2⟩ := q2 b1 hb1
      exact ⟨b2, hb2, bm2.trans bm, bn2.trans bn⟩)
    hs
  exact this

/-- What the elimination loop of `LU` leaves of the caller's `b` when it
throws: `b` is absent or of the shape it had. -/
theorem LUeliminate_error (A : Matrix) (b : Option Matrix) (d : Int) (e : LinAlgException)
    (b1 : Option Matrix) (d1 : Int) (hs : LUeliminate A b d = Except.error (e, b1, d1)) :
    (b = none → b1 = none) ∧
      (∀ b0, b = some b0 → ∃ b2, b1 = some b2 ∧ b2.m = b0.m ∧ b2.n = b0.n) := by
  obtain ⟨U, hU, -⟩ := LU_initial_U A.n
  unfold LUeliminate at hs
  rw [hU] at hs
  simp only at hs
  obtain ⟨i, t, -, -, hP, ht⟩ := forLoopE_error (LUstep A.m A.n)
    (fun _ t => (b = none → t.b = none) ∧
      (∀ b0, b = some b0 → ∃ b1, t.b = some b1 ∧ b1.m = b0.m ∧ b1.n = b0.n))
    A.m 0 ⟨A, zeros A.n A.n, U, b, 1⟩ (e, b1, d1)
    ⟨fun h0 => h0, fun b0 h0 => ⟨b0, h0, rfl, rfl⟩⟩
    (fun i t u _ _ hP hu => by
      obtain ⟨p2, p3⟩ := hP
      obtain ⟨q1, q2⟩ := LUstep_b A.m A.n i t u hu
      refine ⟨fun h0 => q1 (p2 h0), fun b0 h0 => ?_⟩
      obtain ⟨b1, hb1, bm, bn⟩ := p3 b0 h0
      obtain ⟨b2, hb2, bm2, bn2⟩ := q2 b1 hb1
      exact ⟨b2, hb2, bm2.trans bm, bn2.trans bn⟩)
    hs
  obtain ⟨p2, p3⟩ := hP
  rcases LUstep_error A.m A.n i t e b1 d1 ht with h1 | ⟨s1, hs1, h1⟩
  · rw [h1]; exact ⟨p2, p3⟩
  · obtain ⟨-, -, -, -, q1, q2⟩ := LUswap_ok A.n i t s1 hs1
    rw [h1]
    refine ⟨fun h0 => q1 (p2 h0), fun b0 h0 => ?_⟩
    obtain ⟨b3, hb3, bm, bn⟩ := p3 b0 h0
    obtain ⟨b2, hb2, bm2, bn2⟩ := q2 b3 hb3
    exact ⟨b2, hb2, bm2.trans bm, bn2.trans bn⟩

end Matrix

/-! ## The countdown loop -/

/-- Invariant rule for `forLoopDown`: the body only runs at indices below `m`. -/
theorem forLoopDown_invariant {σ : Type} (m : Nat) (body : Nat → σ → σ) (Q : σ → Prop)
    (hbody : ∀ i t, i < m → Q t → Q (body i t)) :
    ∀ (fuel i : Nat) (s : σ), Q s → Q (forLoopDown m body fuel i s) := by
  intro fuel
  induction fuel with
  | zero => intro i s hs; exact hs
  | succ k ih =>
    intro i s hs
    simp only [forLoopDown]
    by_cases hc : 0 ≤ i ∧ i < m
    · rw [if_pos hc]
      exact ih (wrapDec i) (body i s) (hbody i s hc.2 hs)
    · rw [if_neg hc]
      exact hs

/-- From index `i < m` the countdown loop runs the body at `i, i-1, …, 0` and
then leaves through its own test, `i + 1` units of fuel being enough. -/
theorem forLoopDownFuel_run {σ : Type} (m : Nat) (hm : m < 4294967296) (body : Nat → σ → σ) :
    ∀ (i : Nat) (s : σ), i < m →
      forLoopDownFuel m body (i + 1) i s =
        some ((List.range (i + 1)).reverse.foldl (fun t j => body j t) s) := by
  intro i
  induction i with
  | zero =>
    intro s hi
    have hw : ¬ (0 ≤ wrapDec 0 ∧ wrapDec 0 < m) := by rw [wrapDec_zero]; omega
    have hc : 0 ≤ 0 ∧ 0 < m := ⟨Nat.le_refl _, hi⟩
    simp only [forLoopDownFuel, hc, and_self, if_true, hw, if_false]
    rfl
  | succ k ih =>
    intro s hi
    have hc : 0 ≤ k + 1 ∧ k + 1 < m := ⟨Nat.zero_le _, hi⟩
    have hstep : forLoopDownFuel m body (k + 1 + 1) (k + 1) s =
        forLoopDownFuel m body (k + 1) k (body (k + 1) s) := by
      rw [forLoopDownFuel, if_pos hc, wrapDec_succ k (by omega)]
    rw [hstep, ih (body (k + 1) s) (by omega)]
    congr 1
    rw [List.range_succ (n := k + 1), List.reverse_append]
    rfl

/-- The same run for the loop as `backSubst` uses it. -/
theorem forLoopDown_run {σ : Type} (m : Nat) (hm : m < 4294967296) (body : Nat → σ → σ) :
    ∀ (i : Nat) (s : σ), i < m →
      forLoopDown m body (i + 1) i s =
        (List.range (i + 1)).reverse.foldl (fun t j => body j t) s := by
  intro i
  induction i with
  | zero =>
    intro s hi
    have hc : 0 ≤ 0 ∧ 0 < m := ⟨Nat.le_refl _, hi⟩
    simp only [forLoopDown, hc, and_self, if_true]
    rfl
  | succ k ih =>
    intro s hi
    have hc : 0 ≤ k + 1 ∧ k + 1 < m := ⟨Nat.zero_le _, hi⟩
    have hstep : forLoopDown m body (k + 1 + 1) (k + 1) s =
        forLoopDown m body (k + 1) k (body (k + 1) s) := by
      rw [forLoopDown, if_pos hc, wrapDec_succ k (by omega)]
    rw [hstep, ih (body (k + 1) s) (by omega)]
    rw [List.range_succ (n := k + 1), List.reverse_append]
    rfl

/-- Appending the visited index at every step records the list of indices. -/
theorem foldl_append_singleton {α : Type} (l acc : List α) :
    l.foldl (fun t j => t ++ [j]) acc = acc ++ l := by
  induction l generalizing acc with
  | nil => simp
  | cons x xs ih => simp [ih]

namespace Matrix

/-- The back substitution keeps the shape of `b`. -/
theorem backSubst_shape (m : Nat) (U y b : Matrix) :
    (backSubst m U y b).m = b.m ∧ (backSubst m U y b).n = b.n := by
  unfold backSubst
  exact forLoopDown_invariant m
    (fun i (b : Matrix) =>
      let c := forLoop (fun j c => c + U.matrix i j * b.matrix j 0) (m - (i + 1)) (i + 1) 0
      b.set i 0 (y.matrix i 0 - c))
    (fun t => t.m = b.m ∧ t.n = b.n)
    (fun i t _ ht => by simpa using ht) m (wrapDec m) b ⟨rfl, rfl⟩

/-- A call of `LU` leaves an absent `b` absent and keeps the shape of a `b`
that is passed, whether it returns or throws. -/
theorem LU_b_shape (A : Matrix) (b : Option Matrix) (d : Int) :
    (b = none → (A.LU b d).b = none) ∧
    (∀ b0, b = some b0 → ∃ b1, (A.LU b d).b = some b1 ∧ b1.m = b0.m ∧ b1.n = b0.n) := by
  by_cases hsq : A.n = A.m
  · by_cases hb : ∀ b0, b = some b0 → b0.m = A.m ∧ b0.n = 1
    · cases he : LUeliminate A b d with
      | error p =>
        obtain ⟨e, b1, d1⟩ := p
        rw [LU_of_eliminate_error A b d hsq hb e b1 d1 he]
        exact LUeliminate_error A b d e b1 d1 he
      | ok s =>
        obtain ⟨-, h1, h2⟩ := LUeliminate_ok A b d s he
        rw [LU_of_eliminate_ok A b d hsq hb s he]
        constructor
        · intro h0
          rw [h1 h0]
        · intro b0 h0
          obtain ⟨b1, hb1, bm, bn⟩ := h2 b0 h0
          rw [hb1]
          simp only
          cases hscan : scanSingular s.temp A.m A.n with
          | true =>
            simp only [Bool.not_true, Bool.false_eq_true, if_false]
            exact ⟨b1, rfl, bm, bn⟩
          | false =>
            simp only [Bool.not_false, if_true]
            obtain ⟨sm, sn⟩ := backSubst_shape A.m s.U
              (forwardSubst A.m s.L b1 (zeros A.n 1)) b1
            exact ⟨_, rfl, sm.trans bm, sn.trans bn⟩
    · have hres : (A.LU b d).b = b := by
        cases b with
        | none => exact absurd (fun b0 h0 => by cases h0) hb
        | some b0 =>
          have hchk : decide (b0.m ≠ A.m ∨ b0.n ≠ 1) = true := by
            rw [decide_eq_true_iff]
            by_contra hc
            apply hb
            intro b1 h1
            cases h1
            constructor
            · by_contra h2; exact hc (Or.inl h2)
            · by_contra h2; exact hc (Or.inr h2)
          unfold LU
          rw [if_neg (not_not.mpr hsq)]
          simp only [hchk, if_true]
      rw [hres]
      exact ⟨fun h0 => h0, fun b0 h0 => ⟨b0, h0, rfl, rfl⟩⟩
  · have hres : (A.LU b d).b = b := by
      unfold LU
      rw [if_pos hsq]
    rw [hres]
    exact ⟨fun h0 => h0, fun b0 h0 => ⟨b0, h0, rfl, rfl⟩⟩

/-! ## A step of `LU` without row exchange -/

/-- A step of `LU` on a diagonal entry of magnitude at least epsilon: no row
exchange, the pivot succeeds, `L` receives column `i` of the old `temp` and
`U` receives row `i` of the new one. -/
theorem LUstep_noswap (m n i : Nat) (s : LUState) (hi : i < s.temp.m) (hj : i < s.temp.n)
    (hp : ¬ fabs (s.temp.matrix i i) < DBL_EPSILON) :
    LUswap n i s = Except.ok s ∧
    ∃ u, LUstep m n i s = Except.ok u ∧ u.b = s.b ∧ u.detFactor = s.detFactor ∧
      u.temp.m = s.temp.m ∧ u.temp.n = s.temp.n ∧
      (∀ x y, u.temp.matrix x y =
        if x = i then
          (if y < s.temp.n then s.temp.matrix i y / s.temp.matrix i i else s.temp.matrix i y)
        else if (x < s.temp.m ∧ y < s.temp.n) ∧ true = true ∧
            fabs (s.temp.matrix x i) > DBL_EPSILON
        then s.temp.matrix x y - s.temp.matrix x i * (s.temp.matrix i y / s.temp.matrix i i)
        else s.temp.matrix x y) ∧
      (∀ x y, u.L.matrix x y =
        if y = i ∧ i + 1 ≤ x ∧ x < i + 1 + (n - (i + 1)) then s.temp.matrix x i
        else if x = i ∧ y = i then s.temp.matrix i i else s.L.matrix x y) ∧
      (∀ x y, u.U.matrix x y =
        if x = i ∧ i + 1 ≤ y ∧ y < i + 1 + (m - (i + 1)) then u.temp.matrix x y
        else s.U.matrix x y) := by
  have hswap : LUswap n i s = Except.ok s := by
    unfold LUswap
    rw [if_neg hp]
  obtain ⟨R, hR, rm, rn, rc⟩ := pivot_closed s.temp i i true hi hj hp
  obtain ⟨-, -, lc⟩ := col_fill i (fun j => s.temp.matrix j i) (n - (i + 1)) (i + 1)
    (s.L.set i i (s.temp.matrix i i))
  obtain ⟨-, -, uc⟩ := row_update i (fun j _ => R.matrix i j) (fun j => R.matrix i j)
    (m - (i + 1)) (i + 1) s.U (fun _ _ _ _ _ => rfl)
  have hstep : LUstep m n i s = Except.ok
      ⟨R, forLoop (fun j L => L.set j i (s.temp.matrix j i)) (n - (i + 1)) (i + 1)
          (s.L.set i i (s.temp.matrix i i)),
        forLoop (fun j U => U.set i j (R.matrix i j)) (m - (i + 1)) (i + 1) s.U,
        s.b, s.detFactor⟩ := by
    simp only [LUstep, hswap, hR]
  refine ⟨hswap, _, hstep, rfl, rfl, rm, rn, rc, fun x y => ?_, fun x y => ?_⟩
  · show (forLoop (fun j L => L.set j i (s.temp.matrix j i)) (n - (i + 1)) (i + 1)
      (s.L.set i i (s.temp.matrix i i))).matrix x y = _
    rw [lc x y, set_matrix]
  · show (forLoop (fun j U => U.set i j (R.matrix i j)) (m - (i + 1)) (i + 1) s.U).matrix x y = _
    rw [uc x y]
    by_cases h : x = i ∧ i + 1 ≤ y ∧ y < i + 1 + (m - (i + 1))
    · rw [if_pos h, if_pos h, h.1]
    · rw [if_neg h, if_neg h]

/-- A step of `LU` that returns keeps the extents of `L` and `U`. -/
theorem LUstep_dims (m n i : Nat) (s u : LUState) (h : LUstep m n i s = Except.ok u) :
    u.L.m = s.L.m ∧ u.L.n = s.L.n ∧ u.U.m = s.U.m ∧ u.U.n = s.U.n := by
  obtain ⟨s1, hs1, -, hL, hU, -, -⟩ := LUstep_ok m n i s u h
  obtain ⟨eL, eU, -⟩ := LUswap_ok n i s s1 hs1
  obtain ⟨lm, ln, -⟩ := col_fill i (fun j => s1.temp.matrix j i) (n - (i + 1)) (i + 1)
    (s1.L.set i i (s1.temp.matrix i i))
  obtain ⟨um, un, -⟩ := row_update i (fun j _ => u.temp.matrix i j) (fun j => u.temp.matrix i j)
    (m - (i + 1)) (i + 1) s1.U (fun _ _ _ _ _ => rfl)
  rw [hL, hU, ← eL, ← eU]
  exact ⟨lm, ln, um, un⟩

/-- The elimination of `LU` on a `2 × 2` matrix `[[a,b],[c,d]]` with
`|a| ≥ epsilon`, `c = 0` or `|c| > epsilon`, and `|d − c·b/a| ≥ epsilon`: both
steps run without row exchange and leave `L = [[a,0],[c,d − c·b/a]]`,
`U = [[1,b/a],[0,1]]` and unit diagonal entries in `temp`. -/
theorem LU_two_by_two (a : Nat → Nat → ℚ) (U0 : Matrix)
    (hU : ∀ x y, U0.matrix x y = if x < 2 ∧ y < 2 then (if x = y then 1 else 0) else 0)
    (ha : ¬ fabs (a 0 0) < DBL_EPSILON)
    (hc : a 1 0 = 0 ∨ fabs (a 1 0) > DBL_EPSILON)
    (hd : ¬ fabs (a 1 1 - a 1 0 * a 0 1 / a 0 0) < DBL_EPSILON) :
    ∃ s1 s2, LUswap 2 0 ⟨Matrix.mk 2 2 a, zeros 2 2, U0, none, 1⟩ =
        Except.ok ⟨Matrix.mk 2 2 a, zeros 2 2, U0, none, 1⟩ ∧
      LUstep 2 2 0 ⟨Matrix.mk 2 2 a, zeros 2 2, U0, none, 1⟩ = Except.ok s1 ∧
      LUswap 2 1 s1 = Except.ok s1 ∧ LUstep 2 2 1 s1 = Except.ok s2 ∧
      s2.b = none ∧ s2.detFactor = 1 ∧
      s2.temp.matrix 0 0 = 1 ∧ s2.temp.matrix 1 1 = 1 ∧
      s2.L.matrix 0 0 = a 0 0 ∧ s2.L.matrix 0 1 = 0 ∧ s2.L.matrix 1 0 = a 1 0 ∧
      s2.L.matrix 1 1 = a 1 1 - a 1 0 * a 0 1 / a 0 0 ∧
      s2.U.matrix 0 0 = 1 ∧ s2.U.matrix 0 1 = a 0 1 / a 0 0 ∧ s2.U.matrix 1 0 = 0 ∧
      s2.U.matrix 1 1 = 1 := by
  have ha0 : a 0 0 ≠ 0 := ne_zero_of_not_fabs_lt _ ha
  obtain ⟨hsw0, s1, hs1, b1, d1, tm1, tn1, tc1, lc1, uc1⟩ :=
    LUstep_noswap 2 2 0 ⟨Matrix.mk 2 2 a, zeros 2 2, U0, none, 1⟩
      (by show 0 < 2; omega) (by show 0 < 2; omega) ha
  simp only at b1 d1 tm1 tn1 tc1 lc1 uc1
  -- the working copy after step 0
  have t00 : s1.temp.matrix 0 0 = 1 := by
    rw [tc1 0 0]; simp [div_self ha0]
  have t01 : s1.temp.matrix 0 1 = a 0 1 / a 0 0 := by
    rw [tc1 0 1]; simp
  have t10 : s1.temp.matrix 1 0 = 0 := by
    rw [tc1 1 0]
    rcases hc with h0 | hbig
    · by_cases hb : fabs (a 1 0) > DBL_EPSILON
      · simp [hb, h0]
      · simp [hb, h0]
    · simp [hbig, div_self ha0]
  have t11 : s1.temp.matrix 1 1 = a 1 1 - a 1 0 * a 0 1 / a 0 0 := by
    rw [tc1 1 1]
    rcases hc with h0 | hbig
    · by_cases hb : fabs (a 1 0) > DBL_EPSILON
      · simp [hb, h0]
      · simp [hb, h0]
    · simp [hbig]; ring
  have hp1 : ¬ fabs (s1.temp.matrix 1 1) < DBL_EPSILON := by rw [t11]; exact hd
  have hp10 : s1.temp.matrix 1 1 ≠ 0 := ne_zero_of_not_fabs_lt _ hp1
  obtain ⟨hsw1, s2, hs2, b2, d2, -, -, tc2, lc2, uc2⟩ :=
    LUstep_noswap 2 2 1 s1 (by rw [tm1]; omega) (by rw [tn1]; omega) hp1
  refine ⟨s1, s2, hsw0, hs1, hsw1, hs2, b2.trans b1, d2.trans d1, ?_, ?_, ?_, ?_, ?_, ?_,
    ?_, ?_, ?_, ?_⟩
  · rw [tc2 0 0, tm1, tn1, t10, t00]
    by_cases hb : fabs (s1.temp.matrix 0 1) > DBL_EPSILON
    · simp [hb]
    · simp [hb]
  · rw [tc2 1 1, tn1]
    simp [div_self hp10]
  · rw [lc2 0 0, lc1 0 0]; simp
  · rw [lc2 0 1, lc1 0 1]; simp [zeros]
  · rw [lc2 1 0, lc1 1 0]; simp
  · rw [lc2 1 1, t11]; simp
  · rw [uc2 0 0, uc1 0 0, hU 0 0]; simp
  · rw [uc2 0 1, uc1 0 1, t01]; simp
  · rw [uc2 1 0, uc1 1 0, hU 1 0]; simp
  · rw [uc2 1 1, uc1 1 1, hU 1 1]; simp

/-! ## The elimination loop of `inverse` -/

/-- A loop that writes the cells `(r, j)`, `j < count`, of `temp` and of `inv`
together, each value depending only on cells not yet written. -/
theorem inv_row_update (r : Nat) (vt vi : Nat → InvState → ℚ) (wt wi : Nat → ℚ) (count : Nat)
    (s R : InvState)
    (hR : R = forLoop (fun j t =>
      InvState.mk (t.temp.set r j (vt j t)) (t.inv.set r j (vi j t))) count 0 s)
    (hv : ∀ j t, j < count →
      (∀ a b, t.temp.matrix a b = if a = r ∧ b < j then wt b else s.temp.matrix a b) →
      (∀ a b, t.inv.matrix a b = if a = r ∧ b < j then wi b else s.inv.matrix a b) →
      vt j t = wt j ∧ vi j t = wi j) :
    R.temp.m = s.temp.m ∧ R.temp.n = s.temp.n ∧ R.inv.m = s.inv.m ∧ R.inv.n = s.inv.n ∧
      (∀ a b, R.temp.matrix a b = if a = r ∧ b < count then wt b else s.temp.matrix a b) ∧
      (∀ a b, R.inv.matrix a b = if a = r ∧ b < count then wi b else s.inv.matrix a b) := by
  subst hR
  have := forLoop_invariant
    (fun j t => InvState.mk (t.temp.set r j (vt j t)) (t.inv.set r j (vi j t)))
    (fun k R => R.temp.m = s.temp.m ∧ R.temp.n = s.temp.n ∧ R.inv.m = s.inv.m ∧
      R.inv.n = s.inv.n ∧
      (∀ a b, R.temp.matrix a b = if a = r ∧ b < k then wt b else s.temp.matrix a b) ∧
      (∀ a b, R.inv.matrix a b = if a = r ∧ b < k then wi b else s.inv.matrix a b))
    count 0 s ⟨rfl, rfl, rfl, rfl, fun a b => by simp, fun a b => by simp⟩
    (fun k R _ hk hR => by
      obtain ⟨h1, h2, h3, h4, ht, hi⟩ := hR
      obtain ⟨e1, e2⟩ := hv k R (by omega) ht hi
      refine ⟨h1, h2, h3, h4, fun a b => ?_, fun a b => ?_⟩
      · show (R.temp.set r k (vt k R)).matrix a b = _
        rw [set_matrix, e1, ht a b]
        by_cases ha : a = r
        · by_cases hb : b = k
          · simp [ha, hb]
          · have e : (b < k + 1) = (b < k) := by
              apply propext; constructor <;> intro hlt <;> omega
            simp [ha, hb, e]
        · simp [ha]
      · show (R.inv.set r k (vi k R)).matrix a b = _
        rw [set_matrix, e2, hi a b]
        by_cases ha : a = r
        · by_cases hb : b = k
          · simp [ha, hb]
          · have e : (b < k + 1) = (b < k) := by
              apply propext; constructor <;> intro hlt <;> omega
            simp [ha, hb, e]
        · simp [ha])
  simpa only [Nat.zero_add] using this

/-- Closed form of the elimination loop of `inverse` at step `i`: every row
`x ≠ i`, `x < m`, whose entry in column `i` exceeds epsilon in magnitude loses
that multiple of row `i`, in `temp` and in `inv` alike, over the columns below `n`. -/
theorem inv_eliminate (m n i : Nat) (N R : InvState)
    (hR : R = forLoop (fun j s =>
        if (j != i) && decide (fabs (s.temp.matrix j i) > DBL_EPSILON) then
          let factor := s.temp.matrix j i
          forLoop (fun k s =>
            InvState.mk (s.temp.set j k (s.temp.matrix j k - factor * s.temp.matrix i k))
              (s.inv.set j k (s.inv.matrix j k - factor * s.inv.matrix i k)))
            n 0 s
        else s) m 0 N) :
    R.temp.m = N.temp.m ∧ R.temp.n = N.temp.n ∧ R.inv.m = N.inv.m ∧ R.inv.n = N.inv.n ∧
      (∀ x y, R.temp.matrix x y =
        if (x < m ∧ y < n) ∧ x ≠ i ∧ fabs (N.temp.matrix x i) > DBL_EPSILON
        then N.temp.matrix x y - N.temp.matrix x i * N.temp.matrix i y
        else N.temp.matrix x y) ∧
      (∀ x y, R.inv.matrix x y =
        if (x < m ∧ y < n) ∧ x ≠ i ∧ fabs (N.temp.matrix x i) > DBL_EPSILON
        then N.inv.matrix x y - N.temp.matrix x i * N.inv.matrix i y
        else N.inv.matrix x y) := by
  subst hR
  have := forLoop_invariant (fun j s =>
        if (j != i) && decide (fabs (s.temp.matrix j i) > DBL_EPSILON) then
          let factor := s.temp.matrix j i
          forLoop (fun k s =>
            InvState.mk (s.temp.set j k (s.temp.matrix j k - factor * s.temp.matrix i k))
              (s.inv.set j k (s.inv.matrix j k - factor * s.inv.matrix i k)))
            n 0 s
        else s)
    (fun k R => R.temp.m = N.temp.m ∧ R.temp.n = N.temp.n ∧ R.inv.m = N.inv.m ∧
      R.inv.n = N.inv.n ∧
      (∀ x y, R.temp.matrix x y =
        if (x < k ∧ y < n) ∧ x ≠ i ∧ fabs (N.temp.matrix x i) > DBL_EPSILON
        then N.temp.matrix x y - N.temp.matrix x i * N.temp.matrix i y
        else N.temp.matrix x y) ∧
      (∀ x y, R.inv.matrix x y =
        if (x < k ∧ y < n) ∧ x ≠ i ∧ fabs (N.temp.matrix x i) > DBL_EPSILON
        then N.inv.matrix x y - N.temp.matrix x i * N.inv.matrix i y
        else N.inv.matrix x y))
    m 0 N ⟨rfl, rfl, rfl, rfl, fun x y => by simp, fun x y => by simp⟩
    (fun k R _ _ hR => by
      obtain ⟨h1, h2, h3, h4, ht, hi⟩ := hR
      have hk : ¬ k < k := Nat.lt_irrefl k
      have tk : ∀ y, R.temp.matrix k y = N.temp.matrix k y := fun y => by
        rw [ht k y]; simp only [hk, false_and, if_false]
      have ik : ∀ y, R.inv.matrix k y = N.inv.matrix k y := fun y => by
        rw [hi k y]; simp only [hk, false_and, if_false]
      have ti : ∀ y, R.temp.matrix i y = N.temp.matrix i y := fun y => by
        rw [ht i y]; simp
      have ii : ∀ y, R.inv.matrix i y = N.inv.matrix i y := fun y => by
        rw [hi i y]; simp
      by_cases hcond : k ≠ i ∧ fabs (N.temp.matrix k i) > DBL_EPSILON
      · obtain ⟨c1, c2⟩ := hcond
        have hif : ((k != i) && decide (fabs (R.temp.matrix k i) > DBL_EPSILON)) = true := by
          rw [tk i]; simp [c1, c2]
        simp only [hif, if_true]
        obtain ⟨r1, r2, r3, r4, rt, ri⟩ := inv_row_update k
          (fun c (t : InvState) => t.temp.matrix k c - R.temp.matrix k i * t.temp.matrix i c)
          (fun c (t : InvState) => t.inv.matrix k c - R.temp.matrix k i * t.inv.matrix i c)
          (fun c => N.temp.matrix k c - N.temp.matrix k i * N.temp.matrix i c)
          (fun c => N.inv.matrix k c - N.temp.matrix k i * N.inv.matrix i c) n R _ rfl
          (fun c t _ hT hI => by
            have hc1 : ¬ (k = k ∧ c < c) := by omega
            have hc2 : ¬ (i = k ∧ c < c) := by omega
            constructor
            · show t.temp.matrix k c - R.temp.matrix k i * t.temp.matrix i c = _
              rw [hT k c, hT i c, if_neg hc1, if_neg hc2, tk i, tk c, ti c]
            · show t.inv.matrix k c - R.temp.matrix k i * t.inv.matrix i c = _
              rw [hI k c, hI i c, if_neg hc1, if_neg hc2, tk i, ik c, ii c])
        refine ⟨r1.trans h1, r2.trans h2, r3.trans h3, r4.trans h4, fun x y => ?_, fun x y => ?_⟩
        · rw [rt x y]
          by_cases hx : x = k
          · subst hx
            by_cases hy : y < n
            · simp [hy, c1, c2]
            · simp [hy, tk y]
          · have e : (x < k + 1) = (x < k) := by
              apply propext; constructor <;> intro hlt <;> omega
            simp only [hx, false_and, if_false, e]
            exact ht x y
        · rw [ri x y]
          by_cases hx : x = k
          · subst hx
            by_cases hy : y < n
            · simp [hy, c1, c2]
            · simp [hy, ik y]
          · have e : (x < k + 1) = (x < k) := by
              apply propext; constructor <;> intro hlt <;> omega
            simp only [hx, false_and, if_false, e]
            exact hi x y
      · have hif : ((k != i) && decide (fabs (R.temp.matrix k i) > DBL_EPSILON)) = false := by
          rw [tk i]
          by_cases c1 : k = i
          · simp [c1]
          · have c2 : ¬ fabs (N.temp.matrix k i) > DBL_EPSILON := fun c2 => hcond ⟨c1, c2⟩
            simp [c1, c2]
        simp only [hif, Bool.false_eq_true, if_false]
        refine ⟨h1, h2, h3, h4, fun x y => ?_, fun x y => ?_⟩
        · rw [ht x y]
          by_cases hx : x = k
          · subst hx
            have : ¬ ((x < x + 1 ∧ y < n) ∧ x ≠ i ∧
                fabs (N.temp.matrix x i) > DBL_EPSILON) := fun h => hcond h.2
            simp only [hk, false_and, if_false, this]
          · have e : (x < k + 1) = (x < k) := by
              apply propext; constructor <;> intro hlt <;> omega
            simp only [e]
        · rw [hi x y]
          by_cases hx : x = k
          · subst hx
            have : ¬ ((x < x + 1 ∧ y < n) ∧ x ≠ i ∧
                fabs (N.temp.matrix x i) > DBL_EPSILON) := fun h => hcond h.2
            simp only [hk, false_and, if_false, this]
          · have e : (x < k + 1) = (x < k) := by
              apply propext; constructor <;> intro hlt <;> omega
            simp only [e])
  simpa only [Nat.zero_add] using this

/-- What a returning step of the loop of `inverse` did: an optional exchange
of row `i` with the row found by the search, in `temp` and `inv` alike, then
the division of row `i` by a pivot element of magnitude at least epsilon and
the elimination of column `i`. -/
theorem inverseStep_ok (m n i : Nat) (s u : InvState)
    (h : inverseStep m n i s = Except.ok u) :
    ∃ s1 : InvState,
      ((¬ fabs (s.temp.matrix i i) < DBL_EPSILON ∧ s1 = s) ∨
        (fabs (s.temp.matrix i i) < DBL_EPSILON ∧
          s.temp.swapRow i (largestValue s.temp n i) = Except.ok s1.temp ∧
          s.inv.swapRow i (largestValue s.temp n i) = Except.ok s1.inv)) ∧
      ¬ fabs (s1.temp.matrix i i) < DBL_EPSILON ∧
      u = forLoop (fun j s =>
          if (j != i) && decide (fabs (s.temp.matrix j i) > DBL_EPSILON) then
            let factor := s.temp.matrix j i
            forLoop (fun k s =>
              InvState.mk (s.temp.set j k (s.temp.matrix j k - factor * s.temp.matrix i k))
                (s.inv.set j k (s.inv.matrix j k - factor * s.inv.matrix i k)))
              n 0 s
          else s) m 0
        (forLoop (fun j t =>
          InvState.mk (t.temp.set i j (t.temp.matrix i j / s1.temp.matrix i i))
            (t.inv.set i j (t.inv.matrix i j / s1.temp.matrix i i))) n 0 s1) := by
  unfold inverseStep at h
  by_cases hd : fabs (s.temp.matrix i i) < DBL_EPSILON
  · simp only [hd, if_true] at h
    cases ht : s.temp.swapRow i (largestValue s.temp n i) with
    | error e => rw [ht] at h; cases h
    | ok T =>
      rw [ht] at h
      simp only at h
      cases hv : s.inv.swapRow i (largestValue s.temp n i) with
      | error e => rw [hv] at h; cases h
      | ok V =>
        rw [hv] at h
        simp only at h
        by_cases hp : fabs (T.matrix i i) < DBL_EPSILON
        · rw [if_pos hp] at h; cases h
        · rw [if_neg hp] at h
          simp only [Except.ok.injEq] at h
          exact ⟨⟨T, V⟩, Or.inr ⟨hd, rfl, rfl⟩, hp, h.symm⟩
  · simp only [hd, if_false, Except.ok.injEq] at h
    exact ⟨s, Or.inl ⟨hd, rfl⟩, hd, h.symm⟩

/-- Exchanging the same two rows of `temp` and `inv` keeps `inv · A = temp`. -/
theorem swap_leftProduct (n i l : Nat) (A : Matrix) (s : InvState) (T V : Matrix)
    (d1 : s.temp.m = n) (d2 : s.temp.n = n) (d3 : s.inv.m = n) (d4 : s.inv.n = n)
    (hT : s.temp.swapRow i l = Except.ok T) (hV : s.inv.swapRow i l = Except.ok V)
    (hinv : leftProduct n A s) :
    T.m = n ∧ T.n = n ∧ V.m = n ∧ V.n = n ∧ leftProduct n A ⟨T, V⟩ := by
  obtain ⟨hi, hl, tm, tn, tc⟩ := swapRow_ok _ _ _ _ hT
  obtain ⟨-, -, vm, vn, vc⟩ := swapRow_ok _ _ _ _ hV
  rw [d1] at hi hl
  refine ⟨tm.trans d1, tn.trans d2, vm.trans d3, vn.trans d4, fun r c hr hc => ?_⟩
  show ∑ t in Finset.range n, V.matrix r t * A.matrix t c = T.matrix r c
  have hcn : c < s.temp.n := by rw [d2]; exact hc
  rw [tc r c, if_pos hcn]
  have hsum : ∀ x, x < n → (∀ t, t < n → V.matrix r t = s.inv.matrix x t) →
      ∑ t in Finset.range n, V.matrix r t * A.matrix t c = s.temp.matrix x c := by
    intro x hxn hx
    rw [← hinv x c hxn hc]
    exact Finset.sum_congr rfl (fun t ht => by rw [hx t (Finset.mem_range.mp ht)])
  have hv : ∀ t, t < n → V.matrix r t =
      if r = l then s.inv.matrix i t else if r = i then s.inv.matrix l t
      else s.inv.matrix r t := fun t ht => by
    rw [vc r t, if_pos (by rw [d4]; exact ht)]
  by_cases h1 : r = l
  · rw [if_pos h1]
    exact hsum i hi (fun t ht => by rw [hv t ht, if_pos h1])
  · rw [if_neg h1]
    by_cases h2 : r = i
    · rw [if_pos h2]
      exact hsum l hl (fun t ht => by rw [hv t ht, if_neg h1, if_pos h2])
    · rw [if_neg h2]
      exact hsum r hr (fun t ht => by rw [hv t ht, if_neg h1, if_neg h2])

/-- Dividing row `i` of `temp` and of `inv` by the pivot element and
eliminating column `i` from the other rows of both keeps `inv · A = temp`. -/
theorem eliminate_leftProduct (n i : Nat) (A : Matrix) (s u : InvState) (p : ℚ) (hi : i < n)
    (d1 : s.temp.m = n) (d2 : s.temp.n = n) (d3 : s.inv.m = n) (d4 : s.inv.n = n)
    (hu : u = forLoop (fun j s =>
          if (j != i) && decide (fabs (s.temp.matrix j i) > DBL_EPSILON) then
            let factor := s.temp.matrix j i
            forLoop (fun k s =>
              InvState.mk (s.temp.set j k (s.temp.matrix j k - factor * s.temp.matrix i k))
                (s.inv.set j k (s.inv.matrix j k - factor * s.inv.matrix i k)))
              n 0 s
          else s) n 0
        (forLoop (fun j t =>
          InvState.mk (t.temp.set i j (t.temp.matrix i j / p))
            (t.inv.set i j (t.inv.matrix i j / p))) n 0 s))
    (hinv : leftProduct n A s) :
    u.temp.m = n ∧ u.temp.n = n ∧ u.inv.m = n ∧ u.inv.n = n ∧ leftProduct n A u := by
  obtain ⟨n1, n2, n3, n4, nt, ni⟩ := inv_row_update i
    (fun j (t : InvState) => t.temp.matrix i j / p)
    (fun j (t : InvState) => t.inv.matrix i j / p)
    (fun j => s.temp.matrix i j / p) (fun j => s.inv.matrix i j / p) n s _ rfl
    (fun j t _ hT hI => by
      have hj : ¬ (i = i ∧ j < j) := by omega
      constructor
      · show t.temp.matrix i j / p = _
        rw [hT i j, if_neg hj]
      · show t.inv.matrix i j / p = _
        rw [hI i j, if_neg hj])
  obtain ⟨e1, e2, e3, e4, et, ei⟩ := inv_eliminate n n i _ u hu
  -- the invariant after the division of row `i`
  have hN : leftProduct n A (forLoop (fun j t =>
          InvState.mk (t.temp.set i j (t.temp.matrix i j / p))
            (t.inv.set i j (t.inv.matrix i j / p))) n 0 s) := by
    intro r c hr hc
    rw [nt r c]
    by_cases hri : r = i
    · rw [if_pos ⟨hri, hc⟩, ← hinv i c hi hc, Finset.sum_div]
      refine Finset.sum_congr rfl (fun t ht => ?_)
      rw [ni r t, if_pos ⟨hri, Finset.mem_range.mp ht⟩]
      ring
    · rw [if_neg (fun h => hri h.1), ← hinv r c hr hc]
      refine Finset.sum_congr rfl (fun t _ => ?_)
      rw [ni r t, if_neg (fun h => hri h.1)]
  refine ⟨(e1.trans n1).trans d1, (e2.trans n2).trans d2, (e3.trans n3).trans d3,
    (e4.trans n4).trans d4, fun r c hr hc => ?_⟩
  rw [et r c]
  by_cases hcond : (r < n ∧ c < n) ∧ r ≠ i ∧ fabs ((forLoop (fun j t =>
          InvState.mk (t.temp.set i j (t.temp.matrix i j / p))
            (t.inv.set i j (t.inv.matrix i j / p))) n 0 s).temp.matrix r i) > DBL_EPSILON
  · rw [if_pos hcond, ← hN r c hr hc, ← hN i c hi hc, Finset.mul_sum,
      ← Finset.sum_sub_distrib]
    refine Finset.sum_congr rfl (fun t ht => ?_)
    rw [ei r t, if_pos ⟨⟨hr, Finset.mem_range.mp ht⟩, hcond.2⟩]
    ring
  · rw [if_neg hcond, ← hN r c hr hc]
    refine Finset.sum_congr rfl (fun t ht => ?_)
    rw [ei r t, if_neg (fun h => hcond ⟨⟨hr, hc⟩, h.2⟩)]

/-- A returning step of the loop of `inverse` on `n × n` matrices keeps
`inv · A = temp`. -/
theorem inverseStep_leftProduct (n i : Nat) (A : Matrix) (s u : InvState) (hi : i < n)
    (d1 : s.temp.m = n) (d2 : s.temp.n = n) (d3 : s.inv.m = n) (d4 : s.inv.n = n)
    (h : inverseStep n n i s = Except.ok u) (hinv : leftProduct n A s) :
    u.temp.m = n ∧ u.temp.n = n ∧ u.inv.m = n ∧ u.inv.n = n ∧ leftProduct n A u := by
  obtain ⟨s1, hs1, -, hu⟩ := inverseStep_ok n n i s u h
  rcases hs1 with ⟨-, rfl⟩ | ⟨-, hT, hV⟩
  · exact eliminate_leftProduct n i A _ u _ hi d1 d2 d3 d4 hu hinv
  · obtain ⟨t1, t2, t3, t4, tinv⟩ := swap_leftProduct n i _ A s _ _ d1 d2 d3 d4 hT hV hinv
    exact eliminate_leftProduct n i A s1 u _ hi t1 t2 t3 t4 hu tinv

/-- The loop of `inverse` starts from `inv · A = temp`: the accumulator holds
the identity and the working copy holds `A`. -/
theorem leftProduct_initial (n : Nat) (a : Nat → Nat → ℚ) (I : Matrix)
    (hI : (zeros n n).identity = Except.ok I) :
    I.m = n ∧ I.n = n ∧ leftProduct n (Matrix.mk n n a) ⟨Matrix.mk n n a, I⟩ := by
  obtain ⟨R, hR, rm, rn, rc⟩ := identity_closed (zeros n n) rfl
  rw [hR] at hI
  simp only [Except.ok.injEq] at hI
  subst hI
  refine ⟨rm, rn, fun r c hr hc => ?_⟩
  show ∑ t in Finset.range n, R.matrix r t * a t c = a r c
  have : ∀ t, t ∈ Finset.range n → R.matrix r t * a t c = if r = t then a t c else 0 := by
    intro t ht
    have hrt : r < (zeros n n).m ∧ t < (zeros n n).n := ⟨hr, Finset.mem_range.mp ht⟩
    rw [rc r t, if_pos hrt]
    by_cases e : r = t
    · simp [e]
    · simp [e]
  rw [Finset.sum_congr rfl this, Finset.sum_ite_eq, if_pos (Finset.mem_range.mpr hr)]

end Matrix

namespace Vector

/-! ## Vectors in `double` arithmetic -/

end Vector

/-! ## The heap and the values -/

/-- Two loops whose bodies keep a relation between their states end in
related states. -/
theorem forLoop_sim {σ τ : Type} (f : Nat → σ → σ) (g : Nat → τ → τ) (R : σ → τ → Prop)
    (hstep : ∀ i s t, R s t → R (f i s) (g i t)) :
    ∀ (count start : Nat) (s : σ) (t : τ), R s t →
      R (forLoop f count start s) (forLoop g count start t) := by
  intro count
  induction count with
  | zero => intro start s t h; exact h
  | succ k ih =>
    intro start s t h
    exact ih (start + 1) (f start s) (g start t) (hstep start s t h)

/-- Two throwing loops whose bodies agree on related states agree. -/
theorem forLoopE_sim {ε₁ ε₂ σ τ : Type} (f : Nat → σ → Except ε₁ σ)
    (g : Nat → τ → Except ε₂ τ) (R : σ → τ → Prop) (RE : ε₁ → ε₂ → Prop)
    (hstep : ∀ i s t, R s t → relExcept R RE (f i s) (g i t)) :
    ∀ (count start : Nat) (s : σ) (t : τ), R s t →
      relExcept R RE (forLoopE f count start s) (forLoopE g count start t) := by
  intro count
  induction count with
  | zero => intro start s t h; exact h
  | succ k ih =>
    intro start s t h
    have h1 := hstep start s t h
    simp only [forLoopE]
    cases hf : f start s with
    | error e1 =>
      cases hg : g start t with
      | error e2 => rw [hf, hg] at h1; exact h1
      | ok t1 => rw [hf, hg] at h1; exact h1.elim
    | ok s1 =>
      cases hg : g start t with
      | error e2 => rw [hf, hg] at h1; exact h1.elim
      | ok t1 =>
        rw [hf, hg] at h1
        exact ih (start + 1) s1 t1 h1

/-- Two countdown loops whose bodies keep a relation between their states end
in related states. -/
theorem forLoopDown_sim {σ τ : Type} (m : Nat) (f : Nat → σ → σ) (g : Nat → τ → τ)
    (R : σ → τ → Prop) (hstep : ∀ i s t, i < m → R s t → R (f i s) (g i t)) :
    ∀ (fuel i : Nat) (s : σ) (t : τ), R s t →
      R (forLoopDown m f fuel i s) (forLoopDown m g fuel i t) := by
  intro fuel
  induction fuel with
  | zero => intro i s t h; exact h
  | succ k ih =>
    intro i s t h
    simp only [forLoopDown]
    by_cases hc : 0 ≤ i ∧ i < m
    · rw [if_pos hc, if_pos hc]
      exact ih (wrapDec i) (f i s) (g i t) (hstep i s t hc.2 h)
    · rw [if_neg hc, if_neg hc]
      exact h

/-- Reading the address just written. -/
theorem writeAt_same (h : Heap) (p : Nat) (M : Matrix) : writeAt h p M p = M := by
  simp [writeAt]

/-- Reading another address than the one written. -/
theorem writeAt_other (h : Heap) (p a : Nat) (M : Matrix) (ha : a ≠ p) :
    writeAt h p M a = h a := by
  simp [writeAt, ha]

/-- A second write to an address replaces the first. -/
theorem writeAt_writeAt (h : Heap) (p : Nat) (M N : Matrix) :
    writeAt (writeAt h p M) p N = writeAt h p N := by
  funext a
  by_cases ha : a = p <;> simp [writeAt, ha]

/-- Writing back what an address holds changes nothing. -/
theorem writeAt_self (h : Heap) (p : Nat) : writeAt h p (h p) = h := by
  funext a
  by_cases ha : a = p
  · subst ha; simp [writeAt]
  · simp [writeAt, ha]

namespace Heap

/-- Every heap is within the frame of itself. -/
theorem frame_refl (h : Heap) (b : Option Nat) : frame h b h :=
  ⟨fun _ _ => rfl, fun _ => ⟨rfl, rfl⟩⟩

/-- A write at the address `b` of a matrix of the dimensions found there stays
within the frame. -/
theorem frame_writeAt (h h1 : Heap) (p : Nat) (M : Matrix) (hf : frame h (some p) h1)
    (hm : M.m = (h1 p).m) (hn : M.n = (h1 p).n) : frame h (some p) (writeAt h1 p M) := by
  obtain ⟨f1, f2⟩ := hf
  refine ⟨fun a ha => ?_, fun a => ?_⟩
  · have hap : a ≠ p := fun e => ha (by rw [e])
    rw [writeAt_other _ _ _ _ hap]
    exact f1 a ha
  · by_cases hap : a = p
    · subst hap
      rw [writeAt_same]
      exact ⟨hm.trans (f2 a).1, hn.trans (f2 a).2⟩
    · rw [writeAt_other _ _ _ _ hap]
      exact f2 a

/-- The row exchange of `LU` on the heap and on values: related states give
related outcomes, and the heap stays within the frame of `b`. -/
theorem LUswap_sim (h : Heap) (this : Nat) (b : Option Nat) (i : Nat) (s : LUVars)
    (hf : frame h b s.heap) :
    relExcept
      (fun (u : LUVars) (t : LUState) =>
        t = ⟨u.temp, u.L, u.U, b.map u.heap, u.detFactor⟩ ∧ frame h b u.heap)
      (fun (e1 : LinAlgException × Heap × Int) (e2 : LinAlgException × Option Matrix × Int) =>
        e2 = (e1.1, b.map e1.2.1, e1.2.2) ∧ frame h b e1.2.1)
      (LUswap this b i s)
      (Matrix.LUswap (h this).n i ⟨s.temp, s.L, s.U, b.map s.heap, s.detFactor⟩) := by
  have hn : (s.heap this).n = (h this).n := (hf.2 this).2
  unfold LUswap Matrix.LUswap
  rw [hn]
  by_cases hd : fabs (s.temp.matrix i i) < DBL_EPSILON
  · simp only [hd, if_true]
    cases ht : s.temp.swapRow i (Matrix.largestValue s.temp (h this).n i) with
    | error e => exact ⟨rfl, hf⟩
    | ok T =>
      cases b with
      | none => exact ⟨rfl, hf⟩
      | some p =>
        simp only [Option.map_some']
        cases hb : (s.heap p).swapRow i (Matrix.largestValue s.temp (h this).n i) with
        | error e => exact ⟨rfl, hf⟩
        | ok B =>
          obtain ⟨-, -, bm, bn, -⟩ := Matrix.swapRow_ok _ _ _ _ hb
          refine ⟨?_, frame_writeAt h s.heap p B hf bm bn⟩
          simp only [writeAt_same]
  · simp only [hd, if_false]
    exact ⟨rfl, hf⟩

/-- One iteration of the elimination loop of `LU` on the heap and on values. -/
theorem LUstep_sim (h : Heap) (this : Nat) (b : Option Nat) (i : Nat) (s : LUVars)
    (hf : frame h b s.heap) :
    relExcept
      (fun (u : LUVars) (t : LUState) =>
        t = ⟨u.temp, u.L, u.U, b.map u.heap, u.detFactor⟩ ∧ frame h b u.heap)
      (fun (e1 : LinAlgException × Heap × Int) (e2 : LinAlgException × Option Matrix × Int) =>
        e2 = (e1.1, b.map e1.2.1, e1.2.2) ∧ frame h b e1.2.1)
      (LUstep this b i s)
      (Matrix.LUstep (h this).m (h this).n i ⟨s.temp, s.L, s.U, b.map s.heap, s.detFactor⟩) := by
  have hsw := LUswap_sim h this b i s hf
  unfold LUstep Matrix.LUstep
  cases h1 : LUswap this b i s with
  | error e1 =>
    cases h2 : Matrix.LUswap (h this).n i ⟨s.temp, s.L, s.U, b.map s.heap, s.detFactor⟩ with
    | error e2 => rw [h1, h2] at hsw; exact hsw
    | ok t1 => rw [h1, h2] at hsw; exact hsw.elim
  | ok s1 =>
    cases h2 : Matrix.LUswap (h this).n i ⟨s.temp, s.L, s.U, b.map s.heap, s.detFactor⟩ with
    | error e2 => rw [h1, h2] at hsw; exact hsw.elim
    | ok t1 =>
      rw [h1, h2] at hsw
      obtain ⟨ht1, hf1⟩ := hsw
      subst ht1
      have hm1 : (s1.heap this).m = (h this).m := (hf1.2 this).1
      have hn1 : (s1.heap this).n = (h this).n := (hf1.2 this).2
      simp only [hm1, hn1]
      cases hp : s1.temp.pivot i i true with
      | error e => exact ⟨rfl, hf1⟩
      | ok T => exact ⟨rfl, hf1⟩

/-- The back substitution on the heap writes at `p` what the back substitution
on values computes from the object found there. -/
theorem backSubst_sim (this p : Nat) (U y : Matrix) (h : Heap) (hm : (h p).m = (h this).m) :
    backSubst this p U y h = writeAt h p (Matrix.backSubst (h this).m U y (h p)) := by
  have := forLoopDown_sim (h this).m
    (fun i (h1 : Heap) =>
      let c := forLoop (fun j c => c + U.matrix i j * (h1 p).matrix j 0)
        ((h1 this).m - (i + 1)) (i + 1) 0
      writeAt h1 p ((h1 p).set i 0 (y.matrix i 0 - c)))
    (fun i (b : Matrix) =>
      let c := forLoop (fun j c => c + U.matrix i j * b.matrix j 0)
        ((h this).m - (i + 1)) (i + 1) 0
      b.set i 0 (y.matrix i 0 - c))
    (fun h1 B => h1 = writeAt h p B ∧ B.m = (h this).m)
    (fun i h1 B _ hR => by
      obtain ⟨e, bm⟩ := hR
      subst e
      have hthis : (writeAt h p B this).m = (h this).m := by
        by_cases htp : this = p
        · subst htp; rw [writeAt_same]; exact bm
        · rw [writeAt_other _ _ _ _ htp]
      simp only [writeAt_same, hthis, writeAt_writeAt]
      exact ⟨trivial, bm⟩)
    (h this).m (wrapDec (h this).m) h (h p) ⟨(writeAt_self h p).symm, hm⟩
  exact this.1

/-- The elimination loop of `LU` on the heap and on values. -/
theorem LUloop_sim (h : Heap) (this : Nat) (b : Option Nat) (U : Matrix) :
    relExcept
      (fun (u : LUVars) (t : LUState) =>
        t = ⟨u.temp, u.L, u.U, b.map u.heap, u.detFactor⟩ ∧ frame h b u.heap)
      (fun (e1 : LinAlgException × Heap × Int) (e2 : LinAlgException × Option Matrix × Int) =>
        e2 = (e1.1, b.map e1.2.1, e1.2.2) ∧ frame h b e1.2.1)
      (forLoopE (LUstep this b) (h this).m 0
        ⟨h, h this, Matrix.zeros (h this).n (h this).n, U, 1⟩)
      (forLoopE (Matrix.LUstep (h this).m (h this).n) (h this).m 0
        ⟨h this, Matrix.zeros (h this).n (h this).n, U, b.map h, 1⟩) :=
  forLoopE_sim (LUstep this b) (Matrix.LUstep (h this).m (h this).n)
    (fun (u : LUVars) (t : LUState) =>
      t = ⟨u.temp, u.L, u.U, b.map u.heap, u.detFactor⟩ ∧ frame h b u.heap)
    (fun (e1 : LinAlgException × Heap × Int)
        (e2 : LinAlgException × Option Matrix × Int) =>
      e2 = (e1.1, b.map e1.2.1, e1.2.2) ∧ frame h b e1.2.1)
    (fun i s t hR => by
      obtain ⟨ht, hf⟩ := hR
      subst ht
      exact LUstep_sim h this b i s hf)
    (h this).m 0 ⟨h, h this, Matrix.zeros (h this).n (h this).n, U, 1⟩
    ⟨h this, Matrix.zeros (h this).n (h this).n, U, b.map h, 1⟩ ⟨rfl, frame_refl h b⟩

/-- Method `LU` on the heap and on values: the call on the receiver at
address `this` with the reference `b` returns or throws what the call on the
values does, leaves `detFactor` as that call does, leaves at the address `b`
what that call leaves in `b`, and stays within the frame of `b`. -/
theorem LU_heap (h : Heap) (this : Nat) (b : Option Nat) (d : Int) :
    (LU h this b d).result = ((h this).LU (b.map h) d).result ∧
    (LU h this b d).detFactor = ((h this).LU (b.map h) d).detFactor ∧
    ((h this).LU (b.map h) d).b = b.map (LU h this b d).heap ∧
    frame h b (LU h this b d).heap := by
  by_cases hsq : (h this).n = (h this).m
  · obtain ⟨U, hU, -⟩ := Matrix.LU_initial_U (h this).n
    have hsim := LUloop_sim h this b U
    cases b with
    | none =>
      unfold LU Matrix.LU
      rw [if_neg (not_not.mpr hsq), if_neg (not_not.mpr hsq)]
      simp only [Option.map_none', Bool.false_eq_true, if_false, hU]
      simp only [Option.map_none'] at hsim
      cases hH : forLoopE (LUstep this none) (h this).m 0
          ⟨h, h this, Matrix.zeros (h this).n (h this).n, U, 1⟩ with
      | error e1 =>
        cases hF : forLoopE (Matrix.LUstep (h this).m (h this).n) (h this).m 0
            ⟨h this, Matrix.zeros (h this).n (h this).n, U, none, 1⟩ with
        | ok t1 => rw [hH, hF] at hsim; exact hsim.elim
        | error e2 =>
          rw [hH, hF] at hsim
          obtain ⟨he, hf⟩ := hsim
          subst he
          exact ⟨rfl, rfl, rfl, hf⟩
      | ok s1 =>
        cases hF : forLoopE (Matrix.LUstep (h this).m (h this).n) (h this).m 0
            ⟨h this, Matrix.zeros (h this).n (h this).n, U, none, 1⟩ with
        | error e2 => rw [hH, hF] at hsim; exact hsim.elim
        | ok t1 =>
          rw [hH, hF] at hsim
          obtain ⟨ht, hf⟩ := hsim
          subst ht
          exact ⟨rfl, rfl, rfl, hf⟩
    | some p =>
      by_cases hchk : (h p).m ≠ (h this).m ∨ (h p).n ≠ 1
      · unfold LU Matrix.LU
        rw [if_neg (not_not.mpr hsq), if_neg (not_not.mpr hsq)]
        simp only [Option.map_some', hchk, decide_True, if_true]
        exact ⟨trivial, trivial, trivial, frame_refl h (some p)⟩
      · have hpm : (h p).m = (h this).m := by
          by_contra hne
          exact hchk (Or.inl hne)
        unfold LU Matrix.LU
        rw [if_neg (not_not.mpr hsq), if_neg (not_not.mpr hsq)]
        simp only [Option.map_some', hchk, decide_False, Bool.false_eq_true, if_false, hU]
        simp only [Option.map_some'] at hsim
        cases hH : forLoopE (LUstep this (some p)) (h this).m 0
            ⟨h, h this, Matrix.zeros (h this).n (h this).n, U, 1⟩ with
        | error e1 =>
          cases hF : forLoopE (Matrix.LUstep (h this).m (h this).n) (h this).m 0
              ⟨h this, Matrix.zeros (h this).n (h this).n, U, some (h p), 1⟩ with
          | ok t1 => rw [hH, hF] at hsim; exact hsim.elim
          | error e2 =>
            rw [hH, hF] at hsim
            obtain ⟨he, hf⟩ := hsim
            subst he
            exact ⟨rfl, rfl, rfl, hf⟩
        | ok s1 =>
          cases hF : forLoopE (Matrix.LUstep (h this).m (h this).n) (h this).m 0
              ⟨h this, Matrix.zeros (h this).n (h this).n, U, some (h p), 1⟩ with
          | error e2 => rw [hH, hF] at hsim; exact hsim.elim
          | ok t1 =>
            rw [hH, hF] at hsim
            obtain ⟨ht, hf⟩ := hsim
            subst ht
            have hm1 : (s1.heap this).m = (h this).m := (hf.2 this).1
            have hn1 : (s1.heap this).n = (h this).n := (hf.2 this).2
            have hp1 : (s1.heap p).m = (s1.heap this).m := by
              rw [(hf.2 p).1, hm1]; exact hpm
            simp only [hm1, hn1]
            cases hscan : Matrix.scanSingular s1.temp (h this).m (h this).n with
            | true =>
              simp only [Bool.not_true, Bool.false_eq_true, if_false]
              exact ⟨trivial, trivial, trivial, hf⟩
            | false =>
              simp only [Bool.not_false, if_true]
              have hbs := backSubst_sim this p s1.U
                (Matrix.forwardSubst (h this).m s1.L (s1.heap p) (Matrix.zeros (h this).n 1))
                s1.heap hp1
              rw [hm1] at hbs
              obtain ⟨sm, sn⟩ := Matrix.backSubst_shape (h this).m s1.U
                (Matrix.forwardSubst (h this).m s1.L (s1.heap p) (Matrix.zeros (h this).n 1))
                (s1.heap p)
              refine ⟨trivial, trivial, ?_, ?_⟩
              · rw [hbs, writeAt_same]
              · rw [hbs]
                exact frame_writeAt h s1.heap p _ hf sm sn
  · unfold LU Matrix.LU
    rw [if_pos hsq, if_pos hsq]
    exact ⟨rfl, rfl, rfl, frame_refl h b⟩

/-- A heap within the frame of no address is the heap it started from. -/
theorem frame_none (h h1 : Heap) (hf : frame h none h1) : h1 = h := by
  funext a
  exact hf.1 a (fun e => by cases e)

/-- Method `det` on the heap and on values: same result, same `detFactor`,
and the heap is left as it was. -/
theorem det_heap (h : Heap) (this : Nat) (d : Int) :
    (det h this d).result = ((h this).det d).1 ∧
    (det h this d).detFactor = ((h this).det d).2 ∧
    (det h this d).heap = h := by
  obtain ⟨r1, r2, -, r4⟩ := LU_heap h this none d
  have hh : (LU h this none d).heap = h := frame_none h _ r4
  simp only [Option.map_none'] at r1 r2
  by_cases hsq : (h this).n = (h this).m
  · unfold det Matrix.det
    rw [if_neg (not_not.mpr hsq), if_neg (not_not.mpr hsq)]
    simp only [r1, r2, hh]
    cases hr : ((h this).LU none d).result with
    | error e => exact ⟨rfl, rfl, rfl⟩
    | ok r =>
      simp only
      cases hscan : Matrix.scanSingular r.A (h this).m (h this).n with
      | true => exact ⟨rfl, rfl, rfl⟩
      | false => exact ⟨rfl, rfl, rfl⟩
  · unfold det Matrix.det
    rw [if_pos hsq, if_pos hsq]
    exact ⟨rfl, rfl, rfl⟩

/-- One iteration of the elimination loop of `inverse` on the heap and on
values: same outcome, and the heap is left as it was. -/
theorem inverseStep_sim (h : Heap) (this i : Nat) (s : InvVars) (hs : s.heap = h) :
    relExcept
      (fun (u : InvVars) (t : InvState) => t = ⟨u.temp, u.inv⟩ ∧ u.heap = h)
      (fun (e1 : LinAlgException × Heap) (e2 : LinAlgException) => e2 = e1.1 ∧ e1.2 = h)
      (inverseStep this i s)
      (Matrix.inverseStep (h this).m (h this).n i ⟨s.temp, s.inv⟩) := by
  have tail : ∀ s1 : InvVars, s1.heap = h →
      relExcept
        (fun (u : InvVars) (t : InvState) => t = ⟨u.temp, u.inv⟩ ∧ u.heap = h)
        (fun (e1 : LinAlgException × Heap) (e2 : LinAlgException) => e2 = e1.1 ∧ e1.2 = h)
        (if fabs (s1.temp.matrix i i) < DBL_EPSILON then
          (Except.error (⟨"Divide by zero"⟩, s1.heap) :
            Except (LinAlgException × Heap) InvVars)
        else
          Except.ok
            (forLoop (fun j (s : InvVars) =>
              if (j != i) && decide (fabs (s.temp.matrix j i) > DBL_EPSILON) then
                forLoop (fun k (s2 : InvVars) =>
                  { s2 with
                    temp := s2.temp.set j k
                      (s2.temp.matrix j k - s.temp.matrix j i * s2.temp.matrix i k),
                    inv := s2.inv.set j k
                      (s2.inv.matrix j k - s.temp.matrix j i * s2.inv.matrix i k) })
                  (s.heap this).n 0 s
              else s)
              ((forLoop (fun j (s : InvVars) =>
                { s with temp := s.temp.set i j (s.temp.matrix i j / s1.temp.matrix i i),
                         inv := s.inv.set i j (s.inv.matrix i j / s1.temp.matrix i i) })
                (s1.heap this).n 0 s1).heap this).m 0
              (forLoop (fun j (s : InvVars) =>
                { s with temp := s.temp.set i j (s.temp.matrix i j / s1.temp.matrix i i),
                         inv := s.inv.set i j (s.inv.matrix i j / s1.temp.matrix i i) })
                (s1.heap this).n 0 s1)))
        (if fabs (s1.temp.matrix i i) < DBL_EPSILON then
          (Except.error ⟨"Divide by zero"⟩ : Except LinAlgException InvState)
        else
          Except.ok
            (forLoop (fun j (s : InvState) =>
              if (j != i) && decide (fabs (s.temp.matrix j i) > DBL_EPSILON) then
                forLoop (fun k (s2 : InvState) =>
                  InvState.mk
                    (s2.temp.set j k (s2.temp.matrix j k - s.temp.matrix j i * s2.temp.matrix i k))
                    (s2.inv.set j k (s2.inv.matrix j k - s.temp.matrix j i * s2.inv.matrix i k)))
                  (h this).n 0 s
              else s)
              (h this).m 0
              (forLoop (fun j (s : InvState) =>
                InvState.mk (s.temp.set i j (s.temp.matrix i j / s1.temp.matrix i i))
                  (s.inv.set i j (s.inv.matrix i j / s1.temp.matrix i i)))
                (h this).n 0 ⟨s1.temp, s1.inv⟩))) := by
    intro s1 hs1
    by_cases hp : fabs (s1.temp.matrix i i) < DBL_EPSILON
    · rw [if_pos hp, if_pos hp]
      exact ⟨rfl, hs1⟩
    · rw [if_neg hp, if_neg hp]
      have hnorm := forLoop_sim
        (fun j (s : InvVars) =>
          { s with temp := s.temp.set i j (s.temp.matrix i j / s1.temp.matrix i i),
                   inv := s.inv.set i j (s.inv.matrix i j / s1.temp.matrix i i) })
        (fun j (s : InvState) =>
          InvState.mk (s.temp.set i j (s.temp.matrix i j / s1.temp.matrix i i))
            (s.inv.set i j (s.inv.matrix i j / s1.temp.matrix i i)))
        (fun (u : InvVars) (t : InvState) => t = ⟨u.temp, u.inv⟩ ∧ u.heap = h)
        (fun j u t hR => by
          obtain ⟨ht, hu⟩ := hR
          subst ht
          exact ⟨rfl, hu⟩)
        (h this).n 0 s1 ⟨s1.temp, s1.inv⟩ ⟨rfl, hs1⟩
      have helim := forLoop_sim
        (fun j (s : InvVars) =>
          if (j != i) && decide (fabs (s.temp.matrix j i) > DBL_EPSILON) then
            forLoop (fun k (s2 : InvVars) =>
              { s2 with
                temp := s2.temp.set j k
                  (s2.temp.matrix j k - s.temp.matrix j i * s2.temp.matrix i k),
                inv := s2.inv.set j k
                  (s2.inv.matrix j k - s.temp.matrix j i * s2.inv.matrix i k) })
              (s.heap this).n 0 s
          else s)
        (fun j (s : InvState) =>
          if (j != i) && decide (fabs (s.temp.matrix j i) > DBL_EPSILON) then
            forLoop (fun k (s2 : InvState) =>
              InvState.mk
                (s2.temp.set j k (s2.temp.matrix j k - s.temp.matrix j i * s2.temp.matrix i k))
                (s2.inv.set j k (s2.inv.matrix j k - s.temp.matrix j i * s2.inv.matrix i k)))
              (h this).n 0 s
          else s)
        (fun (u : InvVars) (t : InvState) => t = ⟨u.temp, u.inv⟩ ∧ u.heap = h)
        (fun j u t hR => by
          obtain ⟨ht, hu⟩ := hR
          subst ht
          by_cases hc : ((j != i) && decide (fabs (u.temp.matrix j i) > DBL_EPSILON)) = true
          · simp only [hc, if_true, hu]
            exact forLoop_sim _ _
              (fun (u : InvVars) (t : InvState) => t = ⟨u.temp, u.inv⟩ ∧ u.heap = h)
              (fun k u2 t2 hR2 => by
                obtain ⟨ht2, hu2⟩ := hR2
                subst ht2
                exact ⟨rfl, hu2⟩)
              (h this).n 0 u ⟨u.temp, u.inv⟩ ⟨rfl, hu⟩
          · simp only [hc, if_false]
            exact ⟨rfl, hu⟩)
        (h this).m 0 _ _ hnorm
      rw [hs1, hnorm.2]
      exact helim
  unfold inverseStep Matrix.inverseStep
  by_cases hd : fabs (s.temp.matrix i i) < DBL_EPSILON
  · simp only [hd, if_true, hs]
    cases ht : s.temp.swapRow i (Matrix.largestValue s.temp (h this).n i) with
    | error e => exact ⟨rfl, rfl⟩
    | ok T =>
      cases hv : s.inv.swapRow i (Matrix.largestValue s.temp (h this).n i) with
      | error e => exact ⟨rfl, rfl⟩
      | ok V =>
        have := tail ⟨s.heap, T, V⟩ hs
        simp only [hs] at this
        exact this
  · simp only [hd, if_false]
    have := tail s hs
    simp only [hd, if_false] at this
    exact this

/-- Method `inverse` on the heap and on values: same result, and the heap is
left as it was, whether the call returns or throws. -/
theorem inverse_heap (h : Heap) (this : Nat) :
    (inverse h this).1 = (h this).inverse ∧ (inverse h this).2 = h := by
  by_cases hsq : (h this).n = (h this).m
  · obtain ⟨I, hI, -⟩ := Matrix.LU_initial_U (h this).n
    have hsim := forLoopE_sim (inverseStep this) (Matrix.inverseStep (h this).m (h this).n)
      (fun (u : InvVars) (t : InvState) => t = ⟨u.temp, u.inv⟩ ∧ u.heap = h)
      (fun (e1 : LinAlgException × Heap) (e2 : LinAlgException) => e2 = e1.1 ∧ e1.2 = h)
      (fun i s t hR => by
        obtain ⟨ht, hs⟩ := hR
        subst ht
        exact inverseStep_sim h this i s hs)
      (h this).m 0 ⟨h, h this, I⟩ ⟨h this, I⟩ ⟨rfl, rfl⟩
    unfold inverse Matrix.inverse Matrix.inverseLoop
    rw [if_neg (not_not.mpr hsq), if_neg (not_not.mpr hsq)]
    simp only [hI]
    cases hH : forLoopE (inverseStep this) (h this).m 0 ⟨h, h this, I⟩ with
    | error e1 =>
      cases hF : forLoopE (Matrix.inverseStep (h this).m (h this).n) (h this).m 0
          ⟨h this, I⟩ with
      | ok t1 => rw [hH, hF] at hsim; exact hsim.elim
      | error e2 =>
        rw [hH, hF] at hsim
        obtain ⟨he, hf⟩ := hsim
        subst he
        exact ⟨rfl, hf⟩
    | ok s1 =>
      cases hF : forLoopE (Matrix.inverseStep (h this).m (h this).n) (h this).m 0
          ⟨h this, I⟩ with
      | error e2 => rw [hH, hF] at hsim; exact hsim.elim
      | ok t1 =>
        rw [hH, hF] at hsim
        obtain ⟨ht, hf⟩ := hsim
        subst ht
        simp only [hf]
        cases hscan : Matrix.scanSingular s1.temp (h this).m (h this).n with
        | true => exact ⟨rfl, rfl⟩
        | false => exact ⟨rfl, rfl⟩
  · unfold inverse Matrix.inverse
    rw [if_pos hsq, if_pos hsq]
    exact ⟨rfl, rfl⟩

end Heap

/-! # The claims -/

open Matrix

/-- Claim C1, checked at the failing input: `A = [[1,1,0],[1,1,1],[0,1,1]]` is
invertible (determinant `-1`), `inverse()` returns `[[0,1,-1],[1,0,0],[-1,0,1]]`,
and `A * A.inverse()` is `[[1,1,-1],[0,1,0],[0,0,1]]`, not the identity. -/
theorem C1_inverse_wrong_on_invertible :
    leibnizDet ((ofArray [[1, 1, 0], [1, 1, 1], [0, 1, 1]] 3 3).toSquare 3) = -1 ∧
    (ofArray [[1, 1, 0], [1, 1, 1], [0, 1, 1]] 3 3).inverse.map rows =
      Except.ok [[0, 1, -1], [1, 0, 0], [-1, 0, 1]] ∧
    ((ofArray [[1, 1, 0], [1, 1, 1], [0, 1, 1]] 3 3).inverse.bind
        (ofArray [[1, 1, 0], [1, 1, 1], [0, 1, 1]] 3 3).mul).map rows =
      Except.ok [[1, 1, -1], [0, 1, 0], [0, 0, 1]] := by
  refine ⟨?_, by decide!, by decide!⟩
  simp [leibnizDet, Matrix.det_fin_three, toSquare, ofArray]

/-- Claim C2, checked at the failing input: on `A = [[1,1,2],[0,0,1],[1,0,0]]`,
whose determinant is `1`, `det()` returns `2`, whatever `detFactor` held. -/
theorem C2_det_wrong_value (d : Int) :
    leibnizDet ((ofArray [[1, 1, 2], [0, 0, 1], [1, 0, 0]] 3 3).toSquare 3) = 1 ∧
    ((ofArray [[1, 1, 2], [0, 0, 1], [1, 0, 0]] 3 3).det d).1 = Except.ok 2 := by
  refine ⟨?_, ?_⟩
  · simp [leibnizDet, Matrix.det_fin_three, toSquare, ofArray]
  · rw [det_detFactor _ d 0]; decide!

/-- Claim C3, checked at the failing input: for `A = [[1,0,0],[1,0,1],[2,1,0]]`
and `b = [1,2,3]`, `A.LU(b)` returns with `solved` and `exists` both true and
leaves `b = [1,2,0]`, for which `A·b = [1,1,4]`, not `[1,2,3]`.  The scenario
of the spec does hold: for `A = [[2,1],[1,1]]`, `b = [3,2]` the call leaves
`b = [1,1]`. -/
theorem C3_LU_solve_wrong (d : Int) :
    (((ofArray [[1, 0, 0], [1, 0, 1], [2, 1, 0]] 3 3).LU
        (some (ofArray [[1], [2], [3]] 3 1)) d).result.map
      (fun r => (r.solved, r.exists)) = Except.ok (true, true) ∧
    ((ofArray [[1, 0, 0], [1, 0, 1], [2, 1, 0]] 3 3).LU
        (some (ofArray [[1], [2], [3]] 3 1)) d).b.map rows = some [[1], [2], [0]] ∧
    ((ofArray [[1, 0, 0], [1, 0, 1], [2, 1, 0]] 3 3).LU
        (some (ofArray [[1], [2], [3]] 3 1)) d).b.map
      (fun x => ((ofArray [[1, 0, 0], [1, 0, 1], [2, 1, 0]] 3 3).mul x).map rows) =
      some (Except.ok [[1], [1], [4]])) ∧
    (((ofArray [[2, 1], [1, 1]] 2 2).LU (some (ofArray [[3], [2]] 2 1)) d).result.map
      (fun r => (r.solved, r.exists)) = Except.ok (true, true) ∧
    ((ofArray [[2, 1], [1, 1]] 2 2).LU (some (ofArray [[3], [2]] 2 1)) d).b.map rows =
      some [[1], [1]]) := by
  rw [LU_detFactor _ _ d 0 rfl (fun b0 hb => by cases hb; exact ⟨rfl, rfl⟩),
    LU_detFactor (ofArray [[2, 1], [1, 1]] 2 2) _ d 0 rfl
      (fun b0 hb => by cases hb; exact ⟨rfl, rfl⟩)]
  decide!

/-- Claim C4, checked at the failing input: for `A = [[1,0,0],[1,0,1],[2,1,0]]`
`LU()` returns `L = [[1,0,0],[1,1,0],[2,0,1]]` and `U` the identity; the second
row `[1,1,0]` of `L·U` is no row of `A`, so `P·A = L·U` for no row permutation `P`. -/
theorem C4_LU_not_a_factorisation (d : Int) :
    ∃ r P, ((ofArray [[1, 0, 0], [1, 0, 1], [2, 1, 0]] 3 3).LU none d).result = Except.ok r ∧
      r.L.mul r.U = Except.ok P ∧
      r.L.rows = [[1, 0, 0], [1, 1, 0], [2, 0, 1]] ∧
      r.U.rows = [[1, 0, 0], [0, 1, 0], [0, 0, 1]] ∧
      P.rows = [[1, 0, 0], [1, 1, 0], [2, 0, 1]] ∧
      ¬ ∃ σ : Equiv.Perm (Fin 3), ∀ i j : Fin 3,
        (ofArray [[1, 0, 0], [1, 0, 1], [2, 1, 0]] 3 3).matrix (σ i) j = P.matrix i j := by
  rw [LU_detFactor _ _ d 0 rfl (fun b0 hb => by cases hb)]
  have key : (((ofArray [[1, 0, 0], [1, 0, 1], [2, 1, 0]] 3 3).LU none 0).result.bind fun r =>
      (r.L.mul r.U).map fun P => (r.L.rows, r.U.rows, P.rows, P.matrix 1 0, P.matrix 1 1)) =
      Except.ok ([[1, 0, 0], [1, 1, 0], [2, 0, 1]], [[1, 0, 0], [0, 1, 0], [0, 0, 1]],
        [[1, 0, 0], [1, 1, 0], [2, 0, 1]], 1, 1) := by decide!
  have hrows : ∀ q : Fin 3, ¬ ((ofArray [[1, 0, 0], [1, 0, 1], [2, 1, 0]] 3 3).matrix q 0 = 1 ∧
      (ofArray [[1, 0, 0], [1, 0, 1], [2, 1, 0]] 3 3).matrix q 1 = 1) := by decide!
  cases hr : ((ofArray [[1, 0, 0], [1, 0, 1], [2, 1, 0]] 3 3).LU none 0).result with
  | error e => rw [hr] at key; cases key
  | ok r =>
    rw [hr] at key
    cases hP : r.L.mul r.U with
    | error e => simp only [Except.bind, hP, Except.map] at key; cases key
    | ok P =>
      simp only [Except.bind, hP, Except.map, Except.ok.injEq, Prod.mk.injEq] at key
      obtain ⟨k1, k2, k3, k4, k5⟩ := key
      refine ⟨r, P, rfl, hP, k1, k2, k3, ?_⟩
      rintro ⟨σ, hσ⟩
      have h0 := hσ 1 0
      have h1 := hσ 1 1
      simp only [Fin.val_zero, Fin.val_one] at h0 h1
      rw [k4] at h0
      rw [k5] at h1
      exact hrows (σ 1) ⟨h0, h1⟩

/-- Claim C5, checked at the failing input: on the all-zero `2 × 2` matrix,
which has a row of zeros, `det()` does not return `0.0` but throws
"Divide by zero" (from `pivot` inside `LU`), whatever `detFactor` held. -/
theorem C5_det_zero_row_throws (d : Int) :
    (zeros 2 2).rows = [[0, 0], [0, 0]] ∧
    ((zeros 2 2).det d).1 = Except.error ⟨"Divide by zero"⟩ := by
  refine ⟨by decide!, ?_⟩
  rw [det_detFactor (zeros 2 2) d 0]
  decide!

/-- Claim C6, checked at the failing input: the `4 × 4` matrix
`A = [[0,0,0,1],[0,0,0,1],[1,1,1,0],[0,0,1,1]]` has two equal rows, so its
determinant is `0`, and `inverse()` does not fail on it but returns
`[[0,1,1,-1],[1,0,1,-1],[0,0,1,0],[0,0,-1,1]]`, its elimination loop ending
with `temp = [[1,1,0,0],[1,1,0,0],[1,1,1,0],[-1,-1,0,1]]`, where the final scan
finds no row of zeros.  Nor is "Singular matrix" the
kind of every failure on a singular matrix: on the all-zero `n × n` matrix,
`n ≥ 1`, `inverse()` throws "Divide by zero". -/
theorem C6_inverse_accepts_singular (k : Nat) :
    leibnizDet ((ofArray [[0, 0, 0, 1], [0, 0, 0, 1], [1, 1, 1, 0], [0, 0, 1, 1]] 4 4).toSquare 4)
      = 0 ∧
    (ofArray [[0, 0, 0, 1], [0, 0, 0, 1], [1, 1, 1, 0], [0, 0, 1, 1]] 4 4).inverse.map rows =
      Except.ok [[0, 1, 1, -1], [1, 0, 1, -1], [0, 0, 1, 0], [0, 0, -1, 1]] ∧
    (inverseLoop (ofArray [[0, 0, 0, 1], [0, 0, 0, 1], [1, 1, 1, 0], [0, 0, 1, 1]] 4 4)).map
        (fun s => s.temp.rows) =
      Except.ok [[1, 1, 0, 0], [1, 1, 0, 0], [1, 1, 1, 0], [-1, -1, 0, 1]] ∧
    (zeros (k + 1) (k + 1)).inverse.map rows = Except.error ⟨"Divide by zero"⟩ := by
  refine ⟨?_, by decide!, by decide!, ?_⟩
  · refine Matrix.det_zero_of_row_eq (show (0 : Fin 4) ≠ 1 by decide) ?_
    funext j
    fin_cases j <;> simp [toSquare, ofArray]
  · obtain ⟨inv, hinv, im, -, -⟩ := identity_closed (zeros (k + 1) (k + 1)) rfl
    have hloop : inverseLoop (zeros (k + 1) (k + 1)) = Except.error ⟨"Divide by zero"⟩ := by
      have hz : (zeros (k + 1) (k + 1)).n = k + 1 := rfl
      have hz1 : (zeros (k + 1) (k + 1)).m = k + 1 := rfl
      simp only [inverseLoop, hz, hz1, hinv, forLoopE, inverseStep_zeros k inv im]
    have hsq : ¬ (zeros (k + 1) (k + 1)).n ≠ (zeros (k + 1) (k + 1)).m := not_not.mpr rfl
    unfold inverse
    rw [if_neg hsq, hloop]
    rfl

/-- Claim C7: for every `n`, on any `n × n` matrix turned into the identity by
`identity()`, `det()` returns exactly `1`, whatever `detFactor` held before. -/
theorem C7_det_identity (n : Nat) (entries : Nat → Nat → ℚ) (d : Int) :
    ∃ I, (Matrix.mk n n entries).identity = Except.ok I ∧ (I.det d).1 = Except.ok 1 := by
  obtain ⟨I, hI, im, iN, ic⟩ := identity_closed (Matrix.mk n n entries) rfl
  refine ⟨I, hI, det_identity n I ⟨im, iN, fun i j hi hj => ?_⟩ d⟩
  rw [ic i j]
  have : i < (Matrix.mk n n entries).m ∧ j < (Matrix.mk n n entries).n := ⟨hi, hj⟩
  rw [if_pos this]

/-- Claim C8: `det()` of `[[4,3],[6,3]]` returns `-6`, whatever `detFactor` held before. -/
theorem C8_det_example (d : Int) :
    ((ofArray [[4, 3], [6, 3]] 2 2).det d).1 = Except.ok (-6) := by
  rw [det_detFactor _ d 0]
  decide!

/-- Claim C9: `inverse()` of `[[4,3],[6,3]]` returns `[[-1/2, 1/2], [1, -2/3]]`
exactly, hence within epsilon of the values the spec prints. -/
theorem C9_inverse_example :
    (ofArray [[4, 3], [6, 3]] 2 2).inverse.map rows =
      Except.ok [[-1 / 2, 1 / 2], [1, -2 / 3]] := by
  decide!

/-- Claim C10: `A * B` throws "Incompatible Dimensions" exactly when the column
count of `A` differs from the row count of `B` (as for `Matrix(2,3) * Matrix(2,3)`);
otherwise it returns the matrix with the rows of `A`, the columns of `B` and
the entries `Σ_{t < k} A[i][t] · B[t][j]`.  The operands are values the
function only reads. -/
theorem C10_mul (A B : Matrix) :
    (if A.n ≠ B.m then A.mul B = Except.error ⟨"Incompatible Dimensions"⟩
     else ∃ R, A.mul B = Except.ok R ∧ R.m = A.m ∧ R.n = B.n ∧
      ∀ i j, R.matrix i j =
        if i < A.m ∧ j < B.n then ∑ t in Finset.range A.n, A.matrix i t * B.matrix t j
        else 0) ∧
    (zeros 2 3).mul (zeros 2 3) = Except.error ⟨"Incompatible Dimensions"⟩ := by
  refine ⟨?_, rfl⟩
  by_cases h : A.n = B.m
  · rw [if_neg (not_not.mpr h)]
    exact mul_closed A B h
  · rw [if_pos h]
    unfold mul
    rw [if_pos h]

/-- Claim C11: for every `m × n` matrix `A`, `n × p` matrix `B` and `p × q`
matrix `C`, neither `(A*B)*C` nor `A*(B*C)` fails and the two results are the
same matrix: same extents and every entry equal, in exact arithmetic. -/
theorem C11_mul_assoc (m n p q : Nat) (a b c : Nat → Nat → ℚ) :
    ∃ AB BC L R, (Matrix.mk m n a).mul (Matrix.mk n p b) = Except.ok AB ∧
      AB.mul (Matrix.mk p q c) = Except.ok L ∧
      (Matrix.mk n p b).mul (Matrix.mk p q c) = Except.ok BC ∧
      (Matrix.mk m n a).mul BC = Except.ok R ∧
      L.m = m ∧ L.n = q ∧ L = R := by
  obtain ⟨AB, hAB, abm, abn, abc⟩ := mul_closed (Matrix.mk m n a) (Matrix.mk n p b) rfl
  obtain ⟨BC, hBC, bcm, bcn, bcc⟩ := mul_closed (Matrix.mk n p b) (Matrix.mk p q c) rfl
  obtain ⟨L, hL, lm, ln, lc⟩ := mul_closed AB (Matrix.mk p q c) abn
  obtain ⟨R, hR, rm, rn, rc⟩ := mul_closed (Matrix.mk m n a) BC bcm.symm
  simp only at abm abn abc bcm bcn bcc lm ln lc rm rn rc
  refine ⟨AB, BC, L, R, hAB, hL, hBC, hR, lm.trans abm, ln, ?_⟩
  apply ext_of L R (by rw [lm, rm, abm]) (by rw [ln, rn, bcn])
  intro i j
  rw [lc i j, rc i j, abm, abn, bcn]
  by_cases hij : i < m ∧ j < q
  · rw [if_pos hij, if_pos hij]
    have h1 : ∀ t ∈ Finset.range p, AB.matrix i t * c t j =
        ∑ s in Finset.range n, a i s * b s t * c t j := by
      intro t ht
      rw [abc i t, if_pos ⟨hij.1, Finset.mem_range.mp ht⟩, Finset.sum_mul]
    have h2 : ∀ s ∈ Finset.range n, a i s * BC.matrix s j =
        ∑ t in Finset.range p, a i s * b s t * c t j := by
      intro s hs
      rw [bcc s j, if_pos ⟨Finset.mem_range.mp hs, hij.2⟩, Finset.mul_sum]
      exact Finset.sum_congr rfl (fun t _ => by ring)
    rw [Finset.sum_congr rfl h1, Finset.sum_congr rfl h2, Finset.sum_comm]
  · rw [if_neg hij, if_neg hij]

/-- Claim C12: for every array `v` whose length is a perfect square `k * k`
(16 for `k = 4`), on which `sqrt` is exact, the column-major constructor and
`load` build the same `k × k` matrix, and `values(true)` of it is an array
with `values[idx] = v[idx]` for every `idx < k * k`. -/
theorem C12_roundtrip (sqrt : Nat → ℚ) (k : Nat) (v : Nat → ℚ) (self : Matrix)
    (hsqrt : sqrt (k * k) = k) :
    ∃ M, ofValues sqrt v (k * k) true = Except.ok M ∧
      self.load sqrt v (k * k) true = Except.ok M ∧ M.m = k ∧ M.n = k ∧
      ∀ idx, M.values true idx = if idx < k * k then v idx else 0 := by
  obtain ⟨M, hM, mm, mn, mc⟩ := loadValues_closed sqrt v k true hsqrt
  refine ⟨M, hM, hM, mm, mn, fun idx => ?_⟩
  rw [values_colOrder M idx, mm, mn]
  by_cases h : idx < k * k
  · rw [if_pos h, if_pos h, mc]
    have hk : 0 < k := by
      rcases Nat.eq_zero_or_pos k with h0 | h0
      · subst h0; simp at h
      · exact h0
    have h1 : idx % k < k := Nat.mod_lt _ hk
    have h2 : idx / k < k := Nat.div_lt_of_lt_mul h
    rw [if_pos ⟨h1, h2⟩]
    simp only [if_true]
    rw [Nat.div_add_mod]
  · rw [if_neg h, if_neg h]

/-- Claim C12 at a concrete input: the array `0, 1, …, 15` with `sqrt 16 = 4`. -/
theorem C12_roundtrip_witness :
    (fun a : Nat => if a = 16 then (4 : ℚ) else 0) (4 * 4) = ((4 : Nat) : ℚ) ∧
    ∃ M, ofValues (fun a => if a = 16 then 4 else 0) (fun i => (i : ℚ)) (4 * 4) true =
        Except.ok M ∧
      (zeros 0 0).load (fun a => if a = 16 then 4 else 0) (fun i => (i : ℚ)) (4 * 4) true =
        Except.ok M ∧ M.m = 4 ∧ M.n = 4 ∧
      ∀ idx, M.values true idx = if idx < 4 * 4 then (fun i : Nat => (i : ℚ)) idx else 0 :=
  ⟨by norm_num, C12_roundtrip _ 4 _ _ (by norm_num)⟩

/-- Claim C13, checked at the failing input: for `u = (1)` of dimension 1 and
`v = (1, 2)` of dimension 2, `u == v` returns true although the dimensions differ. -/
theorem C13_eq_ignores_dimension :
    (Vector.ofArray [1] 1).n ≠ (Vector.ofArray [1, 2] 2).n ∧
    (Vector.ofArray [1] 1).toList = [1] ∧ (Vector.ofArray [1, 2] 2).toList = [1, 2] ∧
    (Vector.ofArray [1] 1).eq (Vector.ofArray [1, 2] 2) = true := by
  decide!

/-- Claim C16: `u % v` throws "Cross product is only defined in 3 space"
exactly when `u` or `v` is not of dimension 3; otherwise it returns the
3-vector `(u1·v2 − u2·v1, u2·v0 − u0·v2, u0·v1 − u1·v0)`, and
`(1,0,0) % (0,1,0) = (0,0,1)`.  The operands are values the function only reads. -/
theorem C16_cross (u v : Vector) :
    (if u.n ≠ 3 ∨ v.n ≠ 3 then
      u.cross v = Except.error ⟨"Cross product is only defined in 3 space"⟩
    else
      ∃ w, u.cross v = Except.ok w ∧ w.n = 3 ∧
        w.vector 0 = u.vector 1 * v.vector 2 - u.vector 2 * v.vector 1 ∧
        w.vector 1 = u.vector 2 * v.vector 0 - u.vector 0 * v.vector 2 ∧
        w.vector 2 = u.vector 0 * v.vector 1 - u.vector 1 * v.vector 0) ∧
    ((Vector.ofArray [1, 0, 0] 3).cross (Vector.ofArray [0, 1, 0] 3)).map Vector.toList =
      Except.ok [0, 0, 1] := by
  refine ⟨?_, by decide!⟩
  by_cases h : u.n ≠ 3 ∨ v.n ≠ 3
  · rw [if_pos h]
    unfold Vector.cross
    rw [if_pos h]
  · rw [if_neg h]
    refine ⟨_, by unfold Vector.cross; rw [if_neg h], rfl, ?_, ?_, ?_⟩ <;>
      simp [Vector.vec_set_vector, Vector.zeros]

/-- Claim C17: for all 3-vectors `u` and `v`, `u % v` and `v % u` both return
and every component of `u % v` is the negation of that component of `v % u`. -/
theorem C17_cross_anticommutative (a b : Nat → ℚ) :
    ∃ w z, (Vector.mk 3 a).cross (Vector.mk 3 b) = Except.ok w ∧
      (Vector.mk 3 b).cross (Vector.mk 3 a) = Except.ok z ∧
      w.n = 3 ∧ z.n = 3 ∧ ∀ i, w.vector i = -z.vector i := by
  refine ⟨_, _, rfl, rfl, rfl, rfl, fun i => ?_⟩
  simp only [Vector.vec_set_vector, Vector.zeros]
  by_cases h2 : i = 2
  · simp only [h2, if_true]; ring
  · by_cases h1 : i = 1
    · simp only [h1, if_true]; norm_num; ring
    · by_cases h0 : i = 0
      · simp only [h0, if_true]; norm_num; ring
      · simp [h0, h1, h2]

/-- Claim C18: `pivot(a, b, rowReduce)` throws "Dimensions out of bounds" when
`a ≥ m` or `b ≥ n`, throws "Divide by zero" when the indices are in range and
`|M[a][b]| < epsilon`, in both cases with the receiver as it was, and succeeds
in every other case. -/
theorem C18_pivot_failures (M : Matrix) (a b : Nat) (rowReduce : Bool) :
    if a ≥ M.m ∨ b ≥ M.n then
      M.pivot a b rowReduce = Except.error ⟨"Dimensions out of bounds"⟩ ∧
      M.after (M.pivot a b rowReduce) = M
    else if fabs (M.matrix a b) < DBL_EPSILON then
      M.pivot a b rowReduce = Except.error ⟨"Divide by zero"⟩ ∧
      M.after (M.pivot a b rowReduce) = M
    else
      ∃ R, M.pivot a b rowReduce = Except.ok R ∧ M.after (M.pivot a b rowReduce) = R := by
  by_cases h : a ≥ M.m ∨ b ≥ M.n
  · have e : M.pivot a b rowReduce = Except.error ⟨"Dimensions out of bounds"⟩ := by
      unfold pivot; rw [if_pos h]
    rw [if_pos h, e]
    exact ⟨rfl, rfl⟩
  · rw [if_neg h]
    by_cases hp : fabs (M.matrix a b) < DBL_EPSILON
    · have e : M.pivot a b rowReduce = Except.error ⟨"Divide by zero"⟩ := by
        unfold pivot; rw [if_neg h]; simp only [hp, if_true]
      rw [if_pos hp, e]
      exact ⟨rfl, rfl⟩
    · rw [if_neg hp]
      obtain ⟨R, hR, -⟩ := pivot_closed M a b rowReduce (by omega) (by omega) hp
      exact ⟨R, hR, by rw [hR]; rfl⟩

/-- Claim C19 as stated fails: on `[[1, 0], [DBL_EPSILON/2, 1]]` the call
`pivot(0, 0, true)` succeeds and leaves the nonzero entry `DBL_EPSILON/2` in
column 0 of row 1. -/
theorem C19_small_entry_not_eliminated :
    DBL_EPSILON / 2 ≠ 0 ∧
    ((ofArray [[1, 0], [DBL_EPSILON / 2, 1]] 2 2).pivot 0 0 true).map rows =
      Except.ok [[1, 0], [DBL_EPSILON / 2, 1]] := by
  decide!

/-- Claim C19, amended: after a successful `pivot(row, col, rowReduce)`, row
`row` is the old row divided entrywise by the old `M[row][col]`, so that the
new `M[row][col]` is `1`; with `rowReduce` the entry in column `col` of every
other row is `0` if its old magnitude exceeded epsilon and is the old entry
otherwise; without `rowReduce` no entry outside row `row` has changed. -/
theorem C19_pivot_effect (M : Matrix) (a b : Nat) (rowReduce : Bool)
    (ha : a < M.m) (hb : b < M.n) (hp : ¬ fabs (M.matrix a b) < DBL_EPSILON) :
    ∃ R, M.pivot a b rowReduce = Except.ok R ∧ R.m = M.m ∧ R.n = M.n ∧
      (∀ y, y < M.n → R.matrix a y = M.matrix a y / M.matrix a b) ∧
      R.matrix a b = 1 ∧
      (rowReduce = true → ∀ x, x < M.m → x ≠ a →
        R.matrix x b = if fabs (M.matrix x b) > DBL_EPSILON then 0 else M.matrix x b) ∧
      (rowReduce = false → ∀ x y, x ≠ a → R.matrix x y = M.matrix x y) := by
  have hp0 : M.matrix a b ≠ 0 := ne_zero_of_not_fabs_lt _ hp
  obtain ⟨R, hR, rm, rn, rc⟩ := pivot_closed M a b rowReduce ha hb hp
  refine ⟨R, hR, rm, rn, ?_, ?_, ?_, ?_⟩
  · intro y hy
    rw [rc a y, if_pos rfl, if_pos hy]
  · rw [rc a b, if_pos rfl, if_pos hb, div_self hp0]
  · intro hr x hx hxa
    rw [rc x b, if_neg hxa]
    by_cases hbig : fabs (M.matrix x b) > DBL_EPSILON
    · rw [if_pos ⟨⟨hx, hb⟩, hr, hbig⟩, if_pos hbig, div_self hp0, mul_one, sub_self]
    · have : ¬ ((x < M.m ∧ b < M.n) ∧ rowReduce = true ∧ fabs (M.matrix x b) > DBL_EPSILON) :=
        fun h => hbig h.2.2
      rw [if_neg this, if_neg hbig]
  · intro hr x y hxa
    have : ¬ ((x < M.m ∧ y < M.n) ∧ rowReduce = true ∧ fabs (M.matrix x b) > DBL_EPSILON) := by
      rintro ⟨-, h, -⟩
      rw [hr] at h
      exact Bool.false_ne_true h
    rw [rc x y, if_neg hxa, if_neg this]

/-- Claim C19, amended, at a concrete input: `pivot(0, 0, true)` on `[[2,4],[6,8]]`. -/
theorem C19_pivot_effect_witness :
    ∃ R, (ofArray [[2, 4], [6, 8]] 2 2).pivot 0 0 true = Except.ok R ∧
      R.m = (ofArray [[2, 4], [6, 8]] 2 2).m ∧ R.n = (ofArray [[2, 4], [6, 8]] 2 2).n ∧
      (∀ y, y < (ofArray [[2, 4], [6, 8]] 2 2).n → R.matrix 0 y =
        (ofArray [[2, 4], [6, 8]] 2 2).matrix 0 y / (ofArray [[2, 4], [6, 8]] 2 2).matrix 0 0) ∧
      R.matrix 0 0 = 1 ∧
      (true = true → ∀ x, x < (ofArray [[2, 4], [6, 8]] 2 2).m → x ≠ 0 →
        R.matrix x 0 = if fabs ((ofArray [[2, 4], [6, 8]] 2 2).matrix x 0) > DBL_EPSILON then 0
          else (ofArray [[2, 4], [6, 8]] 2 2).matrix x 0) ∧
      (true = false → ∀ x y, x ≠ 0 → R.matrix x y = (ofArray [[2, 4], [6, 8]] 2 2).matrix x y) :=
  C19_pivot_effect (ofArray [[2, 4], [6, 8]] 2 2) 0 0 true (by decide) (by decide) (by decide!)

/-- Claim C20: `swapRow(a, b)` throws "Row out of bounds" exactly when `a ≥ m`
or `b ≥ m`, with the receiver as it was; otherwise rows `a` and `b` are
exchanged and nothing else changes.  `swapCol(a, b)` throws "Column out of
bounds" exactly when `a ≥ n` or `b ≥ n`, with the receiver as it was;
otherwise columns `a` and `b` are exchanged and nothing else changes. -/
theorem C20_swap (M : Matrix) (a b : Nat) :
    (if a ≥ M.m ∨ b ≥ M.m then
      M.swapRow a b = Except.error ⟨"Row out of bounds"⟩ ∧ M.after (M.swapRow a b) = M
    else
      ∃ R, M.swapRow a b = Except.ok R ∧ M.after (M.swapRow a b) = R ∧
        R.m = M.m ∧ R.n = M.n ∧
        ∀ x y, R.matrix x y =
          if y < M.n then
            (if x = b then M.matrix a y else if x = a then M.matrix b y else M.matrix x y)
          else M.matrix x y) ∧
    (if a ≥ M.n ∨ b ≥ M.n then
      M.swapCol a b = Except.error ⟨"Column out of bounds"⟩ ∧ M.after (M.swapCol a b) = M
    else
      ∃ R, M.swapCol a b = Except.ok R ∧ M.after (M.swapCol a b) = R ∧
        R.m = M.m ∧ R.n = M.n ∧
        ∀ x y, R.matrix x y =
          if x < M.m then
            (if y = b then M.matrix x a else if y = a then M.matrix x b else M.matrix x y)
          else M.matrix x y) := by
  constructor
  · by_cases h : a ≥ M.m ∨ b ≥ M.m
    · have e : M.swapRow a b = Except.error ⟨"Row out of bounds"⟩ := by
        unfold swapRow; rw [if_pos h]
      rw [if_pos h, e]
      exact ⟨rfl, rfl⟩
    · rw [if_neg h]
      obtain ⟨R, hR, rm, rn, rc⟩ := swapRow_closed M a b (by omega) (by omega)
      exact ⟨R, hR, by rw [hR]; rfl, rm, rn, rc⟩
  · by_cases h : a ≥ M.n ∨ b ≥ M.n
    · have e : M.swapCol a b = Except.error ⟨"Column out of bounds"⟩ := by
        unfold swapCol; rw [if_pos h]
      rw [if_pos h, e]
      exact ⟨rfl, rfl⟩
    · rw [if_neg h]
      obtain ⟨R, hR, rm, rn, rc⟩ := swapCol_closed M a b (by omega) (by omega)
      exact ⟨R, hR, by rw [hR]; rfl, rm, rn, rc⟩

/-- Claim C21: on a square `A`, a call `LU()` without `b` that returns has
`solved == false` and `exists == false`; a call `LU(b)` with an `n × 1` `b`
that returns has `solved == true`, and `exists == false` exactly when some row
of the post-elimination matrix (field `A`) has all its entries within epsilon
of zero, in which case the caller's `b` is left as the elimination loop left
it (no substitution).  `LU` returns exactly when its elimination loop does. -/
theorem C21_LU_flags (n : Nat) (a bv : Nat → Nat → ℚ) (d : Int) :
    (match LUeliminate (Matrix.mk n n a) none d with
      | Except.error (e, b1, d1) => (Matrix.mk n n a).LU none d = ⟨Except.error e, b1, d1⟩
      | Except.ok s =>
        ∃ r, ((Matrix.mk n n a).LU none d).result = Except.ok r ∧ r.A = s.temp ∧
          r.solved = false ∧ r.exists = false) ∧
    (match LUeliminate (Matrix.mk n n a) (some (Matrix.mk n 1 bv)) d with
      | Except.error (e, b1, d1) =>
        (Matrix.mk n n a).LU (some (Matrix.mk n 1 bv)) d = ⟨Except.error e, b1, d1⟩
      | Except.ok s =>
        ∃ r, ((Matrix.mk n n a).LU (some (Matrix.mk n 1 bv)) d).result = Except.ok r ∧
          r.A = s.temp ∧ r.solved = true ∧
          (r.exists = false ↔ ∃ i, i < n ∧ rowNegligible r.A n i) ∧
          (r.exists = false → ((Matrix.mk n n a).LU (some (Matrix.mk n 1 bv)) d).b = s.b)) ∧
    (((ofArray [[2, 1], [1, 1]] 2 2).LU (some (ofArray [[3], [2]] 2 1)) 0).result.map
        (fun r => (r.solved, r.exists)) = Except.ok (true, true) ∧
      ((ofArray [[1, 1], [0, 0]] 2 2).LU (some (ofArray [[1], [2]] 2 1)) 0).result.map
        (fun r => (r.solved, r.exists, r.A.rows)) = Except.ok (true, false, [[0, 0], [1, 1]]) ∧
      ((ofArray [[1, 1], [0, 0]] 2 2).LU (some (ofArray [[1], [2]] 2 1)) 0).b.map rows =
        some [[2], [1]] ∧
      ((ofArray [[2, 1], [1, 1]] 2 2).LU none 0).result.map
        (fun r => (r.solved, r.exists)) = Except.ok (false, false)) := by
  refine ⟨?_, ?_, by decide!⟩
  · cases he : LUeliminate (Matrix.mk n n a) none d with
    | error p =>
      obtain ⟨e, b1, d1⟩ := p
      exact LU_of_eliminate_error _ _ d rfl (fun b0 h0 => by cases h0) e b1 d1 he
    | ok s =>
      obtain ⟨-, hb, -⟩ := LUeliminate_ok _ _ d s he
      have hLU := LU_of_eliminate_ok _ _ d rfl (fun b0 h0 => by cases h0) s he
      rw [hb rfl] at hLU
      simp only at hLU
      rw [hLU]
      exact ⟨_, rfl, rfl, rfl, rfl⟩
  · cases he : LUeliminate (Matrix.mk n n a) (some (Matrix.mk n 1 bv)) d with
    | error p =>
      obtain ⟨e, b1, d1⟩ := p
      exact LU_of_eliminate_error _ _ d rfl
        (fun b0 h0 => by cases h0; exact ⟨rfl, rfl⟩) e b1 d1 he
    | ok s =>
      obtain ⟨-, -, hb⟩ := LUeliminate_ok _ _ d s he
      obtain ⟨b1, hb1, -, -⟩ := hb _ rfl
      have hLU := LU_of_eliminate_ok _ _ d rfl
        (fun b0 h0 => by cases h0; exact ⟨rfl, rfl⟩) s he
      rw [hb1] at hLU
      simp only at hLU
      cases hscan : scanSingular s.temp n n with
      | true =>
        rw [hscan] at hLU
        simp only [Bool.not_true, Bool.false_eq_true, if_false] at hLU
        rw [hLU]
        refine ⟨_, rfl, rfl, rfl, ?_, fun _ => hb1.symm⟩
        simp only [true_iff]
        exact (scanSingular_true_iff s.temp n n).mp hscan
      | false =>
        rw [hscan] at hLU
        simp only [Bool.not_false, if_true] at hLU
        rw [hLU]
        refine ⟨_, rfl, rfl, rfl, ?_, fun h => by cases h⟩
        simp only [Bool.true_eq_false, false_iff]
        intro h
        have := (scanSingular_true_iff s.temp n n).mpr h
        rw [hscan] at this
        exact Bool.false_ne_true this

/-- Claim C22, checked at the failing input: for `A = [[2,1],[1,1]]` and
`b = [3,2]`, `LU(b)` returns with `exists == true`, the solution `[1,1]` is in
the caller's `b`, and the field `b` of the returned record is the empty
`0 × 0` matrix. -/
theorem C22_record_b_not_set (d : Int) :
    ((ofArray [[2, 1], [1, 1]] 2 2).LU (some (ofArray [[3], [2]] 2 1)) d).result.map
      (fun r => (r.exists, r.b.m, r.b.n, r.b.rows)) = Except.ok (true, 0, 0, []) ∧
    ((ofArray [[2, 1], [1, 1]] 2 2).LU (some (ofArray [[3], [2]] 2 1)) d).b.map rows =
      some [[1], [1]] := by
  rw [LU_detFactor _ _ d 0 rfl (fun b0 hb => by cases hb; exact ⟨rfl, rfl⟩)]
  decide!

/-- Claim C23, checked at the failing input: in `LU` on
`A = [[1,1,0],[1,1,1],[0,1,1]]` the working copy after step 0 is
`[[1,1,0],[0,0,1],[0,1,1]]`; at step 1 the diagonal entry is `0`, row 2 holds
an entry of magnitude 1 in column 1, and the search returns
`largestValue = 0`, so that row 1 is exchanged with the processed row 0. -/
theorem C23_search_picks_processed_row :
    ((zeros 3 3).identity.toOption.bind fun U =>
        (forLoopE (LUstep 3 3) 1 0
          ⟨ofArray [[1, 1, 0], [1, 1, 1], [0, 1, 1]] 3 3, zeros 3 3, U, none, 1⟩).toOption.map
          (fun s => (s.temp.rows, decide (fabs (s.temp.matrix 1 1) < DBL_EPSILON),
            fabs (s.temp.matrix 2 1), largestValue s.temp 3 1))) =
      some ([[1, 1, 0], [0, 0, 1], [0, 1, 1]], true, 1, 0) ∧
    ((zeros 3 3).identity.toOption.bind fun U =>
        (forLoopE (LUstep 3 3) 1 0
          ⟨ofArray [[1, 1, 0], [1, 1, 1], [0, 1, 1]] 3 3, zeros 3 3, U, none, 1⟩).toOption.bind
          (fun s => (LUswap 3 1 s).toOption.map (fun u => u.temp.rows))) =
      some [[0, 0, 1], [1, 1, 0], [0, 1, 1]] := by
  decide!

/-- Claim C24: whenever `LU` returns, the returned `L` is lower triangular
(`L[i][j] = 0` for `j > i`) and the returned `U` is upper triangular with unit
diagonal (`U[i][i] = 1` for `i < n`, `U[i][j] = 0` for `j < i`); for
`[[2,1],[1,1]]` they are `[[2,0],[1,1/2]]` and `[[1,1/2],[0,1]]`. -/
theorem C24_LU_triangular (A : Matrix) (b : Option Matrix) (d : Int) :
    (match (A.LU b d).result with
      | Except.error _ => True
      | Except.ok r =>
        (∀ i j, i < j → r.L.matrix i j = 0) ∧ (∀ i, i < A.n → r.U.matrix i i = 1) ∧
          (∀ i j, j < i → r.U.matrix i j = 0)) ∧
    ((ofArray [[2, 1], [1, 1]] 2 2).LU none 0).result.map (fun r => (r.L.rows, r.U.rows)) =
      Except.ok ([[2, 0], [1, 1 / 2]], [[1, 1 / 2], [0, 1]]) := by
  refine ⟨?_, by decide!⟩
  by_cases hsq : A.n = A.m
  · by_cases hb : ∀ b0, b = some b0 → b0.m = A.m ∧ b0.n = 1
    · cases he : LUeliminate A b d with
      | error p =>
        obtain ⟨e, b1, d1⟩ := p
        rw [LU_of_eliminate_error A b d hsq hb e b1 d1 he]
        trivial
      | ok s =>
        obtain ⟨hT, -, -⟩ := LUeliminate_ok A b d s he
        rw [LU_of_eliminate_ok A b d hsq hb s he]
        cases hsb : s.b with
        | none => exact hT
        | some b1 =>
          simp only
          cases hscan : scanSingular s.temp A.m A.n <;> exact hT
    · have hres : (A.LU b d).result =
          Except.error ⟨"Incompatible dimensions for Matrix b"⟩ := by
        cases b with
        | none => exact absurd (fun b0 h0 => by cases h0) hb
        | some b0 =>
          have hchk : decide (b0.m ≠ A.m ∨ b0.n ≠ 1) = true := by
            rw [decide_eq_true_iff]
            by_contra hc
            apply hb
            intro b1 h1
            cases h1
            constructor
            · by_contra h2; exact hc (Or.inl h2)
            · by_contra h2; exact hc (Or.inr h2)
          unfold LU
          rw [if_neg (not_not.mpr hsq)]
          simp only [hchk, if_true]
      rw [hres]
      trivial
  · have hres : (A.LU b d).result = Except.error ⟨"Not a square matrix"⟩ := by
      unfold LU
      rw [if_pos hsq]
    rw [hres]
    trivial

/-- Claim C25, checked at the failing input: `rref()` on `[[0,1],[1,0]]`
returns `[[0,1],[1,0]]`, whose second row has its leading entry in column 0,
to the left of the leading entry (column 1) of the row above it. -/
theorem C25_rref_not_echelon :
    (ofArray [[0, 1], [1, 0]] 2 2).rref.map rows = Except.ok [[0, 1], [1, 0]] := by
  decide!

/-- Claim C26: in `inverse()` on an `n × n` receiver `A`, after every number
`k ≤ n` of iterations of the elimination loop that have returned, the
accumulator and the working copy satisfy `inv · A = temp` in exact arithmetic;
hence a returned matrix `R` is the accumulator of the finished loop and the
product `R * A` computed by `operator*` is the final working copy, whether or
not that is the identity: for `A = [[1,1,0],[1,1,1],[0,1,1]]` both are
`[[1,0,0],[1,1,0],[-1,0,1]]`, for `A = [[4,3],[6,3]]` both are the identity. -/
theorem C26_inverse_invariant (n : Nat) (a : Nat → Nat → ℚ) :
    (∀ k I s, k ≤ n → (zeros n n).identity = Except.ok I →
      forLoopE (inverseStep n n) k 0 ⟨Matrix.mk n n a, I⟩ = Except.ok s →
      leftProduct n (Matrix.mk n n a) s) ∧
    (∀ R, (Matrix.mk n n a).inverse = Except.ok R →
      ∃ s P, inverseLoop (Matrix.mk n n a) = Except.ok s ∧ R = s.inv ∧
        leftProduct n (Matrix.mk n n a) s ∧
        R.mul (Matrix.mk n n a) = Except.ok P ∧ P.m = n ∧ P.n = n ∧
        ∀ r c, r < n → c < n → P.matrix r c = s.temp.matrix r c) ∧
    ((inverseLoop (ofArray [[1, 1, 0], [1, 1, 1], [0, 1, 1]] 3 3)).map (fun s => s.temp.rows) =
        Except.ok [[1, 0, 0], [1, 1, 0], [-1, 0, 1]] ∧
      ((ofArray [[1, 1, 0], [1, 1, 1], [0, 1, 1]] 3 3).inverse.bind
          (fun R => R.mul (ofArray [[1, 1, 0], [1, 1, 1], [0, 1, 1]] 3 3))).map rows =
        Except.ok [[1, 0, 0], [1, 1, 0], [-1, 0, 1]]) ∧
    ((inverseLoop (ofArray [[4, 3], [6, 3]] 2 2)).map (fun s => s.temp.rows) =
        Except.ok [[1, 0], [0, 1]] ∧
      ((ofArray [[4, 3], [6, 3]] 2 2).inverse.bind
          (fun R => R.mul (ofArray [[4, 3], [6, 3]] 2 2))).map rows =
        Except.ok [[1, 0], [0, 1]]) := by
  have hloop : ∀ k I s, k ≤ n → (zeros n n).identity = Except.ok I →
      forLoopE (inverseStep n n) k 0 ⟨Matrix.mk n n a, I⟩ = Except.ok s →
      s.temp.m = n ∧ s.temp.n = n ∧ s.inv.m = n ∧ s.inv.n = n ∧
        leftProduct n (Matrix.mk n n a) s := by
    intro k I s hk hI hs
    obtain ⟨im, iN, i0⟩ := leftProduct_initial n a I hI
    have := forLoopE_invariant (inverseStep n n)
      (fun _ t => t.temp.m = n ∧ t.temp.n = n ∧ t.inv.m = n ∧ t.inv.n = n ∧
        leftProduct n (Matrix.mk n n a) t)
      k 0 ⟨Matrix.mk n n a, I⟩ s ⟨rfl, rfl, im, iN, i0⟩
      (fun i t u _ hi hP hu => by
        obtain ⟨d1, d2, d3, d4, hinv⟩ := hP
        exact inverseStep_leftProduct n i (Matrix.mk n n a) t u (by omega) d1 d2 d3 d4 hu hinv)
      hs
    exact this
  refine ⟨fun k I s hk hI hs => (hloop k I s hk hI hs).2.2.2.2, fun R hR => ?_,
    ⟨by decide!, by decide!⟩, ⟨by decide!, by decide!⟩⟩
  unfold inverse at hR
  rw [if_neg (not_not.mpr rfl)] at hR
  cases hs : inverseLoop (Matrix.mk n n a) with
  | error e => rw [hs] at hR; cases hR
  | ok s =>
    rw [hs] at hR
    simp only at hR
    by_cases hscan : scanSingular s.temp n n = true
    · rw [if_pos hscan] at hR; cases hR
    · rw [if_neg hscan] at hR
      simp only [Except.ok.injEq] at hR
      obtain ⟨I, hI, -⟩ := LU_initial_U n
      have hs1 : forLoopE (inverseStep n n) n 0 ⟨Matrix.mk n n a, I⟩ = Except.ok s := by
        have h0 := hs
        unfold inverseLoop at h0
        simp only [hI] at h0
        exact h0
      obtain ⟨-, -, d3, d4, hinv⟩ := hloop n I s (Nat.le_refl n) hI hs1
      obtain ⟨P, hP, pm, pn, pc⟩ := mul_closed s.inv (Matrix.mk n n a) d4
      refine ⟨s, P, rfl, hR.symm, hinv, by rw [← hR]; exact hP, pm.trans d3, pn,
        fun r c hr hc => ?_⟩
      have hrc : r < s.inv.m ∧ c < (Matrix.mk n n a).n := ⟨by rw [d3]; exact hr, hc⟩
      rw [pc r c, if_pos hrc, d4]
      exact hinv r c hr hc

/-- Claim C27: on a `2 × 2` matrix `[[a,b],[c,d]]` with `|a| ≥ epsilon`, with
`c = 0` or `|c| > epsilon`, and with `|d − c·b/a| ≥ epsilon`, the two steps of
the elimination run without row exchange (each exchange step returns the
state it was given, and `detFactor` ends at `1`), `det()` returns exactly
`a·d − b·c`, and `LU()` returns `L`, `U` whose product computed by
`operator*` is the `2 × 2` matrix with the entries of `A`. -/
theorem C27_det_two_by_two (A : Matrix) (d0 : Int) (hm : A.m = 2) (hn : A.n = 2)
    (ha : fabs (A.matrix 0 0) ≥ DBL_EPSILON)
    (hc : A.matrix 1 0 = 0 ∨ fabs (A.matrix 1 0) > DBL_EPSILON)
    (hd : fabs (A.matrix 1 1 - A.matrix 1 0 * A.matrix 0 1 / A.matrix 0 0) ≥ DBL_EPSILON) :
    A.det d0 =
      (Except.ok (A.matrix 0 0 * A.matrix 1 1 - A.matrix 0 1 * A.matrix 1 0), 1) ∧
    (∃ U s1 s2, (zeros 2 2).identity = Except.ok U ∧
      LUswap 2 0 ⟨A, zeros 2 2, U, none, 1⟩ = Except.ok ⟨A, zeros 2 2, U, none, 1⟩ ∧
      LUstep 2 2 0 ⟨A, zeros 2 2, U, none, 1⟩ = Except.ok s1 ∧
      LUswap 2 1 s1 = Except.ok s1 ∧ LUstep 2 2 1 s1 = Except.ok s2 ∧
      LUeliminate A none d0 = Except.ok s2) ∧
    ∃ r P, (A.LU none d0).result = Except.ok r ∧ r.L.mul r.U = Except.ok P ∧
      P.m = 2 ∧ P.n = 2 ∧ ∀ i j, i < 2 → j < 2 → P.matrix i j = A.matrix i j := by
  obtain ⟨m, n, a⟩ := A
  simp only at hm hn ha hc hd
  subst hm hn
  have ha0 : a 0 0 ≠ 0 := ne_zero_of_not_fabs_lt _ (not_lt.mpr ha)
  obtain ⟨U, hU, um, un, uc⟩ := identity_closed (zeros 2 2) rfl
  obtain ⟨s1, s2, hsw0, hs1, hsw1, hs2, b2, d2, t00, t11, l00, l01, l10, l11, u00, u01, u10,
    u11⟩ := LU_two_by_two a U (fun x y => uc x y) (not_lt.mpr ha) hc (not_lt.mpr hd)
  obtain ⟨lm1, ln1, um1, un1⟩ := LUstep_dims 2 2 0 _ s1 hs1
  obtain ⟨lm2, ln2, um2, un2⟩ := LUstep_dims 2 2 1 s1 s2 hs2
  have hel : LUeliminate (Matrix.mk 2 2 a) none d0 = Except.ok s2 := by
    simp only [LUeliminate, hU, forLoopE, hs1, hs2]
  have hLU := LU_of_eliminate_ok (Matrix.mk 2 2 a) none d0 rfl (fun b0 h0 => by cases h0) s2 hel
  simp only [b2] at hLU
  have hscan : scanSingular s2.temp 2 2 = false := by
    rw [Bool.eq_false_iff]
    intro h
    obtain ⟨i, hi, -, hneg⟩ := (scanSingular_true_iff s2.temp 2 2).mp h
    have hi01 : i = 0 ∨ i = 1 := by omega
    rcases hi01 with rfl | rfl
    · exact hneg 0 (by omega) (by rw [t00]; exact fabs_one_gt)
    · exact hneg 1 (by omega) (by rw [t11]; exact fabs_one_gt)
  refine ⟨?_, ⟨U, s1, s2, hU, hsw0, hs1, hsw1, hs2, hel⟩, ?_⟩
  · unfold det
    rw [if_neg (not_not.mpr rfl)]
    simp only [hLU, hscan, Bool.false_eq_true, if_false, forLoop, l00, l11, d2]
    refine Prod.ext ?_ rfl
    show Except.ok _ = Except.ok _
    congr 1
    push_cast
    field_simp
    ring
  · have hdim : s2.L.n = s2.U.m := by
      rw [ln2, ln1, um2, um1, um]; rfl
    obtain ⟨P, hP, pm, pn, pc⟩ := mul_closed s2.L s2.U hdim
    have hLm : s2.L.m = 2 := by rw [lm2, lm1]; rfl
    have hLn : s2.L.n = 2 := by rw [ln2, ln1]; rfl
    have hUn : s2.U.n = 2 := by rw [un2, un1, un]; rfl
    refine ⟨_, P, by rw [hLU], hP, pm.trans hLm, pn.trans hUn, fun i j hi hj => ?_⟩
    have hij : i < s2.L.m ∧ j < s2.U.n := ⟨by omega, by omega⟩
    rw [pc i j, if_pos hij, hLn, Finset.sum_range_succ, Finset.sum_range_succ,
      Finset.sum_range_zero]
    show _ = a i j
    have hi01 : i = 0 ∨ i = 1 := by omega
    have hj01 : j = 0 ∨ j = 1 := by omega
    rcases hi01 with rfl | rfl <;> rcases hj01 with rfl | rfl
    · rw [l00, l01, u00, u10]; ring
    · rw [l00, l01, u01, u11]; field_simp
    · rw [l10, l11, u00, u10]; ring
    · rw [l10, l11, u01, u11]; ring

/-- Claim C27 at a concrete input: `A = [[4,3],[6,3]]`, where `det()` returns
`4·3 − 3·6 = −6`. -/
theorem C27_det_two_by_two_witness :
    (ofArray [[4, 3], [6, 3]] 2 2).det 0 =
      (Except.ok ((ofArray [[4, 3], [6, 3]] 2 2).matrix 0 0 *
          (ofArray [[4, 3], [6, 3]] 2 2).matrix 1 1 -
        (ofArray [[4, 3], [6, 3]] 2 2).matrix 0 1 *
          (ofArray [[4, 3], [6, 3]] 2 2).matrix 1 0), 1) ∧
    (∃ U s1 s2, (zeros 2 2).identity = Except.ok U ∧
      LUswap 2 0 ⟨ofArray [[4, 3], [6, 3]] 2 2, zeros 2 2, U, none, 1⟩ =
        Except.ok ⟨ofArray [[4, 3], [6, 3]] 2 2, zeros 2 2, U, none, 1⟩ ∧
      LUstep 2 2 0 ⟨ofArray [[4, 3], [6, 3]] 2 2, zeros 2 2, U, none, 1⟩ = Except.ok s1 ∧
      LUswap 2 1 s1 = Except.ok s1 ∧ LUstep 2 2 1 s1 = Except.ok s2 ∧
      LUeliminate (ofArray [[4, 3], [6, 3]] 2 2) none 0 = Except.ok s2) ∧
    ∃ r P, ((ofArray [[4, 3], [6, 3]] 2 2).LU none 0).result = Except.ok r ∧
      r.L.mul r.U = Except.ok P ∧ P.m = 2 ∧ P.n = 2 ∧
      ∀ i j, i < 2 → j < 2 → P.matrix i j = (ofArray [[4, 3], [6, 3]] 2 2).matrix i j :=
  C27_det_two_by_two (ofArray [[4, 3], [6, 3]] 2 2) 0 rfl rfl (by decide!)
    (Or.inr (by decide!)) (by decide!)

/-- Claim C28: what `det()` returns or throws on a matrix `A` is the same for
any two values `detFactor` held before the call. -/
theorem C28_det_ignores_old_detFactor (A : Matrix) (d d1 : Int) :
    (A.det d).1 = (A.det d1).1 :=
  det_detFactor A d d1

/-- Claim C29 as stated fails when the caller passes the receiver itself as
`b`: with the `1 × 1` matrix `A = [[2]]` at address 0, the call `A.LU(A)`
returns with `solved` and `exists` true and leaves `A = [[1]]`; with `b` at
another address the same call leaves `A = [[2]]`. -/
theorem C29_receiver_aliased :
    ((fun _ => ofArray [[2]] 1 1 : Heap) 0).rows = [[2]] ∧
    ((Heap.LU (fun _ => ofArray [[2]] 1 1) 0 (some 0) 0).heap 0).rows = [[1]] ∧
    (Heap.LU (fun _ => ofArray [[2]] 1 1) 0 (some 0) 0).result.map
      (fun r => (r.solved, r.exists)) = Except.ok (true, true) ∧
    ((Heap.LU (fun _ => ofArray [[2]] 1 1) 0 (some 1) 0).heap 0).rows = [[2]] := by
  decide!

/-- Claim C29, amended: with the caller's matrices held by address, `det()`
and `inverse()` leave every matrix, the receiver among them, as it was,
whether they return or throw; `LU` leaves every matrix but the one at the
address passed as `b` as it was and keeps the dimensions of every matrix, so
that the receiver is left as it was unless the caller passed the receiver
itself as `b`.  The three methods return or throw on the heap what they do on
values, and `LU` leaves at the address `b` what it leaves in `b` on values. -/
theorem C29_receiver_frame (h : Heap) (this : Nat) (b : Option Nat) (d : Int) :
    ((Heap.det h this d).heap = h ∧ (Heap.inverse h this).2 = h) ∧
    ((∀ a, b ≠ some a → (Heap.LU h this b d).heap a = h a) ∧
      (∀ a, ((Heap.LU h this b d).heap a).m = (h a).m ∧
        ((Heap.LU h this b d).heap a).n = (h a).n) ∧
      (b ≠ some this → (Heap.LU h this b d).heap this = h this)) ∧
    ((Heap.det h this d).result = ((h this).det d).1 ∧
      (Heap.det h this d).detFactor = ((h this).det d).2 ∧
      (Heap.inverse h this).1 = (h this).inverse ∧
      (Heap.LU h this b d).result = ((h this).LU (b.map h) d).result ∧
      (Heap.LU h this b d).detFactor = ((h this).LU (b.map h) d).detFactor ∧
      ((h this).LU (b.map h) d).b = b.map (Heap.LU h this b d).heap) := by
  obtain ⟨d1, d2, d3⟩ := Heap.det_heap h this d
  obtain ⟨i1, i2⟩ := Heap.inverse_heap h this
  obtain ⟨l1, l2, l3, l4, l5⟩ := Heap.LU_heap h this b d
  exact ⟨⟨d3, i2⟩, ⟨l4, l5, l4 this⟩, d1, d2, i1, l1, l2, l3⟩

/-- Claim C30: for every row count `m` of an `unsigned int`, the loop
`for (unsigned i = m-1; i >= 0 && i < m; i--)` leaves through its own test
within `m` iterations, having visited exactly `i = m−1, …, 0` (nothing when
`m = 0`); every pair `(i, j)` at which `U[i][j]` and `b[j][0]` are read has
`i, j < m`; and on the body of the back substitution the loop ends with the
`b` that `LU` uses. -/
theorem C30_back_substitution_loop (m : Nat) (hm : m < 4294967296) :
    forLoopDownFuel m (fun i (t : List Nat) => t ++ [i]) m (wrapDec m) [] =
      some (List.range m).reverse ∧
    (∀ p ∈ forLoopDown m (fun i (t : List (Nat × Nat)) =>
        forLoop (fun j t => t ++ [(i, j)]) (m - (i + 1)) (i + 1) t) m (wrapDec m) [],
      p.1 < m ∧ p.2 < m) ∧
    (∀ U y b : Matrix,
      forLoopDownFuel m (fun i (b : Matrix) =>
        let c := forLoop (fun j c => c + U.matrix i j * b.matrix j 0) (m - (i + 1)) (i + 1) 0
        b.set i 0 (y.matrix i 0 - c)) m (wrapDec m) b = some (backSubst m U y b)) := by
  have hfuel : ∀ {σ : Type} (body : Nat → σ → σ) (s : σ),
      forLoopDownFuel m body m (wrapDec m) s = some (forLoopDown m body m (wrapDec m) s) ∧
      forLoopDown m body m (wrapDec m) s =
        (List.range m).reverse.foldl (fun t j => body j t) s := by
    intro σ body s
    cases m with
    | zero =>
      exact ⟨by simp [forLoopDownFuel, forLoopDown], by simp [forLoopDown]⟩
    | succ k =>
      rw [wrapDec_succ k hm, forLoopDownFuel_run (k + 1) hm body k s (Nat.lt_succ_self k),
        forLoopDown_run (k + 1) hm body k s (Nat.lt_succ_self k)]
      exact ⟨rfl, rfl⟩
  refine ⟨?_, ?_, fun U y b => ?_⟩
  · rw [(hfuel _ _).1, (hfuel _ _).2, foldl_append_singleton, List.nil_append]
  · exact forLoopDown_invariant m _ (fun (t : List (Nat × Nat)) => ∀ p ∈ t, p.1 < m ∧ p.2 < m)
      (fun i t hi ht => by
        have := forLoop_invariant (fun j (t : List (Nat × Nat)) => t ++ [(i, j)])
          (fun _ t => ∀ p ∈ t, p.1 < m ∧ p.2 < m) (m - (i + 1)) (i + 1) t ht
          (fun j t hj1 hj2 ht p hp => by
            rcases List.mem_append.mp hp with h | h
            · exact ht p h
            · rw [List.mem_singleton] at h
              subst h
              exact ⟨hi, by omega⟩)
        exact this)
      m (wrapDec m) [] (fun p hp => by cases hp)
  · rw [(hfuel _ _).1]
    rfl

/-- Claim C30 at a concrete row count: `m = 3`. -/
theorem C30_back_substitution_loop_witness :
    3 < 4294967296 ∧
    (forLoopDownFuel 3 (fun i (t : List Nat) => t ++ [i]) 3 (wrapDec 3) [] =
      some (List.range 3).reverse ∧
    (∀ p ∈ forLoopDown 3 (fun i (t : List (Nat × Nat)) =>
        forLoop (fun j t => t ++ [(i, j)]) (3 - (i + 1)) (i + 1) t) 3 (wrapDec 3) [],
      p.1 < 3 ∧ p.2 < 3) ∧
    (∀ U y b : Matrix,
      forLoopDownFuel 3 (fun i (b : Matrix) =>
        let c := forLoop (fun j c => c + U.matrix i j * b.matrix j 0) (3 - (i + 1)) (i + 1) 0
        b.set i 0 (y.matrix i 0 - c)) 3 (wrapDec 3) b = some (backSubst 3 U y b))) :=
  ⟨by decide, C30_back_substitution_loop 3 (by decide)⟩

end LinAlg
